import Mathlib

/-!
Verification of the pasta-toolbox bit_vector library core.

This file contains a shallow embedding of the C++ sources (the packed bit
vector `BitVector`, the rank structures `Rank`, `FlatRank`, `WideRank`, the
select structures `RankSelect`, `FlatRankSelect`, `WideRankSelect`, and the
word-level primitives `popcount` and `select1_reverse`), together with
theorems settling the specification claims about them.

Machine integers are modelled as `Nat` with explicit wrap-around (`% 2 ^ 64`
or `% 2 ^ 32`) where the C++ unsigned arithmetic can overflow.  Reads from
uninitialized memory (the `tlx::SimpleVector ... NoInitNoDestroy` arrays) and
reads past the end of an array are modelled by an explicit `junk` parameter.
-/

namespace PastaBV

/-- 64-bit truncation, i.e. the value of a C++ `uint64_t`. -/
def wrap64 (x : Nat) : Nat := x % (2 ^ 64)

/-- C++ `uint64_t` subtraction `a - b` (wrap-around modulo `2 ^ 64`). -/
def sub64 (a b : Nat) : Nat := (a + (2 ^ 64 - b % 2 ^ 64)) % 2 ^ 64

/-- C++ `uint32_t` subtraction `a - b` (wrap-around modulo `2 ^ 32`). -/
def sub32 (a b : Nat) : Nat := (a + (2 ^ 32 - b % 2 ^ 32)) % 2 ^ 32

/-- C++ `~x` on a `uint64_t`: bitwise complement within 64 bits. -/
def compl64 (x : Nat) : Nat := x ^^^ (2 ^ 64 - 1)

/-- The bit of `w` at offset `i`, as a number (`0` or `1`). -/
def bitOf (w i : Nat) : Nat := (w >>> i) &&& 1

/-- Number of set bits among the lowest `f` bits of `w`
(`std::popcount` on a `uint64_t` is `popc 64`). -/
def popc : Nat → Nat → Nat
  | 0, _ => 0
  | f + 1, w => (w &&& 1) + popc f (w >>> 1)

/-! ### The `BitVector` container (bit_vector.hpp)

A `BitVector` stores `bit_size_` bits in `(bit_size_ >> 6) + 1` words of
64 bits, LSB-first inside each word.  `BitAccess::operator bool` reads
`(data_[position >> 6] >> (position & 63)) & 1`; `BitAccess::operator=`
writes via the branchless mask idiom. -/

structure BitVector where
  bit_size : Nat
  data : List Nat

/-- Well-formedness: the word count matches the constructor
(`size_ = (bit_size_ >> 6) + 1`) and every word is a 64-bit value. -/
def BitVector.wf (bv : BitVector) : Prop :=
  bv.data.length = (bv.bit_size >>> 6) + 1 ∧ ∀ w ∈ bv.data, w < 2 ^ 64

/-- `BitVector(size)`: words are uninitialized (modelled by `junk`). -/
def mkBitVector (size junk : Nat) : BitVector :=
  ⟨size, List.replicate ((size >>> 6) + 1) junk⟩

/-- `BitVector(size, init_value)`: all words filled with all-ones or zero. -/
def mkBitVectorFill (size : Nat) (init_value : Bool) : BitVector :=
  ⟨size, List.replicate ((size >>> 6) + 1) (if init_value then 2 ^ 64 - 1 else 0)⟩

/-- Read access `bv[index]` (`BitAccess::operator bool`). -/
def bvGet (bv : BitVector) (position : Nat) : Nat :=
  (bv.data.getD (position >>> 6) 0 >>> (position &&& 63)) &&& 1

/-- Write access `bv[index] = value` (`BitAccess::operator=`), using the
branchless idiom `word = (word & ~mask) | (-value & mask)`. -/
def bvSet (bv : BitVector) (position : Nat) (value : Bool) : BitVector :=
  let mask := 1 <<< (position &&& 63)
  let minusValue := if value then 2 ^ 64 - 1 else 0
  let w := bv.data.getD (position >>> 6) 0
  ⟨bv.bit_size, bv.data.set (position >>> 6) ((w &&& compl64 mask) ||| (minusValue &&& mask))⟩

/-! ### Basic bit-level lemmas -/

theorem bitOf_eq_testBit (w i : Nat) : bitOf w i = (w.testBit i).toNat := by
  rw [bitOf, Nat.and_one_is_mod, Nat.testBit_to_div_mod, Nat.shiftRight_eq_div_pow]
  rcases Nat.mod_two_eq_zero_or_one (w / 2 ^ i) with h | h <;> simp [h]

theorem and63_eq_mod (x : Nat) : x &&& 63 = x % 64 := by
  have h : (63 : Nat) = 2 ^ 6 - 1 := by norm_num
  rw [h, Nat.and_pow_two_sub_one_eq_mod]

theorem shiftRight6_eq_div (x : Nat) : x >>> 6 = x / 64 := by
  rw [Nat.shiftRight_eq_div_pow]

theorem testBit_compl64 (x i : Nat) (hi : i < 64) :
    (compl64 x).testBit i = !x.testBit i := by
  rw [compl64, Nat.testBit_xor, Nat.testBit_two_pow_sub_one]
  simp [hi]

theorem compl64_lt (x : Nat) (hx : x < 2 ^ 64) : compl64 x < 2 ^ 64 := by
  have h : ∀ i, 64 ≤ i → (compl64 x).testBit i = false := by
    intro i hi
    have hx' : x.testBit i = false :=
      Nat.testBit_lt_two_pow (Nat.lt_of_lt_of_le hx (Nat.pow_le_pow_right (by norm_num) hi))
    rw [compl64, Nat.testBit_xor, Nat.testBit_two_pow_sub_one, hx']
    simp [Nat.not_lt.2 hi]
  exact Nat.lt_pow_two_of_testBit _ h

/-- Positions in the same word with different bit index have different offsets. -/
theorem mod64_ne_of_ne (i j : Nat) (hne : i ≠ j) (hw : i / 64 = j / 64) :
    i % 64 ≠ j % 64 := by
  intro h
  have hi := Nat.div_add_mod i 64
  have hj := Nat.div_add_mod j 64
  omega

theorem bvGet_eq_testBit (bv : BitVector) (p : Nat) :
    bvGet bv p = ((bv.data.getD (p >>> 6) 0).testBit (p &&& 63)).toNat := by
  rw [bvGet, ← bitOf_eq_testBit, bitOf]

/-- The word produced by the branchless set idiom has the written bit at
offset `r`. -/
theorem setWord_testBit_eq (w : Nat) (v : Bool) (r : Nat) (hr : r < 64) :
    ((w &&& compl64 (1 <<< r)) |||
        ((if v then 2 ^ 64 - 1 else 0) &&& (1 <<< r))).testBit r = v := by
  rw [Nat.one_shiftLeft, Nat.testBit_or, Nat.testBit_and, Nat.testBit_and,
    testBit_compl64 _ _ hr, Nat.testBit_two_pow_self]
  cases v
  · simp
  · have h1 : ((2 : Nat) ^ 64 - 1).testBit r = true := by
      rw [Nat.testBit_two_pow_sub_one]
      simp [hr]
    rw [if_pos rfl, h1]
    simp

/-- The word produced by the branchless set idiom keeps every other bit. -/
theorem setWord_testBit_ne (w : Nat) (v : Bool) (r b : Nat) (hb : b ≠ r)
    (hb64 : b < 64) :
    ((w &&& compl64 (1 <<< r)) |||
        ((if v then 2 ^ 64 - 1 else 0) &&& (1 <<< r))).testBit b = w.testBit b := by
  rw [Nat.one_shiftLeft, Nat.testBit_or, Nat.testBit_and, Nat.testBit_and,
    testBit_compl64 _ _ hb64, Nat.testBit_two_pow]
  have hrb : decide (r = b) = false := by
    simp
    intro h
    exact hb h.symm
  rw [hrb]
  simp

/-- The branchless set idiom keeps the word a 64-bit value. -/
theorem setWord_lt (w : Nat) (v : Bool) (r : Nat) (hw : w < 2 ^ 64) (hr : r < 64) :
    ((w &&& compl64 (1 <<< r)) |||
        ((if v then 2 ^ 64 - 1 else 0) &&& (1 <<< r))) < 2 ^ 64 := by
  apply Nat.lt_pow_two_of_testBit
  intro i hi
  have h1 : w.testBit i = false :=
    Nat.testBit_lt_two_pow (Nat.lt_of_lt_of_le hw (Nat.pow_le_pow_right (by norm_num) hi))
  have h2 : Nat.testBit (1 <<< r) i = false := by
    rw [Nat.one_shiftLeft, Nat.testBit_two_pow]
    simp
    omega
  rw [Nat.testBit_or, Nat.testBit_and, Nat.testBit_and, h1, h2]
  simp

theorem getD_set_self {α : Type} (l : List α) (k : Nat) (a d : α)
    (hk : k < l.length) : (l.set k a).getD k d = a := by
  rw [List.getD_eq_getElem?_getD, List.getElem?_set_self (by simpa using hk)]
  rfl

theorem getD_set_ne {α : Type} (l : List α) (k : Nat) (a d : α) (m : Nat)
    (hk : k ≠ m) : (l.set k a).getD m d = l.getD m d := by
  rw [List.getD_eq_getElem?_getD, List.getElem?_set_ne hk, ← List.getD_eq_getElem?_getD]

/-- After `bv[i] = v`, reading position `i` yields `v`, and every other
position `j` is unchanged. -/
theorem bvSet_get (bv : BitVector) (hlen : bv.data.length = (bv.bit_size >>> 6) + 1)
    (i : Nat) (hi : i < bv.bit_size) (v : Bool) (j : Nat) :
    (bvGet (bvSet bv i v) i = (if v then 1 else 0)) ∧
      (j ≠ i → bvGet (bvSet bv i v) j = bvGet bv j) := by
  have hidx : i >>> 6 < bv.data.length := by
    rw [hlen, shiftRight6_eq_div, shiftRight6_eq_div]
    exact Nat.lt_succ_of_le (Nat.div_le_div_right (Nat.le_of_lt_succ (Nat.lt_succ_of_lt hi)))
  have hr : i &&& 63 < 64 := by
    rw [and63_eq_mod]
    exact Nat.mod_lt _ (by norm_num)
  have hset : (bvSet bv i v).data =
      bv.data.set (i >>> 6)
        ((bv.data.getD (i >>> 6) 0 &&& compl64 (1 <<< (i &&& 63))) |||
          ((if v then 2 ^ 64 - 1 else 0) &&& (1 <<< (i &&& 63)))) := rfl
  constructor
  · rw [bvGet_eq_testBit, hset, getD_set_self _ _ _ _ hidx, setWord_testBit_eq _ _ _ hr]
    cases v <;> rfl
  · intro hji
    rw [bvGet_eq_testBit, bvGet_eq_testBit, hset]
    by_cases hw : i >>> 6 = j >>> 6
    · rw [← hw, getD_set_self _ _ _ _ hidx]
      have hbne : j &&& 63 ≠ i &&& 63 := by
        rw [and63_eq_mod, and63_eq_mod]
        refine mod64_ne_of_ne j i hji ?_
        rw [shiftRight6_eq_div, shiftRight6_eq_div] at hw
        omega
      have hb64 : j &&& 63 < 64 := by
        rw [and63_eq_mod]
        exact Nat.mod_lt _ (by norm_num)
      rw [setWord_testBit_ne _ _ _ _ hbne hb64]
    · rw [getD_set_ne _ _ _ _ _ hw]



theorem bvSet_bit_size (bv : BitVector) (i : Nat) (v : Bool) :
    (bvSet bv i v).bit_size = bv.bit_size := rfl

theorem bvSet_length (bv : BitVector) (i : Nat) (v : Bool) :
    (bvSet bv i v).data.length = bv.data.length := by
  rw [bvSet]
  exact List.length_set ..

/-! ### `BitVector::resize` (bit_vector.hpp)

`tlx::SimpleVector::resize` reallocates, copies the first
`min(old, new)` words and leaves the remaining words uninitialized
(mode `NoInitNoDestroy`); the uninitialized tail is modelled by `junk`. -/

/-- Model of `tlx::SimpleVector<uint64_t>::resize`. -/
def svResize (l : List Nat) (newLen junk : Nat) : List Nat :=
  l.take newLen ++ List.replicate (newLen - l.length) junk

/-- Model of `std::fill_n(ptr + start, cnt, val)` on the word array. -/
def fillN (l : List Nat) (start cnt val : Nat) : List Nat :=
  l.take start ++ List.replicate cnt val ++ l.drop (start + cnt)

/-- The loop `for (i = old_bit_size; i < max_bitwise; ++i) operator[](i) = v`. -/
def bvSetRange (bv : BitVector) (start cnt : Nat) (v : Bool) : BitVector :=
  (List.range' start cnt).foldl (fun b i => bvSet b i v) bv

/-- `BitVector::resize(size)`. -/
def bvResize (bv : BitVector) (size junk : Nat) : BitVector :=
  ⟨size, svResize bv.data ((size >>> 6) + 1) junk⟩

/-- `BitVector::resize(size, init_value)`. -/
def bvResizeFill (bv : BitVector) (size : Nat) (init_value : Bool) (junk : Nat) :
    BitVector :=
  let old_bit_size := bv.bit_size
  let resized := bvResize bv size junk
  if old_bit_size < size then
    let max_bitwise := min size (((old_bit_size + 63) / 64) * 64)
    let bitwise := bvSetRange resized old_bit_size (max_bitwise - old_bit_size)
      init_value
    let old_size := (old_bit_size + 63) / 64
    let fill_value := if init_value then 2 ^ 64 - 1 else 0
    ⟨size, fillN bitwise.data old_size (((size >>> 6) + 1) - old_size) fill_value⟩
  else
    resized

theorem getD_append_left (l r : List Nat) (k : Nat) (hk : k < l.length) :
    (l ++ r).getD k 0 = l.getD k 0 := by
  rw [List.getD_eq_getElem?_getD, List.getElem?_append_left hk,
    ← List.getD_eq_getElem?_getD]

theorem getD_append_right (l r : List Nat) (k : Nat) (hk : l.length ≤ k) :
    (l ++ r).getD k 0 = r.getD (k - l.length) 0 := by
  rw [List.getD_eq_getElem?_getD, List.getElem?_append_right hk,
    ← List.getD_eq_getElem?_getD]

theorem getD_take_lt (l : List Nat) (n k : Nat) (hk : k < n) :
    (l.take n).getD k 0 = l.getD k 0 := by
  rw [List.getD_eq_getElem?_getD, List.getElem?_take_of_lt hk,
    ← List.getD_eq_getElem?_getD]

theorem getD_replicate_lt (n v k : Nat) (hk : k < n) :
    (List.replicate n v).getD k 0 = v := by
  rw [List.getD_eq_getElem?_getD, List.getElem?_replicate_of_lt hk]
  rfl

theorem svResize_length (l : List Nat) (n j : Nat) : (svResize l n j).length = n := by
  simp only [svResize, List.length_append, List.length_take, List.length_replicate]
  omega

theorem getD_svResize (l : List Nat) (n j k : Nat) (hk : k < n)
    (hk2 : k < l.length) : (svResize l n j).getD k 0 = l.getD k 0 := by
  rw [svResize, getD_append_left _ _ _ (by simp [List.length_take]; omega),
    getD_take_lt _ _ _ hk]

theorem fillN_length (l : List Nat) (start cnt v : Nat)
    (h : start + cnt ≤ l.length) : (fillN l start cnt v).length = l.length := by
  simp only [fillN, List.length_append, List.length_take, List.length_replicate,
    List.length_drop]
  omega

theorem getD_fillN_lt (l : List Nat) (start cnt v k : Nat) (hk : k < start)
    (hs : start ≤ l.length) : (fillN l start cnt v).getD k 0 = l.getD k 0 := by
  rw [fillN, List.append_assoc, getD_append_left _ _ _ (by simp [List.length_take]; omega),
    getD_take_lt _ _ _ hk]

theorem getD_fillN_mid (l : List Nat) (start cnt v k : Nat) (hk1 : start ≤ k)
    (hk2 : k < start + cnt) (hs : start ≤ l.length) :
    (fillN l start cnt v).getD k 0 = v := by
  rw [fillN, List.append_assoc,
    getD_append_right _ _ _ (by simp [List.length_take]; omega)]
  have hlen : (l.take start).length = start := by
    simp [List.length_take]
    omega
  rw [hlen, getD_append_left _ _ _ (by simp [List.length_replicate]; omega),
    getD_replicate_lt _ _ _ (by omega)]

/-- `bvGet` only looks at the word containing the position. -/
theorem bvGet_congr_word (a b : BitVector) (p : Nat)
    (h : a.data.getD (p >>> 6) 0 = b.data.getD (p >>> 6) 0) :
    bvGet a p = bvGet b p := by
  rw [bvGet, bvGet, h]

theorem bvSetRange_bit_size (bv : BitVector) (start cnt : Nat) (v : Bool) :
    (bvSetRange bv start cnt v).bit_size = bv.bit_size := by
  induction cnt generalizing bv start with
  | zero => rfl
  | succ n ih =>
    show ((List.range' start (n + 1)).foldl (fun b i => bvSet b i v) bv).bit_size = _
    rw [List.range'_succ]
    exact ih (bvSet bv start v) (start + 1)

theorem bvSetRange_length (bv : BitVector) (start cnt : Nat) (v : Bool) :
    (bvSetRange bv start cnt v).data.length = bv.data.length := by
  induction cnt generalizing bv start with
  | zero => rfl
  | succ n ih =>
    show ((List.range' start (n + 1)).foldl (fun b i => bvSet b i v) bv).data.length = _
    rw [List.range'_succ]
    exact (ih (bvSet bv start v) (start + 1)).trans (bvSet_length bv start v)

theorem bvSetRange_succ (bv : BitVector) (start n : Nat) (v : Bool) :
    bvSetRange bv start (n + 1) v = bvSetRange (bvSet bv start v) (start + 1) n v := by
  show (List.range' start (n + 1)).foldl (fun b i => bvSet b i v) bv = _
  rw [List.range'_succ]
  rfl

theorem bvSetRange_get_out (bv : BitVector)
    (hlen : bv.data.length = (bv.bit_size >>> 6) + 1) (start cnt : Nat) (v : Bool)
    (hcnt : start + cnt ≤ bv.bit_size) (p : Nat) (hp : p < start ∨ start + cnt ≤ p) :
    bvGet (bvSetRange bv start cnt v) p = bvGet bv p := by
  induction cnt generalizing bv start with
  | zero => rfl
  | succ n ih =>
    rw [bvSetRange_succ]
    have hlt : start < bv.bit_size := by omega
    have hne : p ≠ start := by omega
    have h1 := (bvSet_get bv hlen start hlt v p).2 hne
    have hlen' : (bvSet bv start v).data.length =
        ((bvSet bv start v).bit_size >>> 6) + 1 := by
      rw [bvSet_length, bvSet_bit_size, hlen]
    rw [ih (bvSet bv start v) hlen' (start + 1)
      (by rw [bvSet_bit_size]; omega) (by omega), h1]

theorem bvSetRange_get_in (bv : BitVector)
    (hlen : bv.data.length = (bv.bit_size >>> 6) + 1) (start cnt : Nat) (v : Bool)
    (hcnt : start + cnt ≤ bv.bit_size) (p : Nat) (hp1 : start ≤ p)
    (hp2 : p < start + cnt) :
    bvGet (bvSetRange bv start cnt v) p = (if v then 1 else 0) := by
  induction cnt generalizing bv start with
  | zero => omega
  | succ n ih =>
    rw [bvSetRange_succ]
    have hlt : start < bv.bit_size := by omega
    have hlen' : (bvSet bv start v).data.length =
        ((bvSet bv start v).bit_size >>> 6) + 1 := by
      rw [bvSet_length, bvSet_bit_size, hlen]
    by_cases hps : p = start
    · subst hps
      rw [bvSetRange_get_out (bvSet bv p v) hlen' (p + 1) n v
        (by rw [bvSet_bit_size]; omega) p (by omega)]
      exact (bvSet_get bv hlen p hlt v p).1
    · exact ih (bvSet bv start v) hlen' (start + 1)
        (by rw [bvSet_bit_size]; omega) (by omega) (by omega)

/-- Growing `resize(size, init_value)`: old bits are preserved and new bits
equal the fill value. -/
theorem bvResizeFill_spec (bv : BitVector)
    (hlen : bv.data.length = (bv.bit_size >>> 6) + 1) (size : Nat)
    (hgrow : bv.bit_size < size) (v : Bool) (junk : Nat) (j : Nat) :
    (j < bv.bit_size → bvGet (bvResizeFill bv size v junk) j = bvGet bv j) ∧
      (bv.bit_size ≤ j → j < size →
        bvGet (bvResizeFill bv size v junk) j = (if v then 1 else 0)) := by
  set n := bv.bit_size with hn
  set newLen := (size >>> 6) + 1 with hnewLen
  set old_size := (n + 63) / 64 with holdsize
  set mb := min size (((n + 63) / 64) * 64) with hmb
  have hresult : bvResizeFill bv size v junk =
      ⟨size, fillN (bvSetRange (bvResize bv size junk) n (mb - n) v).data old_size
        (newLen - old_size) (if v then 2 ^ 64 - 1 else 0)⟩ := by
    rw [bvResizeFill]
    simp only [← hn, if_pos hgrow]
  have hrlen : (bvResize bv size junk).data.length = newLen := svResize_length ..
  have hrwf : (bvResize bv size junk).data.length =
      ((bvResize bv size junk).bit_size >>> 6) + 1 := hrlen
  have hbsize : (bvResize bv size junk).bit_size = size := rfl
  have hmbsize : mb ≤ size := Nat.min_le_left ..
  have hsrlen : (bvSetRange (bvResize bv size junk) n (mb - n) v).data.length =
      newLen := by rw [bvSetRange_length, hrlen]
  have hos_le : old_size ≤ newLen := by
    rw [holdsize, hnewLen, shiftRight6_eq_div]
    omega
  have h64 : ∀ p : Nat, p >>> 6 = p / 64 := shiftRight6_eq_div
  constructor
  · intro hj
    have hk : j >>> 6 < old_size := by
      rw [h64]
      omega
    rw [hresult]
    have hfill : (fillN (bvSetRange (bvResize bv size junk) n (mb - n) v).data
        old_size (newLen - old_size) (if v then 2 ^ 64 - 1 else 0)).getD (j >>> 6) 0 =
        (bvSetRange (bvResize bv size junk) n (mb - n) v).data.getD (j >>> 6) 0 :=
      getD_fillN_lt _ _ _ _ _ hk (by omega)
    have h1 : bvGet (⟨size, fillN (bvSetRange (bvResize bv size junk) n (mb - n) v).data
        old_size (newLen - old_size) (if v then 2 ^ 64 - 1 else 0)⟩ : BitVector) j =
        bvGet (bvSetRange (bvResize bv size junk) n (mb - n) v) j :=
      bvGet_congr_word _ _ _ hfill
    rw [h1, bvSetRange_get_out _ hrwf _ _ _ (by rw [hbsize]; omega) _ (Or.inl hj)]
    refine bvGet_congr_word _ _ _ ?_
    refine getD_svResize _ _ _ _ ?_ ?_
    · rw [h64, h64]
      omega
    · rw [hlen, h64, h64]
      omega
  · intro hj1 hj2
    rw [hresult]
    by_cases hjmb : j < mb
    · have hk : j >>> 6 < old_size := by
        rw [h64]
        omega
      have hfill : (fillN (bvSetRange (bvResize bv size junk) n (mb - n) v).data
          old_size (newLen - old_size) (if v then 2 ^ 64 - 1 else 0)).getD (j >>> 6) 0 =
          (bvSetRange (bvResize bv size junk) n (mb - n) v).data.getD (j >>> 6) 0 :=
        getD_fillN_lt _ _ _ _ _ hk (by omega)
      rw [bvGet_congr_word _ _ _ hfill]
      exact bvSetRange_get_in _ hrwf _ _ _ (by rw [hbsize]; omega) _ hj1 (by omega)
    · have hmbeq : mb = old_size * 64 := by
        rw [hmb, holdsize]
        omega
      have hk1 : old_size ≤ j >>> 6 := by
        rw [h64]
        omega
      have hk2 : j >>> 6 < newLen := by
        rw [h64, hnewLen, h64]
        omega
      have hfill : (fillN (bvSetRange (bvResize bv size junk) n (mb - n) v).data
          old_size (newLen - old_size) (if v then 2 ^ 64 - 1 else 0)).getD (j >>> 6) 0 =
          (if v then 2 ^ 64 - 1 else 0) :=
        getD_fillN_mid _ _ _ _ _ hk1 (by omega) (by omega)
      rw [bvGet_eq_testBit]
      show (((fillN _ _ _ _).getD (j >>> 6) 0).testBit (j &&& 63)).toNat = _
      rw [hfill]
      have hb64 : j &&& 63 < 64 := by
        rw [and63_eq_mod]
        exact Nat.mod_lt _ (by norm_num)
      cases v
      · simp
      · have : ((2 : Nat) ^ 64 - 1).testBit (j &&& 63) = true := by
          rw [Nat.testBit_two_pow_sub_one]
          simp [hb64]
        rw [if_pos rfl, this, if_pos rfl]
        rfl

/-- Shrinking `resize(size)` preserves the first `size` bits. -/
theorem bvResize_shrink (bv : BitVector)
    (hlen : bv.data.length = (bv.bit_size >>> 6) + 1) (size junk : Nat)
    (hshrink : size < bv.bit_size) (j : Nat) (hj : j < size) :
    bvGet (bvResize bv size junk) j = bvGet bv j := by
  refine bvGet_congr_word _ _ _ (getD_svResize _ _ _ _ ?_ ?_)
  · rw [shiftRight6_eq_div, shiftRight6_eq_div]
    omega
  · rw [hlen, shiftRight6_eq_div, shiftRight6_eq_div]
    omega

/-- Shrinking `resize(size, init_value)` also preserves the first `size`
bits (the fill branch is not taken). -/
theorem bvResizeFill_shrink (bv : BitVector)
    (hlen : bv.data.length = (bv.bit_size >>> 6) + 1) (size : Nat) (v : Bool)
    (junk : Nat) (hshrink : size < bv.bit_size) (j : Nat) (hj : j < size) :
    bvGet (bvResizeFill bv size v junk) j = bvGet bv j := by
  rw [bvResizeFill]
  simp only [if_neg (by omega : ¬bv.bit_size < size)]
  exact bvResize_shrink bv hlen size junk hshrink j hj

/-! ### Bit-counting groundwork

`bitsCount ws i` is the specification-side number of ones among bit
positions `[0, i)` of the word list `ws` (LSB-first inside each word).
`pcWord`/`pcWords` mirror the library's `popcount<Words>` and
`popcount_zeros<Words>` primitives (popcount.hpp). -/

/-- Bit `i` of the packed word list (LSB-first within each 64-bit word). -/
def bitGet (ws : List Nat) (i : Nat) : Nat := bitOf (ws.getD (i / 64) 0) (i % 64)

/-- Number of ones among bit positions `[0, i)`. -/
def bitsCount (ws : List Nat) : Nat → Nat
  | 0 => 0
  | i + 1 => bitsCount ws i + bitGet ws i

/-- `popcount<1>` (`pol = true`) or `popcount_zeros<1>` (`pol = false`) of a
single 64-bit word. -/
def pcWord (pol : Bool) (w : Nat) : Nat :=
  if pol then popc 64 w else popc 64 (compl64 w)

/-- `popcount<k>` / `popcount_zeros<k>` applied to `k` words starting at
word index `start`. -/
def pcWords (pol : Bool) (ws : List Nat) (start : Nat) : Nat → Nat
  | 0 => 0
  | k + 1 => pcWords pol ws start k + pcWord pol (ws.getD (start + k) 0)

theorem bitOf_le_one (w i : Nat) : bitOf w i ≤ 1 := by
  rw [bitOf_eq_testBit]
  cases w.testBit i <;> simp

theorem popc_succ_high (f w : Nat) : popc (f + 1) w = popc f w + bitOf w f := by
  induction f generalizing w with
  | zero =>
    show (w &&& 1) + popc 0 (w >>> 1) = popc 0 w + bitOf w 0
    simp [popc, bitOf]
  | succ g ih =>
    show (w &&& 1) + popc (g + 1) (w >>> 1) =
      ((w &&& 1) + popc g (w >>> 1)) + bitOf w (g + 1)
    rw [ih (w >>> 1)]
    have hb : bitOf (w >>> 1) g = bitOf w (g + 1) := by
      rw [bitOf, bitOf, ← Nat.shiftRight_add, Nat.add_comm 1 g]
    omega

theorem popc_le (f w : Nat) : popc f w ≤ f := by
  induction f generalizing w with
  | zero => exact Nat.le_refl 0
  | succ g ih =>
    rw [popc_succ_high]
    have h1 := bitOf_le_one w g
    have h2 := ih w
    omega

theorem popc_zero_right (f : Nat) : popc f 0 = 0 := by
  induction f with
  | zero => rfl
  | succ g ih =>
    rw [popc_succ_high, ih, bitOf]
    simp

theorem bitOf_eq_zero_of_lt (w i : Nat) (h : w < 2 ^ i) : bitOf w i = 0 := by
  rw [bitOf_eq_testBit, Nat.testBit_lt_two_pow h]
  rfl

theorem popc_of_lt_pow (f k w : Nat) (h : w < 2 ^ f) :
    popc (f + k) w = popc f w := by
  induction k with
  | zero => rfl
  | succ g ih =>
    rw [← Nat.add_assoc, popc_succ_high, ih, bitOf_eq_zero_of_lt, Nat.add_zero]
    exact Nat.lt_of_lt_of_le h (Nat.pow_le_pow_right (by norm_num) (by omega))

theorem popc_add_split (a b w : Nat) :
    popc (a + b) w = popc a w + popc b (w >>> a) := by
  induction a generalizing w with
  | zero => simp [popc]
  | succ g ih =>
    have h1 : g + 1 + b = (g + b) + 1 := by omega
    rw [h1]
    show (w &&& 1) + popc (g + b) (w >>> 1) = ((w &&& 1) + popc g (w >>> 1)) + _
    rw [ih (w >>> 1), ← Nat.shiftRight_add, Nat.add_comm 1 g]
    omega

theorem popc_shiftLeft_low (s x : Nat) : popc s (x <<< s) = 0 := by
  induction s generalizing x with
  | zero => rfl
  | succ g ih =>
    show ((x <<< (g + 1)) &&& 1) + popc g ((x <<< (g + 1)) >>> 1) = 0
    have h1 : x <<< (g + 1) = (x <<< g) * 2 := by
      rw [Nat.shiftLeft_eq, Nat.shiftLeft_eq, Nat.pow_succ, ← Nat.mul_assoc]
    have h2 : (x <<< (g + 1)) &&& 1 = 0 := by
      rw [Nat.and_one_is_mod, h1, Nat.mul_mod_left]
    have h3 : (x <<< (g + 1)) >>> 1 = x <<< g := by
      rw [h1, Nat.shiftRight_succ, Nat.shiftRight_zero,
        Nat.mul_div_cancel _ (by norm_num)]
    rw [h2, h3, ih]

theorem popc_mod_pow (f w : Nat) : popc f (w % 2 ^ f) = popc f w := by
  induction f generalizing w with
  | zero => rfl
  | succ g ih =>
    show ((w % 2 ^ (g + 1)) &&& 1) + popc g ((w % 2 ^ (g + 1)) >>> 1) =
      (w &&& 1) + popc g (w >>> 1)
    have hdvd : (2 : Nat) ∣ 2 ^ (g + 1) := ⟨2 ^ g, by rw [Nat.pow_succ, Nat.mul_comm]⟩
    have h1 : (w % 2 ^ (g + 1)) &&& 1 = w &&& 1 := by
      rw [Nat.and_one_is_mod, Nat.and_one_is_mod, Nat.mod_mod_of_dvd _ hdvd]
    have h2 : (w % 2 ^ (g + 1)) >>> 1 = (w >>> 1) % 2 ^ g := by
      have he : (2 : Nat) ^ (g + 1) = 2 * 2 ^ g := by
        rw [Nat.pow_succ, Nat.mul_comm]
      rw [Nat.shiftRight_succ, Nat.shiftRight_zero, Nat.shiftRight_succ,
        Nat.shiftRight_zero, he, Nat.mod_mul_right_div_self]
    rw [h1, h2, ih]

/-- The shifted-tail popcount used by all rank queries:
`popcount(word << (64 - r))` counts the lowest `r` bits of the word. -/
theorem popc_shifted_tail (w r : Nat) (hr1 : r ≤ 64) (hw : w < 2 ^ 64) :
    popc 64 (wrap64 (w <<< (64 - r))) = popc r w := by
  set s := 64 - r with hs
  have hsum : s + r = 64 := by omega
  have h1 : wrap64 (w <<< s) = (w % 2 ^ r) <<< s := by
    have h64 : (2 : Nat) ^ 64 = 2 ^ s * 2 ^ r := by
      rw [← Nat.pow_add, hsum]
    rw [wrap64, Nat.shiftLeft_eq, Nat.shiftLeft_eq, h64, Nat.mul_comm w (2 ^ s),
      Nat.mul_comm (w % 2 ^ r) (2 ^ s), Nat.mul_mod_mul_left]
  rw [h1, ← hsum, popc_add_split, popc_shiftLeft_low, Nat.zero_add]
  have h2 : (w % 2 ^ r) <<< s >>> s = w % 2 ^ r := by
    rw [Nat.shiftLeft_eq, Nat.shiftRight_eq_div_pow,
      Nat.mul_div_cancel _ (Nat.pos_pow_of_pos s (by norm_num))]
  rw [h2, popc_mod_pow]

theorem popc_compl_plus (w : Nat) (hw : w < 2 ^ 64) (f : Nat) (hf : f ≤ 64) :
    popc f (compl64 w) + popc f w = f := by
  induction f with
  | zero => rfl
  | succ g ih =>
    rw [popc_succ_high, popc_succ_high]
    have hg : g < 64 := by omega
    have hb : bitOf (compl64 w) g + bitOf w g = 1 := by
      rw [bitOf_eq_testBit, bitOf_eq_testBit, testBit_compl64 _ _ hg]
      cases w.testBit g <;> rfl
    have := ih (by omega)
    omega

theorem pcWord_true (w : Nat) : pcWord true w = popc 64 w := rfl

theorem pcWord_false (w : Nat) (hw : w < 2 ^ 64) :
    pcWord false w = 64 - popc 64 w := by
  have h1 := popc_compl_plus w hw 64 (Nat.le_refl 64)
  have h2 : pcWord false w = popc 64 (compl64 w) := rfl
  have h3 := popc_le 64 w
  rw [h2]
  omega

theorem bitsCount_le (ws : List Nat) (i : Nat) : bitsCount ws i ≤ i := by
  induction i with
  | zero => exact Nat.le_refl 0
  | succ g ih =>
    show bitsCount ws g + bitGet ws g ≤ g + 1
    have := bitOf_le_one (ws.getD (g / 64) 0) (g % 64)
    rw [bitGet] at *
    omega

theorem bitsCount_succ (ws : List Nat) (i : Nat) :
    bitsCount ws (i + 1) = bitsCount ws i + bitGet ws i := rfl

/-- Counting bits across a partial word:
`bitsCount (64 k + r) = bitsCount (64 k) + popc r (word k)` for `r ≤ 64`. -/
theorem bitsCount_word_split (ws : List Nat) (k r : Nat) (hr : r ≤ 64) :
    bitsCount ws (64 * k + r) = bitsCount ws (64 * k) + popc r (ws.getD k 0) := by
  induction r with
  | zero => rfl
  | succ g ih =>
    have hg : g < 64 := by omega
    have h1 : 64 * k + (g + 1) = (64 * k + g) + 1 := by omega
    rw [h1, bitsCount_succ, ih (by omega), popc_succ_high]
    have hbit : bitGet ws (64 * k + g) = bitOf (ws.getD k 0) g := by
      rw [bitGet]
      have hd : (64 * k + g) / 64 = k := by omega
      have hm : (64 * k + g) % 64 = g := by omega
      rw [hd, hm]
    rw [hbit]
    omega

theorem bitsCount_words (ws : List Nat) (k : Nat) :
    bitsCount ws (64 * k) = pcWords true ws 0 k := by
  induction k with
  | zero => rfl
  | succ g ih =>
    have h1 : 64 * (g + 1) = 64 * g + 64 := by ring
    rw [h1, bitsCount_word_split ws g 64 (Nat.le_refl 64), ih]
    show _ = pcWords true ws 0 g + pcWord true (ws.getD (0 + g) 0)
    rw [Nat.zero_add, pcWord_true]

theorem pcWords_split (pol : Bool) (ws : List Nat) (start a b : Nat) :
    pcWords pol ws start (a + b) = pcWords pol ws start a + pcWords pol ws (start + a) b := by
  induction b with
  | zero => rfl
  | succ g ih =>
    show pcWords pol ws start (a + g) + pcWord pol (ws.getD (start + (a + g)) 0) = _
    rw [ih]
    show _ = _ + (pcWords pol ws (start + a) g + pcWord pol (ws.getD (start + a + g) 0))
    rw [Nat.add_assoc start a g]
    omega

theorem getD_lt_64 (ws : List Nat) (hb : ∀ w ∈ ws, w < 2 ^ 64) (i : Nat) :
    ws.getD i 0 < 2 ^ 64 := by
  by_cases h : i < ws.length
  · rw [List.getD_eq_getElem?_getD, List.getElem?_eq_getElem h]
    exact hb _ (List.getElem_mem ..)
  · rw [List.getD_eq_getElem?_getD, List.getElem?_eq_none (by omega)]
    norm_num

theorem pcWords_le (pol : Bool) (ws : List Nat) (start k : Nat)
    (hb : ∀ w ∈ ws, w < 2 ^ 64) : pcWords pol ws start k ≤ 64 * k := by
  induction k with
  | zero => exact Nat.le_refl 0
  | succ g ih =>
    show pcWords pol ws start g + pcWord pol (ws.getD (start + g) 0) ≤ 64 * (g + 1)
    have h1 : pcWord pol (ws.getD (start + g) 0) ≤ 64 := by
      rw [pcWord]
      cases pol <;> simp <;> exact popc_le ..
    omega

/-- `popcount_zeros` over a word range is the complement count. -/
theorem pcWords_false_eq (ws : List Nat) (hb : ∀ w ∈ ws, w < 2 ^ 64)
    (start k : Nat) :
    pcWords false ws start k = 64 * k - pcWords true ws start k := by
  induction k with
  | zero => rfl
  | succ g ih =>
    show pcWords false ws start g + pcWord false (ws.getD (start + g) 0) = _
    rw [ih, pcWord_false _ (getD_lt_64 ws hb _)]
    show _ = 64 * (g + 1) - (pcWords true ws start g + pcWord true (ws.getD (start + g) 0))
    have h1 : pcWords true ws start g ≤ 64 * g := pcWords_le true ws start g hb
    have h2 : popc 64 (ws.getD (start + g) 0) ≤ 64 := popc_le ..
    rw [pcWord_true]
    omega

/-! ### Classic `Rank` (rank.hpp)

Configuration `PopcntRankSelectConfig`: `L2_BIT_SIZE = 512`,
`L1_BIT_SIZE = 2048`, `L0_BIT_SIZE = 2^31`, word sizes `8 / 32 / 2^25`,
`SELECT_SAMPLE_RATE = 8192`.  The `uint32_t` L1 counter and the `uint16_t`
L2 counters never exceed `L0_BIT_SIZE = 2 ^ 31` resp. `512`, so plain `Nat`
addition models the C++ arithmetic exactly. -/

def PopcntConfig.L2_BIT_SIZE : Nat := 512
def PopcntConfig.L1_BIT_SIZE : Nat := 4 * PopcntConfig.L2_BIT_SIZE
def PopcntConfig.L0_BIT_SIZE : Nat := 2147483647 + 1
def PopcntConfig.L2_WORD_SIZE : Nat := PopcntConfig.L2_BIT_SIZE / 64
def PopcntConfig.L1_WORD_SIZE : Nat := PopcntConfig.L1_BIT_SIZE / 64
def PopcntConfig.L0_WORD_SIZE : Nat := PopcntConfig.L0_BIT_SIZE / 64
def PopcntConfig.SELECT_SAMPLE_RATE : Nat := 8192

/-- `L12Type` (l12_type.hpp): a 32-bit L1 entry plus three 10-bit L2 entries
packed into `l2_values`. -/
structure L12Type where
  l1 : Nat
  l2_values : Nat
deriving DecidableEq

/-- The `L12Type` constructor, packing the three L2 entries. -/
def mkL12 (l1 e0 e1 e2 : Nat) : L12Type :=
  ⟨l1, ((e2 &&& 1023) <<< 20) ||| ((e1 &&& 1023) <<< 10) ||| (e0 &&& 1023)⟩

/-- State of `Rank::init` (rank.hpp): the borrowed word buffer plus the
arrays and loop variables of the construction.  The running `data` pointer
always equals `data_ + 32 * l12_pos`, so it is not a separate field. -/
structure CRankState where
  ws : List Nat
  l0 : List Nat
  l12 : List L12Type
  l0_pos : Nat
  l12_pos : Nat
  l1_entry : Nat
deriving DecidableEq

/-- One iteration of the loop `while (data + 32 <= data_end)` in
`Rank::init`: three stored 8-word L2 counts, a fourth accumulated one, and
the L0 prefix-sum commit at `L0_WORD_SIZE / L1_WORD_SIZE` boundaries. -/
def cFullStep (pol : Bool) (st : CRankState) : CRankState :=
  let d := 32 * st.l12_pos
  let e0 := pcWords pol st.ws d 8
  let e1 := pcWords pol st.ws (d + 8) 8
  let e2 := pcWords pol st.ws (d + 16) 8
  let e3 := pcWords pol st.ws (d + 24) 8
  let new_l1_entry := st.l1_entry + e0 + e1 + e2 + e3
  let l12' := st.l12.set st.l12_pos (mkL12 st.l1_entry e0 e1 e2)
  let l12_pos' := st.l12_pos + 1
  if l12_pos' % (PopcntConfig.L0_WORD_SIZE / PopcntConfig.L1_WORD_SIZE) = 0 then
    { st with
      l12 := l12', l12_pos := l12_pos', l1_entry := 0,
      l0 := st.l0.set st.l0_pos (st.l0.getD (st.l0_pos - 1) 0 + new_l1_entry),
      l0_pos := st.l0_pos + 1 }
  else
    { st with l12 := l12', l12_pos := l12_pos', l1_entry := new_l1_entry }

/-- The loop `while (data + 32 <= data_end)` with explicit fuel. -/
def cFullLoop (pol : Bool) : Nat → CRankState → CRankState
  | 0, st => st
  | f + 1, st =>
    if 32 * st.l12_pos + 32 ≤ st.ws.length then cFullLoop pol f (cFullStep pol st)
    else st

/-- The tail loop `while (data + 8 < data_end)` of `Rank::init`, storing
8-word L2 counts into `l2_entries` (`l2s`); returns the updated entries,
`l2_pos` and the word index of `data`. -/
def cTailL2Loop (pol : Bool) (ws : List Nat) :
    Nat → Nat → List Nat → Nat → (List Nat × Nat × Nat)
  | 0, d, l2s, l2_pos => (l2s, l2_pos, d)
  | f + 1, d, l2s, l2_pos =>
    if d + 8 < ws.length then
      cTailL2Loop pol ws f (d + 8) (l2s.set l2_pos (pcWords pol ws d 8)) (l2_pos + 1)
    else (l2s, l2_pos, d)

/-- The tail loop `while (data < data_end)` of `Rank::init`, accumulating
the remaining words into `l2_entries[l2_pos]`. -/
def cTailWordLoop (pol : Bool) (ws : List Nat) (l2_pos : Nat) :
    Nat → Nat → List Nat → List Nat
  | 0, _, l2s => l2s
  | f + 1, d, l2s =>
    if d < ws.length then
      cTailWordLoop pol ws l2_pos f (d + 1)
        (l2s.set l2_pos (l2s.getD l2_pos 0 + pcWords pol ws d 1))
    else l2s

/-- The code after the full-block loop in `Rank::init`: the last (not full)
L12-block and the final L0 entry (`+=` on a never-written cell in the
boundary case, `UINT64_MAX` sentinel otherwise). -/
def cTail (pol : Bool) (st : CRankState) : CRankState :=
  match cTailL2Loop pol st.ws st.ws.length (32 * st.l12_pos) [0, 0, 0] 0 with
  | (l2s₀, l2_pos, d') =>
  let l2s := if l2_pos < 3 then cTailWordLoop pol st.ws l2_pos st.ws.length d' l2s₀
    else l2s₀
  let l12' := st.l12.set st.l12_pos
    (mkL12 st.l1_entry (l2s.getD 0 0) (l2s.getD 1 0) (l2s.getD 2 0))
  if st.l12_pos % (PopcntConfig.L0_WORD_SIZE / PopcntConfig.L1_WORD_SIZE) = 0 then
    { st with
      l12 := l12'
      l0 := st.l0.set st.l0_pos
        (wrap64 (st.l0.getD st.l0_pos 0 + (st.l0.getD (st.l0_pos - 1) 0 + st.l1_entry)))
      l0_pos := st.l0_pos + 1
      l1_entry := 0 }
  else
    { st with
      l12 := l12'
      l0 := st.l0.set st.l0_pos (2 ^ 64 - 1) }

/-- `Rank::Rank(bv)` / `Rank::init` over the raw words of the bit vector;
`junk` models the content of the uninitialized
`tlx::SimpleVector<..., NoInitNoDestroy>` arrays. -/
def cRankInit (pol : Bool) (ws : List Nat) (junk : Nat) : CRankState :=
  let ds := ws.length
  cTail pol (cFullLoop pol ds
    { ws := ws
      l0 := (List.replicate (ds / PopcntConfig.L0_WORD_SIZE + 2) junk).set 0 0
      l12 := List.replicate (ds / PopcntConfig.L1_WORD_SIZE + 1)
        (mkL12 junk junk junk junk)
      l0_pos := 1, l12_pos := 0, l1_entry := 0 })

/-- The partial-sum loop over the packed 10-bit L2 values in `Rank::rank1`. -/
def l2PartSum (l2_values : Nat) : Nat → Nat
  | 0 => 0
  | i + 1 => l2PartSum l2_values i + ((l2_values >>> (10 * i)) &&& 1023)

/-- `Rank::rank1` (rank.hpp).  The final subtraction for the
ZERO-optimized variant is exact (no wrap-around) because the stored counts
never exceed the block prefix length. -/
def cRank1 (pol : Bool) (st : CRankState) (index : Nat) : Nat :=
  let offset := (index / PopcntConfig.L2_BIT_SIZE) * 8
  let l1_pos := index / PopcntConfig.L1_BIT_SIZE
  let l2_pos := (index % PopcntConfig.L1_BIT_SIZE) / PopcntConfig.L2_BIT_SIZE
  let r0 := st.l0.getD (index / PopcntConfig.L0_BIT_SIZE) 0 +
    (st.l12.getD l1_pos ⟨0, 0⟩).l1
  let r1 := r0 + l2PartSum (st.l12.getD l1_pos ⟨0, 0⟩).l2_values l2_pos
  let r2 := if pol then r1 else
    (l1_pos * PopcntConfig.L1_BIT_SIZE + l2_pos * PopcntConfig.L2_BIT_SIZE) - r1
  let idx := index % PopcntConfig.L2_BIT_SIZE
  let r3 := r2 + pcWords true st.ws offset (idx / 64)
  if idx % 64 > 0 then
    r3 + popc 64 (wrap64 (st.ws.getD (offset + idx / 64) 0 <<< (64 - idx % 64)))
  else r3

/-- `Rank::rank0`. -/
def cRank0 (pol : Bool) (st : CRankState) (index : Nat) : Nat :=
  index - cRank1 pol st index

/-! ### Packed-field groundwork

The L12/BigL12 records and the broadword select pack bounded digits into a
single machine word.  `digitsVal k ds` is the value of the little-endian
digit list `ds` in base `2 ^ k`. -/

def digitsVal (k : Nat) : List Nat → Nat
  | [] => 0
  | d :: ds => d + (digitsVal k ds) <<< k

theorem addShift_testBit (a b k : Nat) (ha : a < 2 ^ k) (i : Nat) :
    (a + b <<< k).testBit i = if i < k then a.testBit i else b.testBit (i - k) := by
  rw [Nat.shiftLeft_eq, Nat.mul_comm b (2 ^ k), Nat.add_comm,
    Nat.testBit_mul_pow_two_add _ ha]

theorem addShift_lt (a b k m : Nat) (ha : a < 2 ^ k) (hb : b < 2 ^ m) :
    a + b <<< k < 2 ^ (k + m) := by
  rw [Nat.shiftLeft_eq, Nat.pow_add]
  calc a + b * 2 ^ k < (b + 1) * 2 ^ k := by
        rw [Nat.add_mul, Nat.one_mul, Nat.add_comm (b * 2 ^ k) (2 ^ k)]
        omega
    _ ≤ 2 ^ m * 2 ^ k := Nat.mul_le_mul_right _ (by omega)
    _ = 2 ^ k * 2 ^ m := Nat.mul_comm ..

theorem land_split (a b c d k : Nat) (ha : a < 2 ^ k) (hc : c < 2 ^ k) :
    (a + b <<< k) &&& (c + d <<< k) = (a &&& c) + (b &&& d) <<< k := by
  apply Nat.eq_of_testBit_eq
  intro i
  have hac : a &&& c < 2 ^ k := Nat.lt_of_le_of_lt (Nat.and_le_left) ha
  rw [Nat.testBit_and, addShift_testBit _ _ _ ha, addShift_testBit _ _ _ hc,
    addShift_testBit _ _ _ hac, Nat.testBit_and]
  by_cases h : i < k <;> simp [h, Nat.testBit_and]

theorem lor_split (a b c d k : Nat) (ha : a < 2 ^ k) (hc : c < 2 ^ k) :
    (a + b <<< k) ||| (c + d <<< k) = (a ||| c) + (b ||| d) <<< k := by
  apply Nat.eq_of_testBit_eq
  intro i
  have hac : a ||| c < 2 ^ k := Nat.or_lt_two_pow ha hc
  rw [Nat.testBit_or, addShift_testBit _ _ _ ha, addShift_testBit _ _ _ hc,
    addShift_testBit _ _ _ hac, Nat.testBit_or]
  by_cases h : i < k <;> simp [h, Nat.testBit_or]

theorem addShift_shiftRight (a b k : Nat) (ha : a < 2 ^ k) :
    (a + b <<< k) >>> k = b := by
  rw [Nat.shiftLeft_eq, Nat.shiftRight_eq_div_pow, Nat.add_mul_div_right _ _
    (Nat.pos_pow_of_pos k (by norm_num)), Nat.div_eq_of_lt ha, Nat.zero_add]

theorem addShift_mod (a b k : Nat) (ha : a < 2 ^ k) :
    (a + b <<< k) % 2 ^ k = a := by
  rw [Nat.shiftLeft_eq, Nat.add_mul_mod_self_right, Nat.mod_eq_of_lt ha]

theorem addShift_and_low (a b k : Nat) (ha : a < 2 ^ k) :
    (a + b <<< k) &&& (2 ^ k - 1) = a := by
  rw [Nat.and_pow_two_sub_one_eq_mod, addShift_mod _ _ _ ha]

/-- Bound on a digit-list value. -/
theorem digitsVal_lt (k : Nat) (ds : List Nat) (hd : ∀ d ∈ ds, d < 2 ^ k) :
    digitsVal k ds < 2 ^ (k * ds.length) := by
  induction ds with
  | nil => simp [digitsVal]
  | cons d ds ih =>
    show d + (digitsVal k ds) <<< k < 2 ^ (k * (ds.length + 1))
    have h1 : k * (ds.length + 1) = k + k * ds.length := by ring
    rw [h1]
    exact addShift_lt _ _ _ _ (hd d (by simp)) (ih (fun x hx => hd x (by simp [hx])))

/-- Shifting a digit-list value by whole digits drops them. -/
theorem digitsVal_shiftRight (k : Nat) (hk : 0 < k) (ds : List Nat)
    (hd : ∀ d ∈ ds, d < 2 ^ k) (i : Nat) :
    (digitsVal k ds) >>> (k * i) = digitsVal k (ds.drop i) := by
  induction i generalizing ds with
  | zero => simp
  | succ j ih =>
    cases ds with
    | nil => simp [digitsVal, Nat.shiftRight_eq_div_pow, Nat.zero_div, Nat.div_eq_of_lt,
        Nat.pos_pow_of_pos]
    | cons d ds =>
      have h1 : k * (j + 1) = k + k * j := by ring
      rw [h1, Nat.shiftRight_add]
      show ((d + (digitsVal k ds) <<< k) >>> k) >>> (k * j) = _
      rw [addShift_shiftRight _ _ _ (hd d (by simp)),
        ih ds (fun x hx => hd x (by simp [hx]))]
      rfl

/-- Extracting digit `i` by shift-and-mask. -/
theorem digitsVal_extract (k : Nat) (hk : 0 < k) (ds : List Nat)
    (hd : ∀ d ∈ ds, d < 2 ^ k) (i : Nat) :
    ((digitsVal k ds) >>> (k * i)) &&& (2 ^ k - 1) = ds.getD i 0 := by
  rw [digitsVal_shiftRight k hk ds hd i]
  cases hdrop : ds.drop i with
  | nil =>
    show (0 : Nat) &&& (2 ^ k - 1) = ds.getD i 0
    rw [Nat.zero_and]
    have hlen : ds.length ≤ i := by
      have hl := congrArg List.length hdrop
      rw [List.length_drop] at hl
      simp only [List.length_nil] at hl
      omega
    rw [List.getD_eq_getElem?_getD, List.getElem?_eq_none hlen]
    rfl
  | cons d rest =>
    show (d + (digitsVal k rest) <<< k) &&& (2 ^ k - 1) = ds.getD i 0
    have hdmem : d ∈ ds := by
      have : d ∈ ds.drop i := by rw [hdrop]; simp
      exact List.mem_of_mem_drop this
    rw [addShift_and_low _ _ _ (hd d hdmem)]
    have : ds.getD i 0 = (ds.drop i).getD 0 0 := by
      rw [List.getD_eq_getElem?_getD, List.getD_eq_getElem?_getD,
        List.getElem?_drop, Nat.add_zero]
    rw [this, hdrop]
    rfl

theorem or_shift_eq_add (a b k : Nat) (ha : a < 2 ^ k) :
    a ||| (b <<< k) = a + b <<< k := by
  have h0 : (0 : Nat) < 2 ^ k := Nat.pos_pow_of_pos k (by norm_num)
  have h1 : a ||| (b <<< k) = (a + 0 <<< k) ||| (0 + b <<< k) := by
    rw [Nat.zero_shiftLeft, Nat.add_zero, Nat.zero_add]
  rw [h1, lor_split _ _ _ _ _ ha h0]
  simp

theorem shiftLeft_lor (x y k : Nat) : (x <<< k) ||| (y <<< k) = (x ||| y) <<< k := by
  apply Nat.eq_of_testBit_eq
  intro i
  rw [Nat.testBit_or, Nat.testBit_shiftLeft, Nat.testBit_shiftLeft,
    Nat.testBit_shiftLeft, Nat.testBit_or]
  by_cases h : k ≤ i <;> simp [h]

/-- The packed `l2_values` of an `L12Type` with in-range entries is the
base-`2 ^ 10` digit value of the entries. -/
theorem mkL12_l2_values (l1 e0 e1 e2 : Nat) (h0 : e0 < 1024) (h1 : e1 < 1024)
    (h2 : e2 < 1024) :
    (mkL12 l1 e0 e1 e2).l2_values = digitsVal 10 [e0, e1, e2] := by
  have m0 : e0 &&& 1023 = e0 := by
    have h : (1023 : Nat) = 2 ^ 10 - 1 := by norm_num
    rw [h, Nat.and_pow_two_sub_one_eq_mod, Nat.mod_eq_of_lt h0]
  have m1 : e1 &&& 1023 = e1 := by
    have h : (1023 : Nat) = 2 ^ 10 - 1 := by norm_num
    rw [h, Nat.and_pow_two_sub_one_eq_mod, Nat.mod_eq_of_lt h1]
  have m2 : e2 &&& 1023 = e2 := by
    have h : (1023 : Nat) = 2 ^ 10 - 1 := by norm_num
    rw [h, Nat.and_pow_two_sub_one_eq_mod, Nat.mod_eq_of_lt h2]
  show ((e2 &&& 1023) <<< 20) ||| ((e1 &&& 1023) <<< 10) ||| (e0 &&& 1023) = _
  rw [m0, m1, m2]
  have h20 : e2 <<< 20 = (e2 <<< 10) <<< 10 := by
    rw [← Nat.shiftLeft_add]
  rw [h20, shiftLeft_lor, Nat.lor_comm _ e0,
    or_shift_eq_add _ _ _ (by omega : e0 < 2 ^ 10), Nat.lor_comm _ e1,
    or_shift_eq_add _ _ _ (by omega : e1 < 2 ^ 10)]
  simp [digitsVal, Nat.zero_shiftLeft]

/-- Prefix sums of a digit list. -/
def sumTake (ds : List Nat) : Nat → Nat
  | 0 => 0
  | i + 1 => sumTake ds i + ds.getD i 0

/-- Partial sums of the packed L2 fields recover prefix sums of the entries. -/
theorem l2PartSum_digits (ds : List Nat) (hd : ∀ d ∈ ds, d < 2 ^ 10) (i : Nat) :
    l2PartSum (digitsVal 10 ds) i = sumTake ds i := by
  induction i with
  | zero => rfl
  | succ g ih =>
    show l2PartSum (digitsVal 10 ds) g + ((digitsVal 10 ds >>> (10 * g)) &&& 1023) =
      sumTake ds g + ds.getD g 0
    have h : (1023 : Nat) = 2 ^ 10 - 1 := by norm_num
    rw [ih, h, digitsVal_extract 10 (by norm_num) ds hd g]

theorem cfgQ : PopcntConfig.L0_WORD_SIZE / PopcntConfig.L1_WORD_SIZE = 1048576 := rfl

theorem pcWords_quarters (pol : Bool) (ws : List Nat) (a : Nat) :
    pcWords pol ws a 32 = pcWords pol ws a 8 + pcWords pol ws (a + 8) 8 +
      pcWords pol ws (a + 16) 8 + pcWords pol ws (a + 24) 8 := by
  have h1 := pcWords_split pol ws a 8 24
  have h2 := pcWords_split pol ws (a + 8) 8 16
  have h3 := pcWords_split pol ws (a + 16) 8 8
  have e1 : (8 : Nat) + 24 = 32 := rfl
  have e2 : (8 : Nat) + 16 = 24 := rfl
  have e3 : (8 : Nat) + 8 = 16 := rfl
  rw [e1] at h1
  rw [e2] at h2
  rw [e3] at h3
  have a1 : a + 8 + 8 = a + 16 := by omega
  have a2 : a + 16 + 8 = a + 24 := by omega
  rw [a1] at h2
  rw [a2] at h3
  omega

/-- Invariant of the full-block loop of `Rank::init` after `k` iterations. -/
structure CInv (pol : Bool) (ws : List Nat) (junk k : Nat) (st : CRankState) :
    Prop where
  hws : st.ws = ws
  hl0len : st.l0.length = ws.length / 33554432 + 2
  hl12len : st.l12.length = ws.length / 32 + 1
  hpos : st.l12_pos = k
  hl0pos : st.l0_pos = k / 1048576 + 1
  hentry : st.l1_entry =
    pcWords pol ws (33554432 * (k / 1048576)) (32 * (k % 1048576))
  hl12 : ∀ p, p < k → st.l12.getD p ⟨0, 0⟩ =
    mkL12 (pcWords pol ws (33554432 * (p / 1048576)) (32 * (p % 1048576)))
      (pcWords pol ws (32 * p) 8) (pcWords pol ws (32 * p + 8) 8)
      (pcWords pol ws (32 * p + 16) 8)
  hl0q : ∀ q, q ≤ k / 1048576 → st.l0.getD q 0 = pcWords pol ws 0 (33554432 * q)
  hl0junk : ∀ q, k / 1048576 < q → q < st.l0.length → st.l0.getD q 0 = junk

/-- The invariant holds for the initial state of `Rank::init`. -/
theorem cInv_init (pol : Bool) (ws : List Nat) (junk : Nat) :
    CInv pol ws junk 0
      { ws := ws
        l0 := (List.replicate (ws.length / PopcntConfig.L0_WORD_SIZE + 2) junk).set 0 0
        l12 := List.replicate (ws.length / PopcntConfig.L1_WORD_SIZE + 1)
          (mkL12 junk junk junk junk)
        l0_pos := 1, l12_pos := 0, l1_entry := 0 } := by
  have hL0W : PopcntConfig.L0_WORD_SIZE = 33554432 := rfl
  have hL1W : PopcntConfig.L1_WORD_SIZE = 32 := rfl
  refine ⟨rfl, ?_, ?_, rfl, rfl, rfl, ?_, ?_, ?_⟩
  · show ((List.replicate _ junk).set 0 0).length = _
    rw [List.length_set, List.length_replicate, hL0W]
  · show (List.replicate _ _).length = _
    rw [List.length_replicate, hL1W]
  · intro p hp
    exact absurd hp (Nat.not_lt_zero p)
  · intro q hq
    have hq0 : q = 0 := by omega
    subst hq0
    show ((List.replicate _ junk).set 0 0).getD 0 0 = _
    rw [getD_set_self _ _ _ _ (by rw [List.length_replicate]; exact Nat.succ_pos _)]
    rfl
  · intro q hq hqlen
    show ((List.replicate _ junk).set 0 0).getD q 0 = junk
    rw [getD_set_ne _ _ _ _ _ (by omega)]
    refine getD_replicate_lt _ _ _ ?_
    revert hqlen
    show q < ((List.replicate (ws.length / PopcntConfig.L0_WORD_SIZE + 2) junk).set 0 0).length → _
    rw [List.length_set, List.length_replicate]
    exact fun h => h

/-- One full-block iteration preserves the invariant. -/
theorem cInv_step (pol : Bool) (ws : List Nat) (junk k : Nat) (st : CRankState)
    (hInv : CInv pol ws junk k st) (hguard : 32 * k + 32 ≤ ws.length) :
    CInv pol ws junk (k + 1) (cFullStep pol st) := by
  obtain ⟨hws, hl0len, hl12len, hpos, hl0pos, hentry, hl12, hl0q, hl0junk⟩ := hInv
  have hkfull : k + 1 ≤ ws.length / 32 := by omega
  have hl12k : k < st.l12.length := by
    rw [hl12len]
    omega
  have hnew : st.l1_entry + pcWords pol st.ws (32 * k) 8 +
      pcWords pol st.ws (32 * k + 8) 8 + pcWords pol st.ws (32 * k + 16) 8 +
      pcWords pol st.ws (32 * k + 24) 8 =
      pcWords pol ws (33554432 * (k / 1048576)) (32 * (k % 1048576) + 32) := by
    rw [hws, hentry]
    have hq := pcWords_quarters pol ws (32 * k)
    have hsplit := pcWords_split pol ws (33554432 * (k / 1048576))
      (32 * (k % 1048576)) 32
    have hbase : 33554432 * (k / 1048576) + 32 * (k % 1048576) = 32 * k := by
      have := Nat.div_add_mod k 1048576
      omega
    rw [hbase] at hsplit
    omega
  have hrec : st.l12.set k
      (mkL12 st.l1_entry (pcWords pol st.ws (32 * k) 8)
        (pcWords pol st.ws (32 * k + 8) 8) (pcWords pol st.ws (32 * k + 16) 8)) =
      st.l12.set k
        (mkL12 (pcWords pol ws (33554432 * (k / 1048576)) (32 * (k % 1048576)))
          (pcWords pol ws (32 * k) 8) (pcWords pol ws (32 * k + 8) 8)
          (pcWords pol ws (32 * k + 16) 8)) := by
    rw [hws, hentry]
  have hl12new : ∀ p, p < k + 1 →
      (st.l12.set k
        (mkL12 st.l1_entry (pcWords pol st.ws (32 * k) 8)
          (pcWords pol st.ws (32 * k + 8) 8)
          (pcWords pol st.ws (32 * k + 16) 8))).getD p ⟨0, 0⟩ =
      mkL12 (pcWords pol ws (33554432 * (p / 1048576)) (32 * (p % 1048576)))
        (pcWords pol ws (32 * p) 8) (pcWords pol ws (32 * p + 8) 8)
        (pcWords pol ws (32 * p + 16) 8) := by
    intro p hp
    rw [hrec]
    by_cases hpk : p = k
    · subst hpk
      rw [getD_set_self _ _ _ _ hl12k]
    · rw [getD_set_ne _ _ _ _ _ (by omega)]
      exact hl12 p (by omega)
  rw [cFullStep]
  simp only [cfgQ, hpos]
  by_cases hb : (k + 1) % 1048576 = 0
  · rw [if_pos hb]
    have hqsucc : (k + 1) / 1048576 = k / 1048576 + 1 := by omega
    have hl0idx : k / 1048576 + 1 < st.l0.length := by
      rw [hl0len]
      have h2 : (k + 1) / 1048576 ≤ ws.length / 32 / 1048576 :=
        Nat.div_le_div_right (by omega)
      have h3 : ws.length / 32 / 1048576 = ws.length / 33554432 := by
        rw [Nat.div_div_eq_div_mul]
      omega
    refine ⟨hws, ?_, ?_, rfl, ?_, ?_, hl12new, ?_, ?_⟩
    · show (st.l0.set st.l0_pos _).length = _
      rw [List.length_set, hl0len]
    · show (st.l12.set k _).length = _
      rw [List.length_set, hl12len]
    · show st.l0_pos + 1 = (k + 1) / 1048576 + 1
      omega
    · show (0 : Nat) = pcWords pol ws _ (32 * ((k + 1) % 1048576))
      rw [hb]
      rfl
    · intro q hq
      show (st.l0.set st.l0_pos
        (st.l0.getD (st.l0_pos - 1) 0 +
          (st.l1_entry + pcWords pol st.ws (32 * k) 8 +
            pcWords pol st.ws (32 * k + 8) 8 +
            pcWords pol st.ws (32 * k + 16) 8 +
            pcWords pol st.ws (32 * k + 24) 8))).getD q 0 =
        pcWords pol ws 0 (33554432 * q)
      rw [hqsucc] at hq
      by_cases hqk : q = k / 1048576 + 1
      · subst hqk
        rw [hl0pos, getD_set_self _ _ _ _ hl0idx]
        have hsub : k / 1048576 + 1 - 1 = k / 1048576 := by omega
        rw [hsub, hl0q _ (Nat.le_refl _), hnew]
        have hsplit := pcWords_split pol ws 0 (33554432 * (k / 1048576))
          (32 * (k % 1048576) + 32)
        rw [Nat.zero_add] at hsplit
        rw [← hsplit]
        congr 1
        have h1 := Nat.div_add_mod k 1048576
        omega
      · rw [hl0pos, getD_set_ne _ _ _ _ _ (by omega)]
        exact hl0q q (by omega)
    · intro q hq hqlen
      show (st.l0.set st.l0_pos _).getD q 0 = junk
      rw [List.length_set] at hqlen
      rw [hl0pos, getD_set_ne _ _ _ _ _ (by omega)]
      exact hl0junk q (by omega) hqlen
  · rw [if_neg hb]
    have hqeq : (k + 1) / 1048576 = k / 1048576 := by omega
    have hmod : (k + 1) % 1048576 = k % 1048576 + 1 := by omega
    refine ⟨hws, hl0len, ?_, rfl, ?_, ?_, hl12new, ?_, ?_⟩
    · show (st.l12.set k _).length = _
      rw [List.length_set, hl12len]
    · show st.l0_pos = (k + 1) / 1048576 + 1
      rw [hl0pos, hqeq]
    · show st.l1_entry + pcWords pol st.ws (32 * k) 8 +
        pcWords pol st.ws (32 * k + 8) 8 + pcWords pol st.ws (32 * k + 16) 8 +
        pcWords pol st.ws (32 * k + 24) 8 =
        pcWords pol ws (33554432 * ((k + 1) / 1048576)) (32 * ((k + 1) % 1048576))
      rw [hnew, hqeq, hmod]
      have harg : 32 * (k % 1048576 + 1) = 32 * (k % 1048576) + 32 := by omega
      rw [harg]
    · intro q hq
      rw [hqeq] at hq
      exact hl0q q hq
    · intro q hq hqlen
      rw [hqeq] at hq
      exact hl0junk q hq hqlen

/-- Running the full-block loop establishes the invariant at
`min (k + fuel) (data_size / 32)`. -/
theorem cFullLoop_inv (pol : Bool) (ws : List Nat) (junk : Nat) :
    ∀ f k st, CInv pol ws junk k st → k ≤ ws.length / 32 →
      CInv pol ws junk (min (k + f) (ws.length / 32)) (cFullLoop pol f st) := by
  intro f
  induction f with
  | zero =>
    intro k st hInv hk
    rw [cFullLoop]
    have : min (k + 0) (ws.length / 32) = k := by omega
    rw [this]
    exact hInv
  | succ g ih =>
    intro k st hInv hk
    rw [cFullLoop]
    have hws := hInv.hws
    have hpos := hInv.hpos
    by_cases hguard : 32 * st.l12_pos + 32 ≤ st.ws.length
    · rw [if_pos hguard]
      rw [hws, hpos] at hguard
      have hk1 : k + 1 ≤ ws.length / 32 := by omega
      have hstep := cInv_step pol ws junk k st hInv hguard
      have := ih (k + 1) (cFullStep pol st) hstep hk1
      have heq : min (k + 1 + g) (ws.length / 32) = min (k + (g + 1)) (ws.length / 32) := by
        omega
      rw [← heq]
      exact this
    · rw [if_neg hguard]
      rw [hws, hpos] at hguard
      have hkeq : k = ws.length / 32 := by omega
      have heq : min (k + (g + 1)) (ws.length / 32) = k := by omega
      rw [heq]
      exact hInv

theorem set_getD_self {α : Type} (l : List α) (k : Nat) (d : α) (hk : k < l.length) :
    l.set k (l.getD k d) = l := by
  apply List.ext_getElem
  · rw [List.length_set]
  · intro n h1 h2
    by_cases hnk : n = k
    · subst hnk
      rw [List.getElem_set_self]
      rw [List.getD_eq_getElem?_getD, List.getElem?_eq_getElem hk]
      rfl
    · rw [List.getElem_set_ne (by omega)]

/-- The trailing word-by-word loop accumulates the popcount of all words
from `d` to the end of the buffer into slot `l2_pos`. -/
theorem cTailWordLoop_spec (pol : Bool) (ws : List Nat) (l2_pos : Nat) :
    ∀ f d l2s, ws.length ≤ d + f → l2_pos < l2s.length →
      cTailWordLoop pol ws l2_pos f d l2s =
        l2s.set l2_pos (l2s.getD l2_pos 0 + pcWords pol ws d (ws.length - d)) := by
  intro f
  induction f with
  | zero =>
    intro d l2s hf hlen
    have hd : ws.length - d = 0 := by omega
    rw [hd]
    show l2s = l2s.set l2_pos (l2s.getD l2_pos 0 + 0)
    rw [Nat.add_zero, set_getD_self _ _ _ hlen]
  | succ g ih =>
    intro d l2s hf hlen
    rw [cTailWordLoop]
    by_cases hguard : d < ws.length
    · rw [if_pos hguard]
      rw [ih (d + 1) _ (by omega) (by rw [List.length_set]; exact hlen)]
      rw [List.set_set, getD_set_self _ _ _ _ hlen]
      have hsplit := pcWords_split pol ws d 1 (ws.length - d - 1)
      have harg : 1 + (ws.length - d - 1) = ws.length - d := by omega
      rw [harg] at hsplit
      have harg2 : ws.length - (d + 1) = ws.length - d - 1 := by omega
      rw [harg2, Nat.add_assoc, ← hsplit]
    · rw [if_neg hguard]
      have hd : ws.length - d = 0 := by omega
      rw [hd]
      show l2s = l2s.set l2_pos (l2s.getD l2_pos 0 + 0)
      rw [Nat.add_zero, set_getD_self _ _ _ hlen]

/-- The entries written by `t` iterations of the 8-word tail loop. -/
def setBlocks (pol : Bool) (ws : List Nat) (l2s : List Nat) (d l2_pos : Nat) :
    Nat → List Nat
  | 0 => l2s
  | t + 1 => (setBlocks pol ws l2s d l2_pos t).set (l2_pos + t)
      (pcWords pol ws (d + 8 * t) 8)

theorem setBlocks_length (pol : Bool) (ws l2s : List Nat) (d l2_pos t : Nat) :
    (setBlocks pol ws l2s d l2_pos t).length = l2s.length := by
  induction t with
  | zero => rfl
  | succ g ih =>
    show ((setBlocks pol ws l2s d l2_pos g).set _ _).length = _
    rw [List.length_set, ih]

theorem setBlocks_shift (pol : Bool) (ws : List Nat) (l2s : List Nat)
    (d l2_pos : Nat) (t : Nat) :
    setBlocks pol ws (l2s.set l2_pos (pcWords pol ws d 8)) (d + 8) (l2_pos + 1) t =
      setBlocks pol ws l2s d l2_pos (t + 1) := by
  induction t with
  | zero =>
    show l2s.set l2_pos (pcWords pol ws d 8) =
      (setBlocks pol ws l2s d l2_pos 0).set (l2_pos + 0) (pcWords pol ws (d + 8 * 0) 8)
    rw [Nat.add_zero, Nat.mul_zero, Nat.add_zero]
    rfl
  | succ g ih =>
    show (setBlocks pol ws (l2s.set l2_pos (pcWords pol ws d 8)) (d + 8)
        (l2_pos + 1) g).set (l2_pos + 1 + g) (pcWords pol ws (d + 8 + 8 * g) 8) = _
    rw [ih]
    show _ = (setBlocks pol ws l2s d l2_pos (g + 1)).set (l2_pos + (g + 1))
      (pcWords pol ws (d + 8 * (g + 1)) 8)
    have h1 : l2_pos + 1 + g = l2_pos + (g + 1) := by omega
    have h2 : d + 8 + 8 * g = d + 8 * (g + 1) := by omega
    rw [h1, h2]

theorem setBlocks_getD (pol : Bool) (ws l2s : List Nat) (d l2_pos t : Nat)
    (hlen : l2_pos + t ≤ l2s.length) (m : Nat) :
    (setBlocks pol ws l2s d l2_pos t).getD m 0 =
      if l2_pos ≤ m ∧ m < l2_pos + t then pcWords pol ws (d + 8 * (m - l2_pos)) 8
      else l2s.getD m 0 := by
  induction t with
  | zero =>
    have : ¬(l2_pos ≤ m ∧ m < l2_pos + 0) := by omega
    rw [if_neg this]
    rfl
  | succ g ih =>
    show ((setBlocks pol ws l2s d l2_pos g).set (l2_pos + g)
      (pcWords pol ws (d + 8 * g) 8)).getD m 0 = _
    by_cases hm : m = l2_pos + g
    · subst hm
      rw [getD_set_self _ _ _ _
        (by rw [setBlocks_length]; omega)]
      have hc : l2_pos ≤ l2_pos + g ∧ l2_pos + g < l2_pos + (g + 1) := by omega
      rw [if_pos hc]
      have : l2_pos + g - l2_pos = g := by omega
      rw [this]
    · rw [getD_set_ne _ _ _ _ _ (by omega), ih (by omega)]
      by_cases hc : l2_pos ≤ m ∧ m < l2_pos + g
      · rw [if_pos hc, if_pos (by omega)]
      · rw [if_neg hc, if_neg (by omega)]

/-- The 8-word tail loop writes `(R - 1) / 8` full L2 counts, where `R` is
the number of remaining words. -/
theorem cTailL2Loop_spec (pol : Bool) (ws : List Nat) :
    ∀ f d l2s l2_pos, ws.length ≤ d + 8 * f + 8 →
      cTailL2Loop pol ws f d l2s l2_pos =
        (setBlocks pol ws l2s d l2_pos ((ws.length - d - 1) / 8),
          l2_pos + (ws.length - d - 1) / 8, d + 8 * ((ws.length - d - 1) / 8)) := by
  intro f
  induction f with
  | zero =>
    intro d l2s l2_pos hf
    have ht : (ws.length - d - 1) / 8 = 0 := by omega
    rw [ht]
    show (l2s, l2_pos, d) = (setBlocks pol ws l2s d l2_pos 0, l2_pos + 0, d + 8 * 0)
    rw [Nat.add_zero, Nat.mul_zero, Nat.add_zero]
    rfl
  | succ g ih =>
    intro d l2s l2_pos hf
    rw [cTailL2Loop]
    by_cases hguard : d + 8 < ws.length
    · rw [if_pos hguard]
      rw [ih (d + 8) _ (l2_pos + 1) (by omega)]
      have ht : (ws.length - (d + 8) - 1) / 8 = (ws.length - d - 1) / 8 - 1 := by
        omega
      have ht1 : 1 ≤ (ws.length - d - 1) / 8 := by omega
      rw [ht, setBlocks_shift]
      have h1 : (ws.length - d - 1) / 8 - 1 + 1 = (ws.length - d - 1) / 8 := by
        omega
      have h2 : l2_pos + 1 + ((ws.length - d - 1) / 8 - 1) =
        l2_pos + (ws.length - d - 1) / 8 := by omega
      have h3 : d + 8 + 8 * ((ws.length - d - 1) / 8 - 1) =
        d + 8 * ((ws.length - d - 1) / 8) := by omega
      rw [h1, h2, h3]
    · rw [if_neg hguard]
      have ht : (ws.length - d - 1) / 8 = 0 := by omega
      rw [ht]
      show (l2s, l2_pos, d) = (setBlocks pol ws l2s d l2_pos 0, l2_pos + 0, d + 8 * 0)
      rw [Nat.add_zero, Nat.mul_zero, Nat.add_zero]
      rfl

/-- Characterization of the completed `Rank::init` structure: every L12
entry holds the running in-L0 count and the three truncated 8-word block
counts, and every cumulative L0 entry holds the prefix count. -/
structure CDone (pol : Bool) (ws : List Nat) (st : CRankState) : Prop where
  hws : st.ws = ws
  hl0len : st.l0.length = ws.length / 33554432 + 2
  hl12len : st.l12.length = ws.length / 32 + 1
  hl12 : ∀ p, p ≤ ws.length / 32 → st.l12.getD p ⟨0, 0⟩ =
    mkL12 (pcWords pol ws (33554432 * (p / 1048576)) (32 * (p % 1048576)))
      (pcWords pol ws (32 * p) (min 8 (ws.length - 32 * p)))
      (pcWords pol ws (32 * p + 8) (min 8 (ws.length - (32 * p + 8))))
      (pcWords pol ws (32 * p + 16) (min 8 (ws.length - (32 * p + 16))))
  hl0 : ∀ q, q ≤ ws.length / 32 / 1048576 →
    st.l0.getD q 0 = pcWords pol ws 0 (33554432 * q)

theorem getD_three (a b c : Nat) (m : Nat) (hm : m < 3) :
    ([a, b, c] : List Nat).getD m 0 = if m = 0 then a else if m = 1 then b else c := by
  interval_cases m <;> rfl

/-- Running `Rank::init` produces the characterized structure. -/
theorem cRankInit_done (pol : Bool) (ws : List Nat) (junk : Nat) :
    CDone pol ws (cRankInit pol ws junk) := by
  have hInv0 := cInv_init pol ws junk
  have hInv := cFullLoop_inv pol ws junk ws.length 0 _ hInv0 (Nat.zero_le _)
  have hmin : min (0 + ws.length) (ws.length / 32) = ws.length / 32 := by omega
  rw [hmin] at hInv
  rw [cRankInit]
  generalize hst1 : cFullLoop pol ws.length _ = st1 at hInv
  obtain ⟨hws, hl0len, hl12len, hpos, hl0pos, hentry, hl12, hl0q, hl0junk⟩ := hInv
  set full := ws.length / 32 with hfull
  set R := ws.length - 32 * full with hR
  have hR32 : R < 32 := by omega
  have hfull32 : 32 * full ≤ ws.length := by omega
  set t := (R - 1) / 8 with ht
  have ht3 : t ≤ 3 := by omega
  -- the L2 tail loop
  have hloop := cTailL2Loop_spec pol ws ws.length (32 * full) [0, 0, 0] 0 (by omega)
  have hlenR : ws.length - 32 * full - 1 = R - 1 := by omega
  rw [hlenR] at hloop
  have hzero : (0 : Nat) + (R - 1) / 8 = t := by omega
  rw [hzero] at hloop
  -- the final entries
  have hent : ∀ j, j < 3 →
      (if t < 3 then
        cTailWordLoop pol ws t ws.length (32 * full + 8 * ((R - 1) / 8))
          (setBlocks pol ws [0, 0, 0] (32 * full) 0 t)
      else setBlocks pol ws [0, 0, 0] (32 * full) 0 t).getD j 0 =
      pcWords pol ws (32 * full + 8 * j) (min 8 (ws.length - (32 * full + 8 * j))) := by
    intro j hj
    have hsb3 : (setBlocks pol ws [0, 0, 0] (32 * full) 0 t).length = 3 := by
      rw [setBlocks_length]
      rfl
    have hsbD := setBlocks_getD pol ws [0, 0, 0] (32 * full) 0 t
      (by simp only [List.length_cons, List.length_nil]; omega)
    by_cases htlt : t < 3
    · rw [if_pos htlt]
      rw [cTailWordLoop_spec pol ws t ws.length _ _ (by omega) (by omega)]
      have hD := hsbD t
      rw [if_neg (by omega)] at hD
      by_cases hjt : j = t
      · subst hjt
        rw [getD_set_self _ _ _ _ (by omega), hD,
          getD_three _ _ _ _ (by omega)]
        have hmin8 : min 8 (ws.length - (32 * full + 8 * t)) =
            ws.length - (32 * full + 8 * ((R - 1) / 8)) := by omega
        rw [hmin8]
        have hz : (if t = 0 then (0 : Nat) else if t = 1 then 0 else 0) = 0 := by
          split <;> try rfl
          split <;> rfl
        rw [hz, Nat.zero_add]
      · rw [getD_set_ne _ _ _ _ _ (by omega), hsbD j]
        by_cases hjlt : j < t
        · rw [if_pos (by omega)]
          have hs : j - 0 = j := by omega
          rw [hs]
          have hmin8 : min 8 (ws.length - (32 * full + 8 * j)) = 8 := by omega
          rw [hmin8]
        · rw [if_neg (by omega), getD_three _ _ _ _ hj]
          have hmin0 : min 8 (ws.length - (32 * full + 8 * j)) = 0 := by omega
          rw [hmin0]
          have hz : (if j = 0 then (0 : Nat) else if j = 1 then 0 else 0) = 0 := by
            split <;> try rfl
            split <;> rfl
          rw [hz]
          rfl
    · rw [if_neg htlt]
      rw [hsbD j]
      have ht3' : t = 3 := by omega
      rw [if_pos (by omega)]
      have hs : j - 0 = j := by omega
      rw [hs]
      have hmin8 : min 8 (ws.length - (32 * full + 8 * j)) = 8 := by omega
      rw [hmin8]
  -- now unfold the tail
  rw [cTail]
  rw [hws, hpos, hloop]
  dsimp only
  have hl12full : full < st1.l12.length := by omega
  have hl12set : ∀ (x : L12Type), ∀ p, p ≤ full →
      (st1.l12.set full x).getD p ⟨0, 0⟩ =
        if p = full then x else st1.l12.getD p ⟨0, 0⟩ := by
    intro x p hp
    by_cases hpf : p = full
    · subst hpf
      rw [if_pos rfl, getD_set_self _ _ _ _ hl12full]
    · rw [if_neg hpf, getD_set_ne _ _ _ _ _ (by omega)]
  have hl1full : st1.l1_entry =
      pcWords pol ws (33554432 * (full / 1048576)) (32 * (full % 1048576)) := hentry
  have hmain : ∀ p, p ≤ full →
      (st1.l12.set full
        (mkL12 st1.l1_entry
          ((if t < 3 then
              cTailWordLoop pol ws t ws.length (32 * full + 8 * ((R - 1) / 8))
                (setBlocks pol ws [0, 0, 0] (32 * full) 0 t)
            else setBlocks pol ws [0, 0, 0] (32 * full) 0 t).getD 0 0)
          ((if t < 3 then
              cTailWordLoop pol ws t ws.length (32 * full + 8 * ((R - 1) / 8))
                (setBlocks pol ws [0, 0, 0] (32 * full) 0 t)
            else setBlocks pol ws [0, 0, 0] (32 * full) 0 t).getD 1 0)
          ((if t < 3 then
              cTailWordLoop pol ws t ws.length (32 * full + 8 * ((R - 1) / 8))
                (setBlocks pol ws [0, 0, 0] (32 * full) 0 t)
            else setBlocks pol ws [0, 0, 0] (32 * full) 0 t).getD 2 0))).getD p ⟨0, 0⟩ =
      mkL12 (pcWords pol ws (33554432 * (p / 1048576)) (32 * (p % 1048576)))
        (pcWords pol ws (32 * p) (min 8 (ws.length - 32 * p)))
        (pcWords pol ws (32 * p + 8) (min 8 (ws.length - (32 * p + 8))))
        (pcWords pol ws (32 * p + 16) (min 8 (ws.length - (32 * p + 16)))) := by
    intro p hp
    rw [hl12set _ p hp]
    by_cases hpf : p = full
    · subst hpf
      rw [if_pos rfl, hl1full, hent 0 (by omega), hent 1 (by omega),
        hent 2 (by omega)]
      have g0 : 32 * full + 8 * 0 = 32 * full := by omega
      have g1 : 32 * full + 8 * 1 = 32 * full + 8 := by omega
      have g2 : 32 * full + 8 * 2 = 32 * full + 16 := by omega
      rw [g0, g1, g2]
    · rw [if_neg hpf]
      have hplt : p < full := by omega
      rw [hl12 p hplt]
      have m0 : min 8 (ws.length - 32 * p) = 8 := by omega
      have m1 : min 8 (ws.length - (32 * p + 8)) = 8 := by omega
      have m2 : min 8 (ws.length - (32 * p + 16)) = 8 := by omega
      rw [m0, m1, m2]
  by_cases hbd : full % 1048576 = 0
  · rw [if_pos (by rw [cfgQ]; exact hbd)]
    refine ⟨rfl, ?_, ?_, hmain, ?_⟩
    · show (st1.l0.set st1.l0_pos _).length = _
      rw [List.length_set, hl0len]
    · show (st1.l12.set full _).length = _
      rw [List.length_set, hl12len]
    · intro q hq
      show (st1.l0.set st1.l0_pos _).getD q 0 = _
      rw [hl0pos, getD_set_ne _ _ _ _ _ (by omega)]
      exact hl0q q hq
  · rw [if_neg (by rw [cfgQ]; exact hbd)]
    refine ⟨rfl, ?_, ?_, hmain, ?_⟩
    · show (st1.l0.set st1.l0_pos _).length = _
      rw [List.length_set, hl0len]
    · show (st1.l12.set full _).length = _
      rw [List.length_set, hl12len]
    · intro q hq
      show (st1.l0.set st1.l0_pos _).getD q 0 = _
      rw [hl0pos, getD_set_ne _ _ _ _ _ (by omega)]
      exact hl0q q hq

/-- `Rank::rank1` is the prefix ones-count, for every polarity
specialization, every query index within the bit vector, and every content
of the uninitialized cells. -/
theorem cRank1_correct (pol : Bool) (ws : List Nat) (junk : Nat)
    (hb : ∀ w ∈ ws, w < 2 ^ 64) (n i : Nat) (hn : ws.length = n / 64 + 1)
    (hi : i ≤ n) : cRank1 pol (cRankInit pol ws junk) i = bitsCount ws i := by
  obtain ⟨hws, hl0len, hl12len, hl12, hl0⟩ := cRankInit_done pol ws junk
  have hids : i < 64 * ws.length := by omega
  set ds := ws.length with hds
  set full := ds / 32 with hfull
  set l1_pos := i / 2048 with hl1pos
  set l2_pos := i % 2048 / 512 with hl2pos
  set q := i / 2147483648 with hq
  have hl1full : l1_pos ≤ full := by omega
  have hqfull : q ≤ full / 1048576 := by omega
  have hqdiv : l1_pos / 1048576 = q := by
    rw [hl1pos, hq, Nat.div_div_eq_div_mul]
  have hrec := hl12 l1_pos hl1full
  -- the three packed entries
  set e0 := pcWords pol ws (32 * l1_pos) (min 8 (ds - 32 * l1_pos)) with he0
  set e1 := pcWords pol ws (32 * l1_pos + 8) (min 8 (ds - (32 * l1_pos + 8))) with he1
  set e2 := pcWords pol ws (32 * l1_pos + 16) (min 8 (ds - (32 * l1_pos + 16))) with he2
  have hbound : ∀ a c, pcWords pol ws a (min 8 c) < 1024 := by
    intro a c
    have h1 := pcWords_le pol ws a (min 8 c) hb
    have h2 : min 8 c ≤ 8 := by omega
    omega
  have hl2v : (cRankInit pol ws junk).l12.getD l1_pos ⟨0, 0⟩ =
      mkL12 (pcWords pol ws (33554432 * q) (32 * (l1_pos % 1048576))) e0 e1 e2 := by
    rw [hrec, hqdiv]
  have hl1val : ((cRankInit pol ws junk).l12.getD l1_pos ⟨0, 0⟩).l1 =
      pcWords pol ws (33554432 * q) (32 * (l1_pos % 1048576)) := by
    rw [hl2v]
    rfl
  have hl2vals : ((cRankInit pol ws junk).l12.getD l1_pos ⟨0, 0⟩).l2_values =
      digitsVal 10 [e0, e1, e2] := by
    rw [hl2v]
    exact mkL12_l2_values _ _ _ _ (hbound _ _) (hbound _ _) (hbound _ _)
  have hl0val : (cRankInit pol ws junk).l0.getD q 0 =
      pcWords pol ws 0 (33554432 * q) := hl0 q hqfull
  -- the partial sum of the L2 prefixes covers the 8-word blocks before the
  -- queried block
  have hl2le3 : l2_pos ≤ 3 := by omega
  have hblocks : 2048 * l1_pos + 512 * l2_pos ≤ i := by omega
  have hsum : pcWords pol ws 0 (33554432 * q) +
      pcWords pol ws (33554432 * q) (32 * (l1_pos % 1048576)) +
      sumTake [e0, e1, e2] l2_pos =
      pcWords pol ws 0 (32 * l1_pos + 8 * l2_pos) := by
    have hsp1 := pcWords_split pol ws 0 (33554432 * q) (32 * (l1_pos % 1048576))
    rw [Nat.zero_add] at hsp1
    have hq32 : 33554432 * q + 32 * (l1_pos % 1048576) = 32 * l1_pos := by
      have h1 := Nat.div_add_mod l1_pos 1048576
      omega
    rw [hq32] at hsp1
    have hmin8 : ∀ j, j < l2_pos → min 8 (ds - (32 * l1_pos + 8 * j)) = 8 := by
      intro j hj
      omega
    have hsp2 := pcWords_split pol ws 0 (32 * l1_pos) (8 * l2_pos)
    rw [Nat.zero_add] at hsp2
    rw [hsp2, ← hsp1]
    have htail : sumTake [e0, e1, e2] l2_pos = pcWords pol ws (32 * l1_pos) (8 * l2_pos) := by
      interval_cases l2_pos
      · rfl
      · show 0 + ([e0, e1, e2].getD 0 0) = _
        rw [Nat.zero_add]
        show e0 = _
        rw [he0]
        have h8 : min 8 (ds - 32 * l1_pos) = 8 := by
          have := hmin8 0 (by omega)
          omega
        rw [h8]
      · show 0 + ([e0, e1, e2].getD 0 0) + ([e0, e1, e2].getD 1 0) = _
        rw [Nat.zero_add]
        show e0 + e1 = _
        have h80 : min 8 (ds - 32 * l1_pos) = 8 := by
          have := hmin8 0 (by omega)
          omega
        have h81 : min 8 (ds - (32 * l1_pos + 8)) = 8 := hmin8 1 (by omega)
        rw [he0, he1, h80, h81]
        have hsp := pcWords_split pol ws (32 * l1_pos) 8 8
        have ha : (8 : Nat) + 8 = 8 * 2 := by omega
        rw [ha] at hsp
        rw [hsp]
      · show 0 + ([e0, e1, e2].getD 0 0) + ([e0, e1, e2].getD 1 0) +
          ([e0, e1, e2].getD 2 0) = _
        rw [Nat.zero_add]
        show e0 + e1 + e2 = _
        have h80 : min 8 (ds - 32 * l1_pos) = 8 := by
          have := hmin8 0 (by omega)
          omega
        have h81 : min 8 (ds - (32 * l1_pos + 8)) = 8 := hmin8 1 (by omega)
        have h82 : min 8 (ds - (32 * l1_pos + 16)) = 8 := hmin8 2 (by omega)
        rw [he0, he1, he2, h80, h81, h82]
        have hsp1' := pcWords_split pol ws (32 * l1_pos) 8 16
        have hsp2' := pcWords_split pol ws (32 * l1_pos + 8) 8 8
        have ha1 : (8 : Nat) + 16 = 8 * 3 := by omega
        have ha2 : (8 : Nat) + 8 = 16 := by omega
        rw [ha1] at hsp1'
        rw [ha2] at hsp2'
        have haddr : 32 * l1_pos + 8 + 8 = 32 * l1_pos + 16 := by omega
        rw [haddr] at hsp2'
        omega
    rw [htail]
  -- assemble rank1
  rw [cRank1]
  rw [hws]
  have hoffeq : i / PopcntConfig.L2_BIT_SIZE * 8 = 32 * l1_pos + 8 * l2_pos := by
    show i / 512 * 8 = _
    omega
  have hl1eq : i / PopcntConfig.L1_BIT_SIZE = l1_pos := by
    show i / 2048 = l1_pos
    rw [hl1pos]
  have hl2eq : i % PopcntConfig.L1_BIT_SIZE / PopcntConfig.L2_BIT_SIZE = l2_pos := by
    show i % 2048 / 512 = l2_pos
    rw [hl2pos]
  have hl0eq : i / PopcntConfig.L0_BIT_SIZE = q := by
    show i / (2147483647 + 1) = q
    rw [hq]
  rw [hoffeq, hl1eq, hl2eq, hl0eq, hl0val, hl1val, hl2vals,
    l2PartSum_digits [e0, e1, e2]
      (by
        intro d hd
        simp only [List.mem_cons, List.not_mem_nil, or_false] at hd
        rcases hd with h | h | h <;> subst h
        · rw [he0]; exact hbound _ _
        · rw [he1]; exact hbound _ _
        · rw [he2]; exact hbound _ _) l2_pos]
  set W := 32 * l1_pos + 8 * l2_pos with hW
  set idx := i % PopcntConfig.L2_BIT_SIZE with hidx
  have hidx512 : idx = i % 512 := rfl
  have hmid : (if pol then
      pcWords pol ws 0 (33554432 * q) +
        pcWords pol ws (33554432 * q) (32 * (l1_pos % 1048576)) +
        sumTake [e0, e1, e2] l2_pos
    else l1_pos * PopcntConfig.L1_BIT_SIZE + l2_pos * PopcntConfig.L2_BIT_SIZE -
      (pcWords pol ws 0 (33554432 * q) +
        pcWords pol ws (33554432 * q) (32 * (l1_pos % 1048576)) +
        sumTake [e0, e1, e2] l2_pos)) = pcWords true ws 0 W := by
    cases pol
    · rw [if_neg (by simp)]
      rw [hsum]
      have hbits : l1_pos * PopcntConfig.L1_BIT_SIZE +
          l2_pos * PopcntConfig.L2_BIT_SIZE = 64 * W := by
        show l1_pos * 2048 + l2_pos * 512 = 64 * W
        rw [hW]
        omega
      rw [hbits, pcWords_false_eq ws hb 0 W]
      have hle := pcWords_le true ws 0 W hb
      omega
    · rw [if_pos rfl, hsum]
  rw [hmid]
  have hsplitW := pcWords_split true ws 0 W (idx / 64)
  rw [Nat.zero_add] at hsplitW
  by_cases htb : idx % 64 > 0
  · rw [if_pos htb]
    rw [← hsplitW]
    have hword : ws.getD (W + idx / 64) 0 < 2 ^ 64 := getD_lt_64 ws hb _
    rw [popc_shifted_tail _ _ (by omega) hword]
    have hieq : 64 * (W + idx / 64) + idx % 64 = i := by
      rw [hidx512]
      omega
    conv_rhs => rw [← hieq]
    rw [bitsCount_word_split ws (W + idx / 64) (idx % 64) (by omega),
      bitsCount_words]
  · rw [if_neg htb]
    rw [← hsplitW]
    have hieq : 64 * (W + idx / 64) = i := by
      rw [hidx512]
      omega
    conv_rhs => rw [← hieq]
    rw [bitsCount_words]

/-! ### `FlatRank` (flat_rank.hpp)

Configuration `FlatRankSelectConfig`: `L2_BIT_SIZE = 512`,
`L1_BIT_SIZE = 4096`, word sizes `8 / 64`, `SELECT_SAMPLE_RATE = 8192`.
The `BigL12Type` packs a 44-bit L1 field (mask `0xFFFFFFFFFFF`) and seven
12-bit L2 prefix sums into one 128-bit value. -/

def FlatConfig.L2_BIT_SIZE : Nat := 512
def FlatConfig.L1_BIT_SIZE : Nat := 8 * FlatConfig.L2_BIT_SIZE
def FlatConfig.L2_WORD_SIZE : Nat := FlatConfig.L2_BIT_SIZE / 64
def FlatConfig.L1_WORD_SIZE : Nat := FlatConfig.L1_BIT_SIZE / 64
def FlatConfig.SELECT_SAMPLE_RATE : Nat := 8192

/-- The `BigL12Type` constructor (l12_type.hpp): the seven 12-bit entries at
bit offsets `44 + 12 i` above the 44-bit L1 field. -/
def mkBigL12 (l1 : Nat) (e : List Nat) : Nat :=
  ((e.getD 6 0 &&& 4095) <<< 116) ||| ((e.getD 5 0 &&& 4095) <<< 104) |||
  ((e.getD 4 0 &&& 4095) <<< 92) ||| ((e.getD 3 0 &&& 4095) <<< 80) |||
  ((e.getD 2 0 &&& 4095) <<< 68) ||| ((e.getD 1 0 &&& 4095) <<< 56) |||
  ((e.getD 0 0 &&& 4095) <<< 44) ||| (l1 &&& 0xFFFFFFFFFFF)

/-- `BigL12Type::operator[]`: entry 0 is implicit zero, entry `i ≥ 1` is
read at bit offset `12 i + 32`. -/
def bigL12Get (data : Nat) (index : Nat) : Nat :=
  if index = 0 then 0 else (data >>> (12 * index + 32)) &&& 4095

/-- `BigL12Type::l1()`. -/
def bigL12L1 (data : Nat) : Nat := data &&& 0xFFFFFFFFFFF

/-- State of `FlatRank::init`: the `data` pointer of the full-block loop
always equals `data_ + 64 * l12_end_`. -/
structure FRankState where
  ws : List Nat
  l12 : List Nat
  l12_end : Nat
  l1_entry : Nat
deriving DecidableEq

/-- One iteration of the loop `while (data + 64 < data_end)` in
`FlatRank::init`: seven cumulative 12-bit L2 prefix sums, then the L1
counter advances by the full 64 words. -/
def fFullStep (pol : Bool) (st : FRankState) : FRankState :=
  let d := 64 * st.l12_end
  let e0 := pcWords pol st.ws d 8
  let e1 := e0 + pcWords pol st.ws (d + 8) 8
  let e2 := e1 + pcWords pol st.ws (d + 16) 8
  let e3 := e2 + pcWords pol st.ws (d + 24) 8
  let e4 := e3 + pcWords pol st.ws (d + 32) 8
  let e5 := e4 + pcWords pol st.ws (d + 40) 8
  let e6 := e5 + pcWords pol st.ws (d + 48) 8
  { st with
    l12 := st.l12.set st.l12_end (mkBigL12 st.l1_entry [e0, e1, e2, e3, e4, e5, e6])
    l12_end := st.l12_end + 1
    l1_entry := st.l1_entry + e6 + pcWords pol st.ws (d + 56) 8 }

/-- The loop `while (data + 64 < data_end)` with explicit fuel. -/
def fFullLoop (pol : Bool) : Nat → FRankState → FRankState
  | 0, st => st
  | f + 1, st =>
    if 64 * st.l12_end + 64 < st.ws.length then fFullLoop pol f (fFullStep pol st)
    else st

/-- `std::partial_sum` on the `l2_entries` array. -/
def psAux (acc : Nat) : List Nat → List Nat
  | [] => []
  | x :: xs => (acc + x) :: psAux (acc + x) xs

/-- `std::partial_sum` starting from zero. -/
def partialSum (l : List Nat) : List Nat := psAux 0 l

/-- The tail of `FlatRank::init`: the last (not full) L1-block, reusing the
same `while (data + 8 < data_end)` / `while (data < data_end)` loop shapes
as the classic tail, then `std::partial_sum` before packing. -/
def fTail (pol : Bool) (st : FRankState) : FRankState :=
  match cTailL2Loop pol st.ws st.ws.length (64 * st.l12_end)
    [0, 0, 0, 0, 0, 0, 0] 0 with
  | (l2s₀, l2_pos, d') =>
    let l2s := if l2_pos < 7 then cTailWordLoop pol st.ws l2_pos st.ws.length d' l2s₀
      else l2s₀
    { st with
      l12 := st.l12.set st.l12_end (mkBigL12 st.l1_entry (partialSum l2s))
      l12_end := st.l12_end + 1 }

/-- `FlatRank::FlatRank(bv)` / `FlatRank::init`. -/
def fRankInit (pol : Bool) (ws : List Nat) (junk : Nat) : FRankState :=
  fTail pol (fFullLoop pol ws.length
    { ws := ws
      l12 := List.replicate (ws.length / FlatConfig.L1_WORD_SIZE + 1) junk
      l12_end := 0, l1_entry := 0 })

/-- `FlatRank::rank1` (flat_rank.hpp). -/
def fRank1 (pol : Bool) (st : FRankState) (index : Nat) : Nat :=
  let offset := (index / 512) * 8
  let l1_pos := index / FlatConfig.L1_BIT_SIZE
  let l2_pos := index % FlatConfig.L1_BIT_SIZE / FlatConfig.L2_BIT_SIZE
  let r0 := bigL12L1 (st.l12.getD l1_pos 0) + bigL12Get (st.l12.getD l1_pos 0) l2_pos
  let r1 := if pol then r0 else
    (l1_pos * FlatConfig.L1_BIT_SIZE + l2_pos * FlatConfig.L2_BIT_SIZE) - r0
  let idx := index % FlatConfig.L2_BIT_SIZE
  let r2 := r1 + pcWords true st.ws offset (idx / 64)
  if idx % 64 > 0 then
    r2 + popc 64 (wrap64 (st.ws.getD (offset + idx / 64) 0 <<< (64 - idx % 64)))
  else r2

/-- `FlatRank::rank0`. -/
def fRank0 (pol : Bool) (st : FRankState) (index : Nat) : Nat :=
  index - fRank1 pol st index

theorem or_digit_step (D e j : Nat) (he : e < 2 ^ 12) :
    (D <<< (j + 12)) ||| (e <<< j) = (e + D <<< 12) <<< j := by
  have h1 : D <<< (j + 12) = (D <<< 12) <<< j := by
    rw [Nat.add_comm, Nat.shiftLeft_add]
  rw [h1, shiftLeft_lor, Nat.lor_comm, or_shift_eq_add _ _ _ he]

/-- The packed `BigL12Type` with in-range fields is the L1 value plus the
base-`2 ^ 12` digit value of the seven entries shifted up by 44 bits. -/
theorem mkBigL12_eq (l1 e0 e1 e2 e3 e4 e5 e6 : Nat) (hl1 : l1 < 2 ^ 44)
    (h0 : e0 < 2 ^ 12) (h1 : e1 < 2 ^ 12) (h2 : e2 < 2 ^ 12) (h3 : e3 < 2 ^ 12)
    (h4 : e4 < 2 ^ 12) (h5 : e5 < 2 ^ 12) (h6 : e6 < 2 ^ 12) :
    mkBigL12 l1 [e0, e1, e2, e3, e4, e5, e6] =
      l1 + (digitsVal 12 [e0, e1, e2, e3, e4, e5, e6]) <<< 44 := by
  have m44 : (4095 : Nat) = 2 ^ 12 - 1 := by norm_num
  have mk : ∀ x : Nat, x < 2 ^ 12 → x &&& 4095 = x := by
    intro x hx
    rw [m44, Nat.and_pow_two_sub_one_eq_mod, Nat.mod_eq_of_lt hx]
  show ((e6 &&& 4095) <<< 116) ||| ((e5 &&& 4095) <<< 104) |||
    ((e4 &&& 4095) <<< 92) ||| ((e3 &&& 4095) <<< 80) |||
    ((e2 &&& 4095) <<< 68) ||| ((e1 &&& 4095) <<< 56) |||
    ((e0 &&& 4095) <<< 44) ||| (l1 &&& 0xFFFFFFFFFFF) = _
  rw [mk e0 h0, mk e1 h1, mk e2 h2, mk e3 h3, mk e4 h4, mk e5 h5, mk e6 h6]
  have a6 : (116 : Nat) = 104 + 12 := rfl
  rw [a6, or_digit_step _ _ _ h5]
  have a5 : (104 : Nat) = 92 + 12 := rfl
  rw [a5, or_digit_step _ _ _ h4]
  have a4 : (92 : Nat) = 80 + 12 := rfl
  rw [a4, or_digit_step _ _ _ h3]
  have a3 : (80 : Nat) = 68 + 12 := rfl
  rw [a3, or_digit_step _ _ _ h2]
  have a2 : (68 : Nat) = 56 + 12 := rfl
  rw [a2, or_digit_step _ _ _ h1]
  have a1 : (56 : Nat) = 44 + 12 := rfl
  rw [a1, or_digit_step _ _ _ h0]
  have hm1 : l1 &&& 0xFFFFFFFFFFF = l1 := by
    have h : (0xFFFFFFFFFFF : Nat) = 2 ^ 44 - 1 := by norm_num
    rw [h, Nat.and_pow_two_sub_one_eq_mod, Nat.mod_eq_of_lt hl1]
  rw [hm1, Nat.lor_comm, or_shift_eq_add _ _ _ hl1]
  simp [digitsVal, Nat.zero_shiftLeft]

/-- Reading back the L1 field of a packed `BigL12Type`. -/
theorem bigL12L1_eq (l1 b : Nat) (hl1 : l1 < 2 ^ 44) :
    bigL12L1 (l1 + b <<< 44) = l1 := by
  show (l1 + b <<< 44) &&& 0xFFFFFFFFFFF = l1
  have hm1 : (0xFFFFFFFFFFF : Nat) = 2 ^ 44 - 1 := by norm_num
  rw [hm1, addShift_and_low _ _ _ hl1]

/-- Reading back an L2 field of a packed `BigL12Type`. -/
theorem bigL12Get_eq (l1 : Nat) (ds : List Nat) (hl1 : l1 < 2 ^ 44)
    (hd : ∀ d ∈ ds, d < 2 ^ 12) (j : Nat) :
    bigL12Get (l1 + (digitsVal 12 ds) <<< 44) j =
      if j = 0 then 0 else ds.getD (j - 1) 0 := by
  by_cases hj : j = 0
  · rw [bigL12Get, if_pos hj, if_pos hj]
  · rw [bigL12Get, if_neg hj, if_neg hj]
    obtain ⟨m, hm⟩ : ∃ m, j = m + 1 := ⟨j - 1, by omega⟩
    subst hm
    have harg : 12 * (m + 1) + 32 = 44 + 12 * m := by omega
    rw [harg, Nat.shiftRight_add, addShift_shiftRight _ _ _ hl1]
    have hm1 : (4095 : Nat) = 2 ^ 12 - 1 := by norm_num
    rw [hm1, digitsVal_extract 12 (by norm_num) ds hd m]
    have hms : m + 1 - 1 = m := by omega
    rw [hms]

theorem getD_sevenZeros (j : Nat) : ([0, 0, 0, 0, 0, 0, 0] : List Nat).getD j 0 = 0 := by
  rcases j with _ | _ | _ | _ | _ | _ | _ | j <;> rfl

theorem sumDrop_cons (x : Nat) (xs : List Nat) (m : Nat) :
    sumTake (x :: xs) (m + 1) = x + sumTake xs m := by
  induction m with
  | zero =>
    show sumTake (x :: xs) 0 + (x :: xs).getD 0 0 = x + 0
    simp [sumTake]
  | succ g ih =>
    show sumTake (x :: xs) (g + 1) + (x :: xs).getD (g + 1) 0 = x + sumTake xs (g + 1)
    rw [ih]
    show x + sumTake xs g + xs.getD g 0 = x + (sumTake xs g + xs.getD g 0)
    omega

theorem psAux_length (acc : Nat) (l : List Nat) : (psAux acc l).length = l.length := by
  induction l generalizing acc with
  | nil => rfl
  | cons x xs ih =>
    show ((acc + x) :: psAux (acc + x) xs).length = xs.length + 1
    rw [List.length_cons, ih]

theorem psAux_getD (l : List Nat) : ∀ (acc m : Nat), m < l.length →
    (psAux acc l).getD m 0 = acc + sumTake l (m + 1) := by
  induction l with
  | nil => intro acc m hm; exact absurd hm (by simp)
  | cons x xs ih =>
    intro acc m hm
    cases m with
    | zero =>
      show acc + x = acc + sumTake (x :: xs) 1
      rw [sumDrop_cons]
      rfl
    | succ g =>
      show (psAux (acc + x) xs).getD g 0 = acc + sumTake (x :: xs) (g + 1 + 1)
      rw [ih (acc + x) g (by simpa using hm), sumDrop_cons]
      omega

theorem partialSum_getD (l : List Nat) (m : Nat) (hm : m < l.length) :
    (partialSum l).getD m 0 = sumTake l (m + 1) := by
  rw [partialSum, psAux_getD l 0 m hm, Nat.zero_add]

/-- The combined 8-word/word tail loops of `FlatRank::init` leave slot `j`
holding the truncated count of the `j`-th 8-word block after `d`. -/
theorem fTailEnt (pol : Bool) (ws : List Nat) (d : Nat) (hd : ws.length ≤ d + 64) :
    ∀ j, j < 7 →
    (if (ws.length - d - 1) / 8 < 7 then
        cTailWordLoop pol ws ((ws.length - d - 1) / 8) ws.length
          (d + 8 * ((ws.length - d - 1) / 8))
          (setBlocks pol ws [0, 0, 0, 0, 0, 0, 0] d 0 ((ws.length - d - 1) / 8))
      else setBlocks pol ws [0, 0, 0, 0, 0, 0, 0] d 0 ((ws.length - d - 1) / 8)).getD
        j 0 =
      pcWords pol ws (d + 8 * j) (min 8 (ws.length - (d + 8 * j))) := by
  intro j hj
  set t := (ws.length - d - 1) / 8 with ht
  have ht7 : t ≤ 7 := by omega
  have hsb7 : (setBlocks pol ws [0, 0, 0, 0, 0, 0, 0] d 0 t).length = 7 := by
    rw [setBlocks_length]
    rfl
  have hsbD := setBlocks_getD pol ws [0, 0, 0, 0, 0, 0, 0] d 0 t
    (by simp only [List.length_cons, List.length_nil]; omega)
  by_cases htlt : t < 7
  · rw [if_pos htlt]
    rw [cTailWordLoop_spec pol ws t ws.length _ _ (by omega) (by omega)]
    have hD := hsbD t
    rw [if_neg (by omega)] at hD
    by_cases hjt : j = t
    · subst hjt
      rw [getD_set_self _ _ _ _ (by omega), hD, getD_sevenZeros]
      have hmin8 : min 8 (ws.length - (d + 8 * t)) =
          ws.length - (d + 8 * t) := by omega
      rw [hmin8, Nat.zero_add]
    · rw [getD_set_ne _ _ _ _ _ (by omega), hsbD j]
      by_cases hjlt : j < t
      · rw [if_pos (by omega)]
        have hs : j - 0 = j := by omega
        rw [hs]
        have hmin8 : min 8 (ws.length - (d + 8 * j)) = 8 := by omega
        rw [hmin8]
      · rw [if_neg (by omega), getD_sevenZeros]
        have hmin0 : min 8 (ws.length - (d + 8 * j)) = 0 := by omega
        rw [hmin0]
        rfl
  · rw [if_neg htlt]
    rw [hsbD j]
    rw [if_pos (by omega)]
    have hs : j - 0 = j := by omega
    rw [hs]
    have hmin8 : min 8 (ws.length - (d + 8 * j)) = 8 := by omega
    rw [hmin8]

/-- Prefix sums of the truncated block counts telescope to a truncated count
of the whole range. -/
theorem sumTake_blocks (pol : Bool) (ws : List Nat) (d : Nat) (l : List Nat)
    (h : ∀ j, j < 7 →
      l.getD j 0 = pcWords pol ws (d + 8 * j) (min 8 (ws.length - (d + 8 * j)))) :
    ∀ m, m ≤ 7 → sumTake l m = pcWords pol ws d (min (8 * m) (ws.length - d)) := by
  intro m
  induction m with
  | zero =>
    intro _
    show (0 : Nat) = pcWords pol ws d (min (8 * 0) (ws.length - d))
    have h0 : min (8 * 0) (ws.length - d) = 0 := by omega
    rw [h0]
    rfl
  | succ g ih =>
    intro hg
    show sumTake l g + l.getD g 0 = _
    rw [ih (by omega), h g (by omega)]
    by_cases hc : d + 8 * g ≤ ws.length
    · have h1 : min (8 * g) (ws.length - d) = 8 * g := by omega
      rw [h1]
      have hsp := pcWords_split pol ws d (8 * g) (min 8 (ws.length - (d + 8 * g)))
      have h2 : 8 * g + min 8 (ws.length - (d + 8 * g)) =
          min (8 * (g + 1)) (ws.length - d) := by omega
      rw [h2] at hsp
      rw [hsp]
    · have h1 : min (8 * g) (ws.length - d) = ws.length - d := by omega
      have h2 : min 8 (ws.length - (d + 8 * g)) = 0 := by omega
      have h3 : min (8 * (g + 1)) (ws.length - d) = ws.length - d := by omega
      rw [h1, h2, h3]
      have h4 : pcWords pol ws (d + 8 * g) 0 = 0 := rfl
      rw [h4, Nat.add_zero]

/-- Invariant of the full-block loop of `FlatRank::init` after `k`
iterations: `k` packed records, each holding the global prefix count at its
L1-block boundary and the seven cumulative L2 prefix sums. -/
structure FInv (pol : Bool) (ws : List Nat) (junk k : Nat) (st : FRankState) :
    Prop where
  hws : st.ws = ws
  hlen : st.l12.length = ws.length / 64 + 1
  hend : st.l12_end = k
  hentry : st.l1_entry = pcWords pol ws 0 (64 * k)
  hl12 : ∀ p, p < k → st.l12.getD p 0 =
    mkBigL12 (pcWords pol ws 0 (64 * p))
      [pcWords pol ws (64 * p) 8, pcWords pol ws (64 * p) 16,
       pcWords pol ws (64 * p) 24, pcWords pol ws (64 * p) 32,
       pcWords pol ws (64 * p) 40, pcWords pol ws (64 * p) 48,
       pcWords pol ws (64 * p) 56]

/-- One full-block iteration of `FlatRank::init` preserves the invariant. -/
theorem fInv_step (pol : Bool) (ws : List Nat) (junk k : Nat) (st : FRankState)
    (hInv : FInv pol ws junk k st) (hguard : 64 * k + 64 < ws.length) :
    FInv pol ws junk (k + 1) (fFullStep pol st) := by
  obtain ⟨hws, hlen, hend, hentry, hl12⟩ := hInv
  have hl12k : k < st.l12.length := by
    rw [hlen]
    omega
  have hsp : ∀ a b : Nat, a + 8 = b →
      pcWords pol ws (64 * k) a + pcWords pol ws (64 * k + a) 8 =
        pcWords pol ws (64 * k) b := by
    intro a b hab
    have h := pcWords_split pol ws (64 * k) a 8
    rw [hab] at h
    omega
  have c1 := hsp 8 16 rfl
  have c2 := hsp 16 24 rfl
  have c3 := hsp 24 32 rfl
  have c4 := hsp 32 40 rfl
  have c5 := hsp 40 48 rfl
  have c6 := hsp 48 56 rfl
  have hnewentry : pcWords pol ws 0 (64 * k) + pcWords pol ws (64 * k) 56 +
      pcWords pol ws (64 * k + 56) 8 = pcWords pol ws 0 (64 * (k + 1)) := by
    have h1 := pcWords_split pol ws 0 (64 * k) 64
    rw [Nat.zero_add] at h1
    have h2 := pcWords_split pol ws (64 * k) 56 8
    have ha : (56 : Nat) + 8 = 64 := rfl
    rw [ha] at h2
    have hb : 64 * k + 64 = 64 * (k + 1) := by omega
    rw [hb] at h1
    omega
  rw [fFullStep]
  simp only [hws, hend]
  refine ⟨?_, ?_, ?_, ?_, ?_⟩
  · rfl
  · show (st.l12.set k _).length = _
    rw [List.length_set, hlen]
  · rfl
  · show st.l1_entry +
      (pcWords pol ws (64 * k) 8 + pcWords pol ws (64 * k + 8) 8 +
        pcWords pol ws (64 * k + 16) 8 + pcWords pol ws (64 * k + 24) 8 +
        pcWords pol ws (64 * k + 32) 8 + pcWords pol ws (64 * k + 40) 8 +
        pcWords pol ws (64 * k + 48) 8) + pcWords pol ws (64 * k + 56) 8 =
      pcWords pol ws 0 (64 * (k + 1))
    rw [hentry]
    omega
  · intro p hp
    show (st.l12.set k
      (mkBigL12 st.l1_entry
        [pcWords pol ws (64 * k) 8,
         pcWords pol ws (64 * k) 8 + pcWords pol ws (64 * k + 8) 8,
         pcWords pol ws (64 * k) 8 + pcWords pol ws (64 * k + 8) 8 +
           pcWords pol ws (64 * k + 16) 8,
         pcWords pol ws (64 * k) 8 + pcWords pol ws (64 * k + 8) 8 +
           pcWords pol ws (64 * k + 16) 8 + pcWords pol ws (64 * k + 24) 8,
         pcWords pol ws (64 * k) 8 + pcWords pol ws (64 * k + 8) 8 +
           pcWords pol ws (64 * k + 16) 8 + pcWords pol ws (64 * k + 24) 8 +
           pcWords pol ws (64 * k + 32) 8,
         pcWords pol ws (64 * k) 8 + pcWords pol ws (64 * k + 8) 8 +
           pcWords pol ws (64 * k + 16) 8 + pcWords pol ws (64 * k + 24) 8 +
           pcWords pol ws (64 * k + 32) 8 + pcWords pol ws (64 * k + 40) 8,
         pcWords pol ws (64 * k) 8 + pcWords pol ws (64 * k + 8) 8 +
           pcWords pol ws (64 * k + 16) 8 + pcWords pol ws (64 * k + 24) 8 +
           pcWords pol ws (64 * k + 32) 8 + pcWords pol ws (64 * k + 40) 8 +
           pcWords pol ws (64 * k + 48) 8])).getD p 0 = _
    rw [c1, c2, c3, c4, c5, c6]
    by_cases hpk : p = k
    · subst hpk
      rw [getD_set_self _ _ _ _ hl12k, hentry]
    · rw [getD_set_ne _ _ _ _ _ (by omega)]
      exact hl12 p (by omega)

/-- Running the full-block loop of `FlatRank::init` establishes the
invariant at `min (k + fuel) ((data_size - 1) / 64)`. -/
theorem fFullLoop_inv (pol : Bool) (ws : List Nat) (junk : Nat) :
    ∀ f k st, FInv pol ws junk k st → k ≤ (ws.length - 1) / 64 →
      FInv pol ws junk (min (k + f) ((ws.length - 1) / 64)) (fFullLoop pol f st) := by
  intro f
  induction f with
  | zero =>
    intro k st hInv hk
    have hm : min (k + 0) ((ws.length - 1) / 64) = k := by omega
    rw [hm]
    exact hInv
  | succ g ih =>
    intro k st hInv hk
    rw [fFullLoop]
    by_cases hguard : 64 * st.l12_end + 64 < st.ws.length
    · rw [if_pos hguard]
      rw [hInv.hws, hInv.hend] at hguard
      have hstep := fInv_step pol ws junk k st hInv hguard
      have hk1 : k + 1 ≤ (ws.length - 1) / 64 := by omega
      have := ih (k + 1) _ hstep hk1
      have heq : min (k + 1 + g) ((ws.length - 1) / 64) =
          min (k + (g + 1)) ((ws.length - 1) / 64) := by omega
      rw [← heq]
      exact this
    · rw [if_neg hguard]
      rw [hInv.hws, hInv.hend] at hguard
      have hkeq : k = (ws.length - 1) / 64 := by omega
      have heq : min (k + (g + 1)) ((ws.length - 1) / 64) = k := by omega
      rw [heq]
      exact hInv

theorem mkBigL12_entries (l1 : Nat) (a : List Nat)
    (b0 b1 b2 b3 b4 b5 b6 : Nat) (h0 : a.getD 0 0 = b0) (h1 : a.getD 1 0 = b1)
    (h2 : a.getD 2 0 = b2) (h3 : a.getD 3 0 = b3) (h4 : a.getD 4 0 = b4)
    (h5 : a.getD 5 0 = b5) (h6 : a.getD 6 0 = b6) :
    mkBigL12 l1 a = mkBigL12 l1 [b0, b1, b2, b3, b4, b5, b6] := by
  rw [mkBigL12, mkBigL12, h0, h1, h2, h3, h4, h5, h6]
  rfl

/-- Characterization of the completed `FlatRank::init` structure: every
record up to the last holds the global prefix count at its L1-block
boundary and the seven truncated cumulative L2 counts. -/
structure FDone (pol : Bool) (ws : List Nat) (st : FRankState) : Prop where
  hws : st.ws = ws
  hlen : st.l12.length = ws.length / 64 + 1
  hend : st.l12_end = (ws.length - 1) / 64 + 1
  hl12 : ∀ p, p ≤ (ws.length - 1) / 64 → st.l12.getD p 0 =
    mkBigL12 (pcWords pol ws 0 (64 * p))
      [pcWords pol ws (64 * p) (min 8 (ws.length - 64 * p)),
       pcWords pol ws (64 * p) (min 16 (ws.length - 64 * p)),
       pcWords pol ws (64 * p) (min 24 (ws.length - 64 * p)),
       pcWords pol ws (64 * p) (min 32 (ws.length - 64 * p)),
       pcWords pol ws (64 * p) (min 40 (ws.length - 64 * p)),
       pcWords pol ws (64 * p) (min 48 (ws.length - 64 * p)),
       pcWords pol ws (64 * p) (min 56 (ws.length - 64 * p))]

/-- Running `FlatRank::init` produces the characterized structure. -/
theorem fRankInit_done (pol : Bool) (ws : List Nat) (junk : Nat) :
    FDone pol ws (fRankInit pol ws junk) := by
  have hW64 : FlatConfig.L1_WORD_SIZE = 64 := rfl
  have hInv0 : FInv pol ws junk 0
      { ws := ws
        l12 := List.replicate (ws.length / FlatConfig.L1_WORD_SIZE + 1) junk
        l12_end := 0, l1_entry := 0 } := by
    refine ⟨rfl, ?_, rfl, rfl, ?_⟩
    · show (List.replicate _ _).length = _
      rw [List.length_replicate, hW64]
    · intro p hp
      exact absurd hp (Nat.not_lt_zero p)
  have hInv := fFullLoop_inv pol ws junk ws.length 0 _ hInv0 (Nat.zero_le _)
  have hmin : min (0 + ws.length) ((ws.length - 1) / 64) = (ws.length - 1) / 64 := by
    omega
  rw [hmin] at hInv
  rw [fRankInit]
  generalize hst1 : fFullLoop pol ws.length _ = st1 at hInv
  obtain ⟨hws, hlen, hend, hentry, hl12⟩ := hInv
  set F := (ws.length - 1) / 64 with hFdef
  have hloop := cTailL2Loop_spec pol ws ws.length (64 * F) [0, 0, 0, 0, 0, 0, 0] 0
    (by omega)
  have hzero : (0 : Nat) + (ws.length - 64 * F - 1) / 8 =
      (ws.length - 64 * F - 1) / 8 := by omega
  rw [hzero] at hloop
  have hd64 : ws.length ≤ 64 * F + 64 := by omega
  have hent := fTailEnt pol ws (64 * F) hd64
  have hl12F : F < st1.l12.length := by
    rw [hlen]
    omega
  rw [fTail, hws, hend, hloop]
  dsimp only
  set t := (ws.length - 64 * F - 1) / 8 with htdef
  have hTlen : (if t < 7 then
      cTailWordLoop pol ws t ws.length (64 * F + 8 * t)
        (setBlocks pol ws [0, 0, 0, 0, 0, 0, 0] (64 * F) 0 t)
    else setBlocks pol ws [0, 0, 0, 0, 0, 0, 0] (64 * F) 0 t).length = 7 := by
    by_cases htlt : t < 7
    · rw [if_pos htlt,
        cTailWordLoop_spec pol ws t ws.length _ _ (by omega)
          (by rw [setBlocks_length]; exact htlt),
        List.length_set, setBlocks_length]
      rfl
    · rw [if_neg htlt, setBlocks_length]
      rfl
  have hps : ∀ m, m < 7 →
      (partialSum (if t < 7 then
          cTailWordLoop pol ws t ws.length (64 * F + 8 * t)
            (setBlocks pol ws [0, 0, 0, 0, 0, 0, 0] (64 * F) 0 t)
        else setBlocks pol ws [0, 0, 0, 0, 0, 0, 0] (64 * F) 0 t)).getD m 0 =
      pcWords pol ws (64 * F) (min (8 * (m + 1)) (ws.length - 64 * F)) := by
    intro m hm
    rw [partialSum_getD _ m (by rw [hTlen]; omega)]
    exact sumTake_blocks pol ws (64 * F) _ hent (m + 1) (by omega)
  refine ⟨?_, ?_, ?_, ?_⟩
  · rfl
  · show (st1.l12.set F _).length = _
    rw [List.length_set, hlen]
  · rfl
  · intro p hp
    show (st1.l12.set F _).getD p 0 = _
    by_cases hpF : p = F
    · subst hpF
      rw [getD_set_self _ _ _ _ hl12F, hentry]
      refine mkBigL12_entries _ _ _ _ _ _ _ _ _ (hps 0 (by omega)) (hps 1 (by omega))
        (hps 2 (by omega)) (hps 3 (by omega)) (hps 4 (by omega)) (hps 5 (by omega))
        (hps 6 (by omega)) |>.trans ?_
      have e0 : (8 : Nat) * (0 + 1) = 8 := by omega
      have e1 : (8 : Nat) * (1 + 1) = 16 := by omega
      have e2 : (8 : Nat) * (2 + 1) = 24 := by omega
      have e3 : (8 : Nat) * (3 + 1) = 32 := by omega
      have e4 : (8 : Nat) * (4 + 1) = 40 := by omega
      have e5 : (8 : Nat) * (5 + 1) = 48 := by omega
      have e6 : (8 : Nat) * (6 + 1) = 56 := by omega
      rw [e0, e1, e2, e3, e4, e5, e6]
    · rw [getD_set_ne _ _ _ _ _ (by omega), hl12 p (by omega)]
      have hbig : 56 ≤ ws.length - 64 * p := by omega
      have m0 : min 8 (ws.length - 64 * p) = 8 := by omega
      have m1 : min 16 (ws.length - 64 * p) = 16 := by omega
      have m2 : min 24 (ws.length - 64 * p) = 24 := by omega
      have m3 : min 32 (ws.length - 64 * p) = 32 := by omega
      have m4 : min 40 (ws.length - 64 * p) = 40 := by omega
      have m5 : min 48 (ws.length - 64 * p) = 48 := by omega
      have m6 : min 56 (ws.length - 64 * p) = 56 := by omega
      rw [m0, m1, m2, m3, m4, m5, m6]

/-- `FlatRank::rank1` is the prefix ones-count, for every polarity
specialization, every query index within the bit vector, and every content
of the uninitialized cells, as long as the 44-bit L1 counters cannot
overflow. -/
theorem fRank1_correct (pol : Bool) (ws : List Nat) (junk : Nat)
    (hb : ∀ w ∈ ws, w < 2 ^ 64) (n i : Nat) (hn : ws.length = n / 64 + 1)
    (hi : i ≤ n) (hsz : ws.length < 2 ^ 38) :
    fRank1 pol (fRankInit pol ws junk) i = bitsCount ws i := by
  obtain ⟨hws, hlen, hend, hl12⟩ := fRankInit_done pol ws junk
  have hids : i < 64 * ws.length := by omega
  set F := (ws.length - 1) / 64 with hF
  set l1_pos := i / 4096 with hl1pos
  set l2_pos := i % 4096 / 512 with hl2pos
  have hl1F : l1_pos ≤ F := by omega
  have hl2le : l2_pos ≤ 7 := by omega
  have hblocks : 64 * l1_pos + 8 * l2_pos ≤ ws.length := by omega
  have hrec := hl12 l1_pos hl1F
  have hl1b : pcWords pol ws 0 (64 * l1_pos) < 2 ^ 44 := by
    have h1 := pcWords_le pol ws 0 (64 * l1_pos) hb
    omega
  have hbound : ∀ c r : Nat, c ≤ 56 →
      pcWords pol ws (64 * l1_pos) (min c r) < 2 ^ 12 := by
    intro c r hc
    have h1 := pcWords_le pol ws (64 * l1_pos) (min c r) hb
    have h2 : min c r ≤ 56 := by omega
    omega
  have hdb : ∀ d ∈
      [pcWords pol ws (64 * l1_pos) (min 8 (ws.length - 64 * l1_pos)),
       pcWords pol ws (64 * l1_pos) (min 16 (ws.length - 64 * l1_pos)),
       pcWords pol ws (64 * l1_pos) (min 24 (ws.length - 64 * l1_pos)),
       pcWords pol ws (64 * l1_pos) (min 32 (ws.length - 64 * l1_pos)),
       pcWords pol ws (64 * l1_pos) (min 40 (ws.length - 64 * l1_pos)),
       pcWords pol ws (64 * l1_pos) (min 48 (ws.length - 64 * l1_pos)),
       pcWords pol ws (64 * l1_pos) (min 56 (ws.length - 64 * l1_pos))],
      d < 2 ^ 12 := by
    intro d hd
    simp only [List.mem_cons, List.not_mem_nil, or_false] at hd
    rcases hd with h | h | h | h | h | h | h <;> subst h
    · exact hbound _ _ (by omega)
    · exact hbound _ _ (by omega)
    · exact hbound _ _ (by omega)
    · exact hbound _ _ (by omega)
    · exact hbound _ _ (by omega)
    · exact hbound _ _ (by omega)
    · exact hbound _ _ (by omega)
  have hrec2 : (fRankInit pol ws junk).l12.getD l1_pos 0 =
      pcWords pol ws 0 (64 * l1_pos) +
        (digitsVal 12
          [pcWords pol ws (64 * l1_pos) (min 8 (ws.length - 64 * l1_pos)),
           pcWords pol ws (64 * l1_pos) (min 16 (ws.length - 64 * l1_pos)),
           pcWords pol ws (64 * l1_pos) (min 24 (ws.length - 64 * l1_pos)),
           pcWords pol ws (64 * l1_pos) (min 32 (ws.length - 64 * l1_pos)),
           pcWords pol ws (64 * l1_pos) (min 40 (ws.length - 64 * l1_pos)),
           pcWords pol ws (64 * l1_pos) (min 48 (ws.length - 64 * l1_pos)),
           pcWords pol ws (64 * l1_pos) (min 56 (ws.length - 64 * l1_pos))]) <<< 44 := by
    rw [hrec]
    refine mkBigL12_eq _ _ _ _ _ _ _ _ hl1b ?_ ?_ ?_ ?_ ?_ ?_ ?_
    · exact hbound _ _ (by omega)
    · exact hbound _ _ (by omega)
    · exact hbound _ _ (by omega)
    · exact hbound _ _ (by omega)
    · exact hbound _ _ (by omega)
    · exact hbound _ _ (by omega)
    · exact hbound _ _ (by omega)
  have hL1v : bigL12L1 ((fRankInit pol ws junk).l12.getD l1_pos 0) =
      pcWords pol ws 0 (64 * l1_pos) := by
    rw [hrec2]
    exact bigL12L1_eq _ _ hl1b
  have hGfull : bigL12Get ((fRankInit pol ws junk).l12.getD l1_pos 0) l2_pos =
      pcWords pol ws (64 * l1_pos) (8 * l2_pos) := by
    rw [hrec2, bigL12Get_eq _ _ hl1b hdb l2_pos]
    by_cases h0 : l2_pos = 0
    · rw [if_pos h0, h0]
      rfl
    · rw [if_neg h0]
      have h1 : 1 ≤ l2_pos := by omega
      interval_cases l2_pos
      · show pcWords pol ws (64 * l1_pos) (min 8 (ws.length - 64 * l1_pos)) =
          pcWords pol ws (64 * l1_pos) (8 * 1)
        have h : min 8 (ws.length - 64 * l1_pos) = 8 * 1 := by omega
        rw [h]
      · show pcWords pol ws (64 * l1_pos) (min 16 (ws.length - 64 * l1_pos)) =
          pcWords pol ws (64 * l1_pos) (8 * 2)
        have h : min 16 (ws.length - 64 * l1_pos) = 8 * 2 := by omega
        rw [h]
      · show pcWords pol ws (64 * l1_pos) (min 24 (ws.length - 64 * l1_pos)) =
          pcWords pol ws (64 * l1_pos) (8 * 3)
        have h : min 24 (ws.length - 64 * l1_pos) = 8 * 3 := by omega
        rw [h]
      · show pcWords pol ws (64 * l1_pos) (min 32 (ws.length - 64 * l1_pos)) =
          pcWords pol ws (64 * l1_pos) (8 * 4)
        have h : min 32 (ws.length - 64 * l1_pos) = 8 * 4 := by omega
        rw [h]
      · show pcWords pol ws (64 * l1_pos) (min 40 (ws.length - 64 * l1_pos)) =
          pcWords pol ws (64 * l1_pos) (8 * 5)
        have h : min 40 (ws.length - 64 * l1_pos) = 8 * 5 := by omega
        rw [h]
      · show pcWords pol ws (64 * l1_pos) (min 48 (ws.length - 64 * l1_pos)) =
          pcWords pol ws (64 * l1_pos) (8 * 6)
        have h : min 48 (ws.length - 64 * l1_pos) = 8 * 6 := by omega
        rw [h]
      · show pcWords pol ws (64 * l1_pos) (min 56 (ws.length - 64 * l1_pos)) =
          pcWords pol ws (64 * l1_pos) (8 * 7)
        have h : min 56 (ws.length - 64 * l1_pos) = 8 * 7 := by omega
        rw [h]
  rw [fRank1]
  rw [hws]
  have hoffeq : i / 512 * 8 = 64 * l1_pos + 8 * l2_pos := by omega
  have hl1eq : i / FlatConfig.L1_BIT_SIZE = l1_pos := by
    show i / 4096 = l1_pos
    rw [hl1pos]
  have hl2eq : i % FlatConfig.L1_BIT_SIZE / FlatConfig.L2_BIT_SIZE = l2_pos := by
    show i % 4096 / 512 = l2_pos
    rw [hl2pos]
  rw [hoffeq, hl1eq, hl2eq, hL1v, hGfull]
  set W := 64 * l1_pos + 8 * l2_pos with hW
  set idx := i % FlatConfig.L2_BIT_SIZE with hidx
  have hidx512 : idx = i % 512 := rfl
  have hsum : pcWords pol ws 0 (64 * l1_pos) +
      pcWords pol ws (64 * l1_pos) (8 * l2_pos) = pcWords pol ws 0 W := by
    have hsp := pcWords_split pol ws 0 (64 * l1_pos) (8 * l2_pos)
    rw [Nat.zero_add] at hsp
    rw [← hsp]
  have hmid : (if pol then
      pcWords pol ws 0 (64 * l1_pos) + pcWords pol ws (64 * l1_pos) (8 * l2_pos)
    else l1_pos * FlatConfig.L1_BIT_SIZE + l2_pos * FlatConfig.L2_BIT_SIZE -
      (pcWords pol ws 0 (64 * l1_pos) +
        pcWords pol ws (64 * l1_pos) (8 * l2_pos))) = pcWords true ws 0 W := by
    cases pol
    · rw [if_neg (by simp)]
      rw [hsum]
      have hbits : l1_pos * FlatConfig.L1_BIT_SIZE +
          l2_pos * FlatConfig.L2_BIT_SIZE = 64 * W := by
        show l1_pos * 4096 + l2_pos * 512 = 64 * W
        rw [hW]
        omega
      rw [hbits, pcWords_false_eq ws hb 0 W]
      have hle := pcWords_le true ws 0 W hb
      omega
    · rw [if_pos rfl, hsum]
  rw [hmid]
  have hsplitW := pcWords_split true ws 0 W (idx / 64)
  rw [Nat.zero_add] at hsplitW
  by_cases htb : idx % 64 > 0
  · rw [if_pos htb]
    rw [← hsplitW]
    have hword : ws.getD (W + idx / 64) 0 < 2 ^ 64 := getD_lt_64 ws hb _
    rw [popc_shifted_tail _ _ (by omega) hword]
    have hieq : 64 * (W + idx / 64) + idx % 64 = i := by
      rw [hidx512]
      omega
    conv_rhs => rw [← hieq]
    rw [bitsCount_word_split ws (W + idx / 64) (idx % 64) (by omega),
      bitsCount_words]
  · rw [if_neg htb]
    rw [← hsplitW]
    have hieq : 64 * (W + idx / 64) = i := by
      rw [hidx512]
      omega
    conv_rhs => rw [← hieq]
    rw [bitsCount_words]

/-! ### `WideRank` (wide_rank.hpp)

Configuration `WideRankSelectConfig`: `L2_BIT_SIZE = 512`,
`L1_BIT_SIZE = 128 * 512 = 65536`, word sizes `8 / 1024`,
`SELECT_SAMPLE_RATE = 8192`.  The wide structure keeps two plain arrays
`l1_` (cumulative, 64-bit) and `l2_` (in-L1-block, 16-bit). -/

def WideConfig.L2_BIT_SIZE : Nat := 512
def WideConfig.L1_BIT_SIZE : Nat := 128 * WideConfig.L2_BIT_SIZE
def WideConfig.L2_WORD_SIZE : Nat := WideConfig.L2_BIT_SIZE / 64
def WideConfig.L1_WORD_SIZE : Nat := WideConfig.L1_BIT_SIZE / 64
def WideConfig.SELECT_SAMPLE_RATE : Nat := 8192

/-- State of `WideRank::init`: the `data` pointer always equals
`data_ + 8 * l2_pos`. -/
structure WRankState where
  ws : List Nat
  l1 : List Nat
  l2 : List Nat
  l1_pos : Nat
  l2_pos : Nat
  l2_entry : Nat
deriving DecidableEq

/-- One iteration of the loop `while (data + 8 < data_end)` in
`WideRank::init`: store the running L2 entry, advance by one 8-word block,
and cross an L1 boundary every 128 L2-blocks. -/
def wStep (pol : Bool) (st : WRankState) : WRankState :=
  let d := 8 * st.l2_pos
  let l2' := st.l2.set st.l2_pos st.l2_entry
  let l2_pos' := st.l2_pos + 1
  let l2_entry' := st.l2_entry + pcWords pol st.ws d 8
  if l2_pos' % 128 = 0 ∧ 0 < l2_pos' then
    { st with
      l2 := l2', l2_pos := l2_pos', l2_entry := 0,
      l1_pos := st.l1_pos + 1,
      l1 := st.l1.set (st.l1_pos + 1)
        (st.l1.getD (st.l1_pos + 1 - 1) 0 + l2_entry') }
  else
    { st with l2 := l2', l2_pos := l2_pos', l2_entry := l2_entry' }

/-- The loop `while (data + 8 < data_end)` with explicit fuel. -/
def wLoop (pol : Bool) : Nat → WRankState → WRankState
  | 0, st => st
  | f + 1, st =>
    if 8 * st.l2_pos + 8 < st.ws.length then wLoop pol f (wStep pol st)
    else st

/-- `WideRank::WideRank(bv)` / `WideRank::init`: uninitialized `l1_` and
`l2_` cells hold `junk`, `l1_[0]` and `l2_[0]` are zeroed, then the loop
runs and the trailing `l2_[l2_pos++] = l2_entry` is stored. -/
def wRankInit (pol : Bool) (ws : List Nat) (junk : Nat) : WRankState :=
  let st1 := wLoop pol ws.length
    { ws := ws
      l1 := (List.replicate (ws.length / WideConfig.L1_WORD_SIZE + 1) junk).set 0 0
      l2 := (List.replicate (ws.length / WideConfig.L2_WORD_SIZE + 1) junk).set 0 0
      l1_pos := 0, l2_pos := 0, l2_entry := 0 }
  { st1 with l2 := st1.l2.set st1.l2_pos st1.l2_entry, l2_pos := st1.l2_pos + 1 }

/-- `WideRank::rank1` (wide_rank.hpp). -/
def wRank1 (pol : Bool) (st : WRankState) (index : Nat) : Nat :=
  let l1_pos := index / WideConfig.L1_BIT_SIZE
  let l2_pos := index / WideConfig.L2_BIT_SIZE
  let r0 := st.l1.getD l1_pos 0 + st.l2.getD l2_pos 0
  let r1 := if pol then r0 else l2_pos * WideConfig.L2_BIT_SIZE - r0
  let offset := l2_pos * WideConfig.L2_WORD_SIZE
  let full_words := index % WideConfig.L2_BIT_SIZE / 64
  let r2 := r1 + pcWords true st.ws offset full_words
  if index % 64 > 0 then
    r2 + popc 64 (wrap64 (st.ws.getD (offset + full_words) 0 <<< (64 - index % 64)))
  else r2

/-- `WideRank::rank0`. -/
def wRank0 (pol : Bool) (st : WRankState) (index : Nat) : Nat :=
  index - wRank1 pol st index

/-- Invariant of the loop of `WideRank::init` after `k` iterations. -/
structure WInv (pol : Bool) (ws : List Nat) (junk k : Nat) (st : WRankState) :
    Prop where
  hws : st.ws = ws
  hl1len : st.l1.length = ws.length / 1024 + 1
  hl2len : st.l2.length = ws.length / 8 + 1
  hl2pos : st.l2_pos = k
  hl1pos : st.l1_pos = k / 128
  hentry : st.l2_entry = pcWords pol ws (1024 * (k / 128)) (8 * (k % 128))
  hl2 : ∀ j, j < k → st.l2.getD j 0 =
    pcWords pol ws (1024 * (j / 128)) (8 * (j % 128))
  hl1 : ∀ q, q ≤ k / 128 → st.l1.getD q 0 = pcWords pol ws 0 (1024 * q)

/-- One iteration of `WideRank::init` preserves the invariant. -/
theorem wInv_step (pol : Bool) (ws : List Nat) (junk k : Nat) (st : WRankState)
    (hInv : WInv pol ws junk k st) (hguard : 8 * k + 8 < ws.length) :
    WInv pol ws junk (k + 1) (wStep pol st) := by
  obtain ⟨hws, hl1len, hl2len, hl2pos, hl1pos, hentry, hl2, hl1⟩ := hInv
  have hl2k : k < st.l2.length := by
    rw [hl2len]
    omega
  have hentry' : st.l2_entry + pcWords pol ws (8 * k) 8 =
      pcWords pol ws (1024 * (k / 128)) (8 * (k % 128) + 8) := by
    have hb8 : 1024 * (k / 128) + 8 * (k % 128) = 8 * k := by omega
    have hsp := pcWords_split pol ws (1024 * (k / 128)) (8 * (k % 128)) 8
    rw [hb8] at hsp
    rw [hentry]
    omega
  have hl2new : ∀ j, j < k + 1 → (st.l2.set k st.l2_entry).getD j 0 =
      pcWords pol ws (1024 * (j / 128)) (8 * (j % 128)) := by
    intro j hj
    by_cases hjk : j = k
    · subst hjk
      rw [getD_set_self _ _ _ _ hl2k]
      exact hentry
    · rw [getD_set_ne _ _ _ _ _ (by omega)]
      exact hl2 j (by omega)
  rw [wStep]
  simp only [hws, hl2pos, hl1pos, Nat.add_sub_cancel]
  by_cases hbd : (k + 1) % 128 = 0
  · rw [if_pos ⟨hbd, by omega⟩]
    have hl1idx : k / 128 + 1 < st.l1.length := by
      rw [hl1len]
      omega
    refine ⟨rfl, ?_, ?_, rfl, ?_, ?_, hl2new, ?_⟩
    · show (st.l1.set (k / 128 + 1) _).length = _
      rw [List.length_set, hl1len]
    · show (st.l2.set k _).length = _
      rw [List.length_set, hl2len]
    · show k / 128 + 1 = (k + 1) / 128
      omega
    · show (0 : Nat) = pcWords pol ws (1024 * ((k + 1) / 128)) (8 * ((k + 1) % 128))
      rw [hbd]
      rfl
    · intro q hq
      have hq128 : (k + 1) / 128 = k / 128 + 1 := by omega
      rw [hq128] at hq
      by_cases hqk : q = k / 128 + 1
      · subst hqk
        rw [getD_set_self _ _ _ _ hl1idx, hl1 (k / 128) (Nat.le_refl _), hentry]
        have hsp2 := pcWords_split pol ws 0 (1024 * (k / 128)) 1024
        rw [Nat.zero_add] at hsp2
        have ha : 1024 * (k / 128) + 1024 = 1024 * (k / 128 + 1) := by omega
        rw [ha] at hsp2
        have hb8 : 1024 * (k / 128) + 8 * (k % 128) = 8 * k := by omega
        have hsp3 := pcWords_split pol ws (1024 * (k / 128)) (8 * (k % 128)) 8
        rw [hb8] at hsp3
        have hmod : 8 * (k % 128) + 8 = 1024 := by omega
        rw [hmod] at hsp3
        omega
      · rw [getD_set_ne _ _ _ _ _ (by omega)]
        exact hl1 q (by omega)
  · rw [if_neg (by intro h; exact hbd h.1)]
    refine ⟨rfl, hl1len, ?_, rfl, ?_, ?_, hl2new, ?_⟩
    · show (st.l2.set k _).length = _
      rw [List.length_set, hl2len]
    · show k / 128 = (k + 1) / 128
      omega
    · show st.l2_entry + pcWords pol ws (8 * k) 8 =
        pcWords pol ws (1024 * ((k + 1) / 128)) (8 * ((k + 1) % 128))
      have h1 : (k + 1) / 128 = k / 128 := by omega
      have h2 : (k + 1) % 128 = k % 128 + 1 := by omega
      have h3 : 8 * (k % 128 + 1) = 8 * (k % 128) + 8 := by omega
      rw [h1, h2, h3]
      exact hentry'
    · intro q hq
      have h1 : (k + 1) / 128 = k / 128 := by omega
      rw [h1] at hq
      exact hl1 q hq

/-- Running the loop of `WideRank::init` establishes the invariant at
`min (k + fuel) ((data_size - 1) / 8)`. -/
theorem wLoop_inv (pol : Bool) (ws : List Nat) (junk : Nat) :
    ∀ f k st, WInv pol ws junk k st → k ≤ (ws.length - 1) / 8 →
      WInv pol ws junk (min (k + f) ((ws.length - 1) / 8)) (wLoop pol f st) := by
  intro f
  induction f with
  | zero =>
    intro k st hInv hk
    have hm : min (k + 0) ((ws.length - 1) / 8) = k := by omega
    rw [hm]
    exact hInv
  | succ g ih =>
    intro k st hInv hk
    rw [wLoop]
    by_cases hguard : 8 * st.l2_pos + 8 < st.ws.length
    · rw [if_pos hguard]
      rw [hInv.hws, hInv.hl2pos] at hguard
      have hstep := wInv_step pol ws junk k st hInv hguard
      have hk1 : k + 1 ≤ (ws.length - 1) / 8 := by omega
      have := ih (k + 1) _ hstep hk1
      have heq : min (k + 1 + g) ((ws.length - 1) / 8) =
          min (k + (g + 1)) ((ws.length - 1) / 8) := by omega
      rw [← heq]
      exact this
    · rw [if_neg hguard]
      rw [hInv.hws, hInv.hl2pos] at hguard
      have hkeq : k = (ws.length - 1) / 8 := by omega
      have heq : min (k + (g + 1)) ((ws.length - 1) / 8) = k := by omega
      rw [heq]
      exact hInv

/-- Characterization of the completed `WideRank::init` structure. -/
structure WDone (pol : Bool) (ws : List Nat) (st : WRankState) : Prop where
  hws : st.ws = ws
  hl1len : st.l1.length = ws.length / 1024 + 1
  hl2len : st.l2.length = ws.length / 8 + 1
  hl2 : ∀ j, j ≤ (ws.length - 1) / 8 → st.l2.getD j 0 =
    pcWords pol ws (1024 * (j / 128)) (8 * (j % 128))
  hl1 : ∀ q, q ≤ (ws.length - 1) / 8 / 128 →
    st.l1.getD q 0 = pcWords pol ws 0 (1024 * q)

/-- Running `WideRank::init` produces the characterized structure. -/
theorem wRankInit_done (pol : Bool) (ws : List Nat) (junk : Nat) :
    WDone pol ws (wRankInit pol ws junk) := by
  have hW1 : WideConfig.L1_WORD_SIZE = 1024 := rfl
  have hW2 : WideConfig.L2_WORD_SIZE = 8 := rfl
  have hInv0 : WInv pol ws junk 0
      { ws := ws
        l1 := (List.replicate (ws.length / WideConfig.L1_WORD_SIZE + 1) junk).set 0 0
        l2 := (List.replicate (ws.length / WideConfig.L2_WORD_SIZE + 1) junk).set 0 0
        l1_pos := 0, l2_pos := 0, l2_entry := 0 } := by
    refine ⟨rfl, ?_, ?_, rfl, rfl, rfl, ?_, ?_⟩
    · show ((List.replicate _ junk).set 0 0).length = _
      rw [List.length_set, List.length_replicate, hW1]
    · show ((List.replicate _ junk).set 0 0).length = _
      rw [List.length_set, List.length_replicate, hW2]
    · intro j hj
      exact absurd hj (Nat.not_lt_zero j)
    · intro q hq
      have hq0 : q = 0 := by omega
      subst hq0
      show ((List.replicate _ junk).set 0 0).getD 0 0 = _
      rw [getD_set_self _ _ _ _ (by rw [List.length_replicate]; exact Nat.succ_pos _)]
      rfl
  have hInv := wLoop_inv pol ws junk ws.length 0 _ hInv0 (Nat.zero_le _)
  have hmin : min (0 + ws.length) ((ws.length - 1) / 8) = (ws.length - 1) / 8 := by
    omega
  rw [hmin] at hInv
  rw [wRankInit]
  generalize hst1 : wLoop pol ws.length _ = st1 at hInv
  obtain ⟨hws, hl1len, hl2len, hl2pos, hl1pos, hentry, hl2, hl1⟩ := hInv
  set I := (ws.length - 1) / 8 with hI
  have hl2I : I < st1.l2.length := by
    rw [hl2len]
    omega
  refine ⟨hws, hl1len, ?_, ?_, hl1⟩
  · show (st1.l2.set st1.l2_pos st1.l2_entry).length = _
    rw [List.length_set, hl2len]
  · intro j hj
    show (st1.l2.set st1.l2_pos st1.l2_entry).getD j 0 = _
    rw [hl2pos]
    by_cases hjI : j = I
    · subst hjI
      rw [getD_set_self _ _ _ _ hl2I]
      exact hentry
    · rw [getD_set_ne _ _ _ _ _ (by omega)]
      exact hl2 j (by omega)

/-- `WideRank::rank1` is the prefix ones-count, for every polarity
specialization, every query index within the bit vector, and every content
of the uninitialized cells. -/
theorem wRank1_correct (pol : Bool) (ws : List Nat) (junk : Nat)
    (hb : ∀ w ∈ ws, w < 2 ^ 64) (n i : Nat) (hn : ws.length = n / 64 + 1)
    (hi : i ≤ n) : wRank1 pol (wRankInit pol ws junk) i = bitsCount ws i := by
  obtain ⟨hws, hl1len, hl2len, hl2, hl1⟩ := wRankInit_done pol ws junk
  have hids : i < 64 * ws.length := by omega
  set l1_pos := i / 65536 with hl1pos
  set l2_pos := i / 512 with hl2pos
  have hl1F : l1_pos ≤ (ws.length - 1) / 8 / 128 := by omega
  have hl2F : l2_pos ≤ (ws.length - 1) / 8 := by omega
  have hdiv : l2_pos / 128 = l1_pos := by omega
  have hrec1 : (wRankInit pol ws junk).l1.getD l1_pos 0 =
      pcWords pol ws 0 (1024 * l1_pos) := hl1 l1_pos hl1F
  have hrec2 : (wRankInit pol ws junk).l2.getD l2_pos 0 =
      pcWords pol ws (1024 * l1_pos) (8 * (l2_pos % 128)) := by
    rw [hl2 l2_pos hl2F, hdiv]
  rw [wRank1, hws]
  have hl1eq : i / WideConfig.L1_BIT_SIZE = l1_pos := by
    show i / 65536 = l1_pos
    rw [hl1pos]
  have hl2eq : i / WideConfig.L2_BIT_SIZE = l2_pos := by
    show i / 512 = l2_pos
    rw [hl2pos]
  rw [hl1eq, hl2eq, hrec1, hrec2]
  have hsum : pcWords pol ws 0 (1024 * l1_pos) +
      pcWords pol ws (1024 * l1_pos) (8 * (l2_pos % 128)) =
      pcWords pol ws 0 (l2_pos * 8) := by
    have hsp := pcWords_split pol ws 0 (1024 * l1_pos) (8 * (l2_pos % 128))
    rw [Nat.zero_add] at hsp
    have ha : 1024 * l1_pos + 8 * (l2_pos % 128) = l2_pos * 8 := by omega
    rw [ha] at hsp
    rw [← hsp]
  have hmid : (if pol then
      pcWords pol ws 0 (1024 * l1_pos) +
        pcWords pol ws (1024 * l1_pos) (8 * (l2_pos % 128))
    else l2_pos * WideConfig.L2_BIT_SIZE -
      (pcWords pol ws 0 (1024 * l1_pos) +
        pcWords pol ws (1024 * l1_pos) (8 * (l2_pos % 128)))) =
      pcWords true ws 0 (l2_pos * WideConfig.L2_WORD_SIZE) := by
    have hw8 : l2_pos * WideConfig.L2_WORD_SIZE = l2_pos * 8 := rfl
    rw [hw8]
    cases pol
    · rw [if_neg (by simp)]
      rw [hsum]
      have hbits : l2_pos * WideConfig.L2_BIT_SIZE = 64 * (l2_pos * 8) := by
        show l2_pos * 512 = 64 * (l2_pos * 8)
        omega
      rw [hbits, pcWords_false_eq ws hb 0 (l2_pos * 8)]
      have hle := pcWords_le true ws 0 (l2_pos * 8) hb
      omega
    · rw [if_pos rfl, hsum]
  rw [hmid]
  set W := l2_pos * WideConfig.L2_WORD_SIZE with hWdef
  have hW : W = 8 * l2_pos := by
    show l2_pos * 8 = 8 * l2_pos
    omega
  set fw := i % WideConfig.L2_BIT_SIZE / 64 with hfw
  have hfw512 : fw = i % 512 / 64 := rfl
  have hsplitW := pcWords_split true ws 0 W fw
  rw [Nat.zero_add] at hsplitW
  by_cases htb : i % 64 > 0
  · rw [if_pos htb]
    rw [← hsplitW]
    have hword : ws.getD (W + fw) 0 < 2 ^ 64 := getD_lt_64 ws hb _
    rw [popc_shifted_tail _ _ (by omega) hword]
    have hieq : 64 * (W + fw) + i % 64 = i := by
      rw [hW, hfw512]
      omega
    conv_rhs => rw [← hieq]
    rw [bitsCount_word_split ws (W + fw) (i % 64) (by omega),
      bitsCount_words]
  · rw [if_neg htb]
    rw [← hsplitW]
    have hieq : 64 * (W + fw) = i := by
      rw [hW, hfw512]
      omega
    conv_rhs => rw [← hieq]
    rw [bitsCount_words]

/-! ### `RankSelect` (rank_select.hpp) -/

/-- Modelled from the spec: the word-level select primitive (spec §4.2).
Given a 64-bit word `w` and a zero-indexed rank `k`, it returns the bit
offset of the k-th set bit of `w` counting from the LSB; the reference
header for this routine is not part of the source tree. Out-of-range ranks
give the default 64. -/
def selectInWord (w k : Nat) : Nat :=
  (((List.range 64).filter (fun b => w.testBit b)).getD k 64)

/-- Sampling state of `RankSelect::init`: the running write position into
`samples0_pos_` / `samples1_pos_`, the two `next_sample*_value` counters,
and the four sample arrays. -/
structure CSampState where
  l0_pos : Nat
  next0 : Nat
  next1 : Nat
  s0pos : List Nat
  s1pos : List Nat
  s0 : List Nat
  s1 : List Nat
deriving DecidableEq

/-- One iteration of the sampling loop of `RankSelect::init` at position
`l12_pos`. -/
def cSampStep (pol : Bool) (rk : CRankState) (l12_pos : Nat) (st : CSampState) :
    CSampState :=
  let st :=
    if l12_pos % (PopcntConfig.L0_WORD_SIZE / PopcntConfig.L1_WORD_SIZE) = 0 then
      { st with
        s0pos := st.s0pos.set st.l0_pos st.s0.length
        s1pos := st.s1pos.set st.l0_pos st.s1.length
        l0_pos := st.l0_pos + 1
        next0 := 1, next1 := 1 }
    else st
  let l1v := (rk.l12.getD l12_pos ⟨0, 0⟩).l1
  let other := sub64 (sub64 (l12_pos * PopcntConfig.L1_BIT_SIZE)
    ((st.l0_pos - 1) * PopcntConfig.L0_BIT_SIZE)) l1v
  if pol then
    let st :=
      if st.next0 ≤ other then
        { st with s0 := st.s0 ++ [sub64 l12_pos 1],
                  next0 := st.next0 + PopcntConfig.SELECT_SAMPLE_RATE }
      else st
    if st.next1 ≤ l1v then
      { st with s1 := st.s1 ++ [sub64 l12_pos 1],
                next1 := st.next1 + PopcntConfig.SELECT_SAMPLE_RATE }
    else st
  else
    let st :=
      if st.next0 ≤ l1v then
        { st with s0 := st.s0 ++ [sub64 l12_pos 1],
                  next0 := st.next0 + PopcntConfig.SELECT_SAMPLE_RATE }
      else st
    if st.next1 ≤ other then
      { st with s1 := st.s1 ++ [sub64 l12_pos 1],
                next1 := st.next1 + PopcntConfig.SELECT_SAMPLE_RATE }
    else st

/-- The sampling loop `for (l12_pos = 0; l12_pos < l12_end; ++l12_pos)`. -/
def cSelLoop (pol : Bool) (rk : CRankState) : Nat → Nat → CSampState → CSampState
  | 0, _, st => st
  | f + 1, l12_pos, st =>
    if l12_pos < rk.l12.length then
      cSelLoop pol rk f (l12_pos + 1) (cSampStep pol rk l12_pos st)
    else st

/-- The full `RankSelect` structure: the `Rank` base plus the four sample
arrays. -/
structure CSelState where
  rk : CRankState
  samples0_pos : List Nat
  samples1_pos : List Nat
  samples0 : List Nat
  samples1 : List Nat
deriving DecidableEq

/-- `RankSelect::RankSelect(bv)` / `RankSelect::init`: ranks are built
first, then the samples; `samples0_pos_` / `samples1_pos_` are
uninitialized (`junk`), `samples0_` / `samples1_` grow by `push_back` and
receive a zero entry when empty. -/
def cSelInit (pol : Bool) (ws : List Nat) (junk : Nat) : CSelState :=
  let rk := cRankInit pol ws junk
  let st0 : CSampState :=
    { l0_pos := 0, next0 := 1, next1 := 1
      s0pos := List.replicate (ws.length / PopcntConfig.L0_WORD_SIZE + 1) junk
      s1pos := List.replicate (ws.length / PopcntConfig.L0_WORD_SIZE + 1) junk
      s0 := [], s1 := [] }
  let st := cSelLoop pol rk rk.l12.length 0 st0
  let st := if st.s0.length = 0 then { st with s0 := [0] } else st
  let st := if st.s1.length = 0 then { st with s1 := [0] } else st
  { rk := rk, samples0_pos := st.s0pos, samples1_pos := st.s1pos,
    samples0 := st.s0, samples1 := st.s1 }

/-- The bounded linear scans (L0 and L1) of the select queries:
`while (p + 1 < bound && cond (p + 1)) ++p`. -/
def cSelScan (cond : Nat → Bool) (bound : Nat) : Nat → Nat → Nat
  | 0, p => p
  | f + 1, p =>
    if p + 1 < bound ∧ cond (p + 1) = true then cSelScan cond bound f (p + 1)
    else p

/-- The three-step L2 descent of the select queries over the packed
10-bit values; `same` tells whether the stored counts match the queried
polarity. -/
def cSelL2 (same : Bool) : Nat → Nat × Nat × Nat → Nat × Nat × Nat
  | 0, s => s
  | f + 1, (l2, l2_pos, rank) =>
    let v := if same then l2 &&& 1023
      else PopcntConfig.L2_BIT_SIZE - (l2 &&& 1023)
    if l2_pos < 3 ∧ v < rank then cSelL2 same f (l2 >>> 10, l2_pos + 1, rank - v)
    else (l2, l2_pos, rank)

/-- The final unbounded word scan of the select queries,
`while ((popcount = popcount<1>(data + last_pos)) < rank)`; it walks past
the end of the buffer when the rank is not reached (out-of-range reads are
modelled as zero words), so it is given explicit fuel and returns `none`
when the fuel is exhausted. -/
def cWordScan (one : Bool) (ws : List Nat) : Nat → Nat → Nat → Option (Nat × Nat)
  | 0, _, _ => none
  | f + 1, last_pos, rank =>
    let p := if one then popc 64 (ws.getD last_pos 0)
      else popc 64 (compl64 (ws.getD last_pos 0))
    if p < rank then cWordScan one ws f (last_pos + 1) (rank - p)
    else some (last_pos, rank)

/-- `RankSelect::select1` (rank_select.hpp lines 227–310). -/
def cSelect1 (pol : Bool) (st : CSelState) (rank : Nat) (fuel : Nat) :
    Option Nat :=
  let l0_end := st.rk.l0.length
  let l12_end := st.rk.l12.length
  let l0_pos :=
    if pol then
      cSelScan (fun p => decide (st.rk.l0.getD p 0 < rank)) l0_end l0_end 0
    else
      cSelScan (fun p => decide (sub64 (p * PopcntConfig.L0_BIT_SIZE)
        (st.rk.l0.getD p 0) < rank)) l0_end l0_end 0
  if l0_pos = l0_end then some st.rk.ws.length
  else
    let rank1 := if pol then rank - st.rk.l0.getD l0_pos 0
      else rank - sub64 (l0_pos * PopcntConfig.L0_BIT_SIZE) (st.rk.l0.getD l0_pos 0)
    let sample_pos := (rank1 - 1) / PopcntConfig.SELECT_SAMPLE_RATE +
      st.samples1_pos.getD l0_pos 0
    let l1_pos0 := st.samples1.getD sample_pos 0 +
      (rank1 - 1) % PopcntConfig.SELECT_SAMPLE_RATE / PopcntConfig.L1_BIT_SIZE
    let l0_block_end := min ((l0_pos + 1) *
      (PopcntConfig.L0_WORD_SIZE / PopcntConfig.L1_WORD_SIZE)) l12_end - 1
    let l1_pos1 := min l1_pos0 l0_block_end
    let l1_pos :=
      if pol then
        cSelScan (fun p => decide ((st.rk.l12.getD p ⟨0, 0⟩).l1 < rank1))
          l0_block_end l12_end l1_pos1
      else
        cSelScan (fun p => decide (sub64 (p * PopcntConfig.L1_BIT_SIZE)
          (st.rk.l12.getD p ⟨0, 0⟩).l1 < rank1)) l0_block_end l12_end l1_pos1
    let rank2 := if pol then rank1 - (st.rk.l12.getD l1_pos ⟨0, 0⟩).l1
      else rank1 - sub64 (sub64 (l1_pos * PopcntConfig.L1_BIT_SIZE)
        (l0_pos * PopcntConfig.L0_BIT_SIZE)) (st.rk.l12.getD l1_pos ⟨0, 0⟩).l1
    match cSelL2 pol 3 ((st.rk.l12.getD l1_pos ⟨0, 0⟩).l2_values, 0, rank2) with
    | (_, l2_pos, rank3) =>
      let last_pos := PopcntConfig.L2_WORD_SIZE * l2_pos +
        PopcntConfig.L1_WORD_SIZE * l1_pos
      match cWordScan true st.rk.ws fuel last_pos rank3 with
      | none => none
      | some (lp, r) => some (lp * 64 + selectInWord (st.rk.ws.getD lp 0) (r - 1))

/-- `RankSelect::select0` (rank_select.hpp lines 136–225). -/
def cSelect0 (pol : Bool) (st : CSelState) (rank : Nat) (fuel : Nat) :
    Option Nat :=
  let l0_end := st.rk.l0.length
  let l12_end := st.rk.l12.length
  let l0_pos :=
    if pol then
      cSelScan (fun p => decide (sub64 (p * PopcntConfig.L0_BIT_SIZE)
        (st.rk.l0.getD p 0) < rank)) l0_end l0_end 0
    else
      cSelScan (fun p => decide (st.rk.l0.getD p 0 < rank)) l0_end l0_end 0
  if l0_pos = l0_end then some st.rk.ws.length
  else
    let rank1 := if pol then
        rank - sub64 (l0_pos * PopcntConfig.L0_BIT_SIZE) (st.rk.l0.getD l0_pos 0)
      else rank - st.rk.l0.getD l0_pos 0
    let sample_pos := (rank1 - 1) / PopcntConfig.SELECT_SAMPLE_RATE +
      st.samples0_pos.getD l0_pos 0
    let l1_pos0 := st.samples0.getD sample_pos 0 +
      (rank1 - 1) % PopcntConfig.SELECT_SAMPLE_RATE / PopcntConfig.L1_BIT_SIZE
    let l0_block_end := min ((l0_pos + 1) *
      (PopcntConfig.L0_WORD_SIZE / PopcntConfig.L1_WORD_SIZE)) l12_end - 1
    let l1_pos1 := min l1_pos0 l0_block_end
    let l1_pos :=
      if pol then
        cSelScan (fun p => decide (sub64 (p * PopcntConfig.L1_BIT_SIZE)
          (st.rk.l12.getD p ⟨0, 0⟩).l1 < rank1)) l0_block_end l12_end l1_pos1
      else
        cSelScan (fun p => decide ((st.rk.l12.getD p ⟨0, 0⟩).l1 < rank1))
          l0_block_end l12_end l1_pos1
    let rank2 := if pol then
        rank1 - sub64 (sub64 (l1_pos * PopcntConfig.L1_BIT_SIZE)
          (l0_pos * PopcntConfig.L0_BIT_SIZE)) (st.rk.l12.getD l1_pos ⟨0, 0⟩).l1
      else rank1 - (st.rk.l12.getD l1_pos ⟨0, 0⟩).l1
    match cSelL2 (!pol) 3 ((st.rk.l12.getD l1_pos ⟨0, 0⟩).l2_values, 0, rank2) with
    | (_, l2_pos, rank3) =>
      let last_pos := PopcntConfig.L2_WORD_SIZE * l2_pos +
        PopcntConfig.L1_WORD_SIZE * l1_pos
      match cWordScan false st.rk.ws fuel last_pos rank3 with
      | none => none
      | some (lp, r) =>
        some (lp * 64 + selectInWord (compl64 (st.rk.ws.getD lp 0)) (r - 1))

/-! ### `FlatRankSelect` (flat_rank_select.hpp) and `WideRankSelect`
(wide_rank_select.hpp): sample construction and queries. -/

/-- Sampling state of the `FlatRankSelect` / `WideRankSelect` init loops:
the two `next_sample*_value` counters and the two growing arrays. -/
structure SampState where
  next0 : Nat
  next1 : Nat
  s0 : List Nat
  s1 : List Nat
deriving DecidableEq

/-- One iteration of the sampling loop of `FlatRankSelect::init` at
position `l12_pos`; the loop runs over `l12_.size()` entries, so it also
reads the uninitialized record beyond `l12_end_` when the data size is a
multiple of 64 words. -/
def fSampStep (pol : Bool) (rk : FRankState) (l12_pos : Nat) (st : SampState) :
    SampState :=
  let l1v := bigL12L1 (rk.l12.getD l12_pos 0)
  if pol then
    let st :=
      if st.next0 ≤ sub64 (l12_pos * FlatConfig.L1_BIT_SIZE) l1v then
        { st with s0 := st.s0 ++ [sub64 l12_pos 1],
                  next0 := st.next0 + FlatConfig.SELECT_SAMPLE_RATE }
      else st
    if st.next1 ≤ l1v then
      { st with s1 := st.s1 ++ [sub64 l12_pos 1],
                next1 := st.next1 + FlatConfig.SELECT_SAMPLE_RATE }
    else st
  else
    let st :=
      if st.next0 ≤ l1v then
        { st with s0 := st.s0 ++ [sub64 l12_pos 1],
                  next0 := st.next0 + FlatConfig.SELECT_SAMPLE_RATE }
      else st
    if st.next1 ≤ sub64 (l12_pos * FlatConfig.L1_BIT_SIZE) l1v then
      { st with s1 := st.s1 ++ [sub64 l12_pos 1],
                next1 := st.next1 + FlatConfig.SELECT_SAMPLE_RATE }
    else st

/-- The sampling loop of `FlatRankSelect::init`. -/
def fSelLoop (pol : Bool) (rk : FRankState) : Nat → Nat → SampState → SampState
  | 0, _, st => st
  | f + 1, l12_pos, st =>
    if l12_pos < rk.l12.length then
      fSelLoop pol rk f (l12_pos + 1) (fSampStep pol rk l12_pos st)
    else st

/-- The `FlatRankSelect` structure. -/
structure FSelState where
  rk : FRankState
  samples0 : List Nat
  samples1 : List Nat
deriving DecidableEq

/-- `FlatRankSelect::FlatRankSelect(bv)` / `FlatRankSelect::init`: ranks
first, then the samples, then each array receives either a zero entry (if
empty) or a duplicate of its last entry. -/
def fSelInit (pol : Bool) (ws : List Nat) (junk : Nat) : FSelState :=
  let rk := fRankInit pol ws junk
  let st := fSelLoop pol rk rk.l12.length 0
    { next0 := 1, next1 := 1, s0 := [], s1 := [] }
  let s0 := if st.s0.length = 0 then [0]
    else st.s0 ++ [st.s0.getD (st.s0.length - 1) 0]
  let s1 := if st.s1.length = 0 then [0]
    else st.s1 ++ [st.s1.getD (st.s1.length - 1) 0]
  { rk := rk, samples0 := s0, samples1 := s1 }

/-- The linear-search L2 descent of `FlatRankSelect::select1`
(`FindL2FlatWith::LINEAR_SEARCH`), on the upper 96 bits of the packed
record. -/
def fSelL2Lin (pol : Bool) (rank : Nat) : Nat → Nat × Nat → Nat × Nat
  | 0, s => s
  | f + 1, (tmp, l2_pos) =>
    let c := if pol then decide (((tmp >>> 12) &&& 4095) < rank)
      else decide (sub64 ((l2_pos + 2) * FlatConfig.L2_BIT_SIZE)
        ((tmp >>> 12) &&& 4095) < rank)
    if c = true ∧ l2_pos < 7 then fSelL2Lin pol rank f (tmp >>> 12, l2_pos + 1)
    else (tmp, l2_pos)

/-- `FlatRankSelect::select1` (flat_rank_select.hpp lines 380–619), linear
L2-search specialization. -/
def fSelect1 (pol : Bool) (st : FSelState) (rank : Nat) (fuel : Nat) :
    Option Nat :=
  let l12_end := st.rk.l12_end
  let sample_pos := (rank - 1) / FlatConfig.SELECT_SAMPLE_RATE
  let l1_pos0 := st.samples1.getD sample_pos 0
  let l1_pos :=
    if pol then
      cSelScan (fun p => decide (bigL12L1 (st.rk.l12.getD p 0) < rank))
        l12_end st.rk.l12.length l1_pos0
    else
      cSelScan (fun p => decide (sub64 (p * FlatConfig.L1_BIT_SIZE)
        (bigL12L1 (st.rk.l12.getD p 0)) < rank)) l12_end st.rk.l12.length l1_pos0
  let rank1 := if pol then rank - bigL12L1 (st.rk.l12.getD l1_pos 0)
    else rank - sub64 (l1_pos * FlatConfig.L1_BIT_SIZE)
      (bigL12L1 (st.rk.l12.getD l1_pos 0))
  match fSelL2Lin pol rank1 7 ((st.rk.l12.getD l1_pos 0) >>> 32, 0) with
  | (_, l2_pos) =>
    let rank2 := if pol then rank1 - bigL12Get (st.rk.l12.getD l1_pos 0) l2_pos
      else rank1 - sub64 (l2_pos * FlatConfig.L2_BIT_SIZE)
        (bigL12Get (st.rk.l12.getD l1_pos 0) l2_pos)
    let last_pos := FlatConfig.L2_WORD_SIZE * l2_pos +
      FlatConfig.L1_WORD_SIZE * l1_pos
    match cWordScan true st.rk.ws fuel last_pos rank2 with
    | none => none
    | some (lp, r) => some (lp * 64 + selectInWord (st.rk.ws.getD lp 0) (r - 1))

/-- One iteration of the sampling loop of `WideRankSelect::init` at
position `l2_pos`: the first condition subtracts a boolean comparison
result from `l2_pos * 512` and treats the difference as a truth value. -/
def wSampStep (pol : Bool) (rk : WRankState) (l2_pos : Nat) (st : SampState) :
    SampState :=
  let offset := rk.l1.getD (l2_pos / 128) 0
  let cnt := offset + rk.l2.getD l2_pos 0
  let b : Nat := if st.next1 ≤ cnt then 1 else 0
  if pol then
    let st :=
      if sub64 (l2_pos * WideConfig.L2_BIT_SIZE) b ≠ 0 then
        { st with s0 := st.s0 ++ [sub64 l2_pos 1],
                  next0 := st.next0 + WideConfig.SELECT_SAMPLE_RATE }
      else st
    if st.next1 ≤ cnt then
      { st with s1 := st.s1 ++ [sub64 l2_pos 1],
                next1 := st.next1 + WideConfig.SELECT_SAMPLE_RATE }
    else st
  else
    let st :=
      if st.next1 ≤ cnt then
        { st with s0 := st.s0 ++ [sub64 l2_pos 1],
                  next0 := st.next0 + WideConfig.SELECT_SAMPLE_RATE }
      else st
    if sub64 (l2_pos * WideConfig.L2_BIT_SIZE) b ≠ 0 then
      { st with s1 := st.s1 ++ [sub64 l2_pos 1],
                next1 := st.next1 + WideConfig.SELECT_SAMPLE_RATE }
    else st

/-- The sampling loop of `WideRankSelect::init`. -/
def wSelLoop (pol : Bool) (rk : WRankState) : Nat → Nat → SampState → SampState
  | 0, _, st => st
  | f + 1, l2_pos, st =>
    if l2_pos < rk.l2.length then
      wSelLoop pol rk f (l2_pos + 1) (wSampStep pol rk l2_pos st)
    else st

/-- The `WideRankSelect` structure. -/
structure WSelState where
  rk : WRankState
  samples0 : List Nat
  samples1 : List Nat
deriving DecidableEq

/-- `WideRankSelect::WideRankSelect(bv)` / `WideRankSelect::init`: ranks
first, then the sample arrays; no fix-up entries are appended. -/
def wSelInit (pol : Bool) (ws : List Nat) (junk : Nat) : WSelState :=
  let rk := wRankInit pol ws junk
  let st := wSelLoop pol rk rk.l2.length 0
    { next0 := 1, next1 := 1, s0 := [], s1 := [] }
  { rk := rk, samples0 := st.s0, samples1 := st.s1 }

/-! ### `select1_reverse` (src/bit_vector/support/select.hpp) -/

/-- `pasta::select1_reverse` (select.hpp lines 42–79), split into one
definition per source line. The broadword popcount levels `a`, `b`, `c`,
`d`. -/
def bwA (data : Nat) : Nat := sub64 data ((data >>> 1) &&& 0x5555555555555555)

/-- Level `b` of `select1_reverse`. -/
def bwB (data : Nat) : Nat :=
  (bwA data &&& 0x3333333333333333) + ((bwA data >>> 2) &&& 0x3333333333333333)

/-- Level `c` of `select1_reverse`. -/
def bwC (data : Nat) : Nat := (bwB data + (bwB data >>> 4)) &&& 0x0F0F0F0F0F0F0F0F

/-- Level `d` of `select1_reverse`. -/
def bwD (data : Nat) : Nat := (bwC data + (bwC data >>> 8)) &&& 0x00FF00FF00FF00FF

/-- The branchless update `s -= ((t - rank) & 256) >> shift` of
`select1_reverse` (`t`, `s`, `rank` are `uint32_t`). -/
def bwStepS (s t r sh : Nat) : Nat := s - ((sub32 t r &&& 256) >>> sh)

/-- The branchless update `rank -= (t & ((t - rank) >> 8))` of
`select1_reverse`. -/
def bwStepR (t r : Nat) : Nat := r - (t &&& (sub32 t r >>> 8))

/-- `uint32_t t = (d >> 32) + (d >> 48);` of `select1_reverse`. -/
def bwT1 (data : Nat) : Nat := (bwD data >>> 32) + (bwD data >>> 48)

/-- `s` and `rank` after the first descent step of `select1_reverse`. -/
def bwS1 (data rank : Nat) : Nat := bwStepS 64 (bwT1 data) rank 3

/-- Remaining rank after the first descent step. -/
def bwR1 (data rank : Nat) : Nat := bwStepR (bwT1 data) rank

/-- `t = (d >> (s - 16)) & 0xff;`. -/
def bwT2 (data rank : Nat) : Nat := (bwD data >>> (bwS1 data rank - 16)) &&& 0xff

/-- `s` after the second descent step. -/
def bwS2 (data rank : Nat) : Nat :=
  bwStepS (bwS1 data rank) (bwT2 data rank) (bwR1 data rank) 4

/-- Remaining rank after the second descent step. -/
def bwR2 (data rank : Nat) : Nat := bwStepR (bwT2 data rank) (bwR1 data rank)

/-- `t = (c >> (s - 8)) & 0xf;`. -/
def bwT3 (data rank : Nat) : Nat := (bwC data >>> (bwS2 data rank - 8)) &&& 0xf

/-- `s` after the third descent step. -/
def bwS3 (data rank : Nat) : Nat :=
  bwStepS (bwS2 data rank) (bwT3 data rank) (bwR2 data rank) 5

/-- Remaining rank after the third descent step. -/
def bwR3 (data rank : Nat) : Nat := bwStepR (bwT3 data rank) (bwR2 data rank)

/-- `t = (b >> (s - 4)) & 0x7;`. -/
def bwT4 (data rank : Nat) : Nat := (bwB data >>> (bwS3 data rank - 4)) &&& 0x7

/-- `s` after the fourth descent step. -/
def bwS4 (data rank : Nat) : Nat :=
  bwStepS (bwS3 data rank) (bwT4 data rank) (bwR3 data rank) 6

/-- Remaining rank after the fourth descent step. -/
def bwR4 (data rank : Nat) : Nat := bwStepR (bwT4 data rank) (bwR3 data rank)

/-- `t = (a >> (s - 2)) & 0x3;`. -/
def bwT5 (data rank : Nat) : Nat := (bwA data >>> (bwS4 data rank - 2)) &&& 0x3

/-- `s` after the fifth descent step. -/
def bwS5 (data rank : Nat) : Nat :=
  bwStepS (bwS4 data rank) (bwT5 data rank) (bwR4 data rank) 7

/-- Remaining rank after the fifth descent step. -/
def bwR5 (data rank : Nat) : Nat := bwStepR (bwT5 data rank) (bwR4 data rank)

/-- `t = (data >> (s - 1)) & 0x1;`. -/
def bwT6 (data rank : Nat) : Nat := (data >>> (bwS5 data rank - 1)) &&& 0x1

/-- `s` after the sixth descent step. -/
def bwS6 (data rank : Nat) : Nat :=
  bwStepS (bwS5 data rank) (bwT6 data rank) (bwR5 data rank) 8

/-- `pasta::select1_reverse` (select.hpp lines 42–79): broadword select of
the `rank`-th set bit counting from the MSB; returns `s - 1`. -/
def select1_reverse (data rank : Nat) : Nat := bwS6 data rank - 1

/-! Digit-list machinery for the broadword levels. -/

/-- The little-endian base-`2 ^ k` digits of `n`, `len` of them. -/
def digitsOf (k : Nat) : Nat → Nat → List Nat
  | 0, _ => []
  | len + 1, n => (n &&& (2 ^ k - 1)) :: digitsOf k len (n >>> k)

theorem digitsOf_length (k : Nat) : ∀ len n, (digitsOf k len n).length = len := by
  intro len
  induction len with
  | zero => intro n; rfl
  | succ g ih =>
    intro n
    show (_ :: digitsOf k g (n >>> k)).length = g + 1
    rw [List.length_cons, ih]

theorem digitsOf_bounded (k : Nat) (hk : 0 < k) :
    ∀ len n, ∀ d ∈ digitsOf k len n, d < 2 ^ k := by
  intro len
  induction len with
  | zero => intro n d hd; exact absurd hd (by simp [digitsOf])
  | succ g ih =>
    intro n d hd
    rw [digitsOf] at hd
    rcases List.mem_cons.mp hd with h | h
    · subst h
      have h1 : n &&& (2 ^ k - 1) ≤ 2 ^ k - 1 := Nat.and_le_right
      have h2 : 0 < 2 ^ k := Nat.pos_pow_of_pos k (by norm_num)
      omega
    · exact ih (n >>> k) d h

theorem digitsOf_val (k : Nat) : ∀ len n,
    digitsVal k (digitsOf k len n) = n % 2 ^ (k * len) := by
  intro len
  induction len with
  | zero =>
    intro n
    show (0 : Nat) = n % 2 ^ (k * 0)
    rw [Nat.mul_zero, Nat.pow_zero, Nat.mod_one]
  | succ g ih =>
    intro n
    show (n &&& (2 ^ k - 1)) + (digitsVal k (digitsOf k g (n >>> k))) <<< k =
      n % 2 ^ (k * (g + 1))
    rw [ih, Nat.and_pow_two_sub_one_eq_mod, Nat.shiftLeft_eq,
      Nat.shiftRight_eq_div_pow]
    have hM : 0 < 2 ^ (k * g) := Nat.pos_pow_of_pos _ (by norm_num)
    have hk2 : 0 < 2 ^ k := Nat.pos_pow_of_pos _ (by norm_num)
    have hsplit : k * (g + 1) = k + k * g := by ring
    rw [hsplit, Nat.pow_add]
    have h1 : n = 2 ^ k * (n / 2 ^ k) + n % 2 ^ k := (Nat.div_add_mod n (2 ^ k)).symm
    conv_rhs => rw [h1]
    rw [Nat.mul_comm (2 ^ k) (2 ^ (k * g))]
    have h2 : (2 ^ k * (n / 2 ^ k) + n % 2 ^ k) % (2 ^ (k * g) * 2 ^ k) =
        2 ^ k * (n / 2 ^ k % 2 ^ (k * g)) + n % 2 ^ k := by
      have h3 : 2 ^ (k * g) * 2 ^ k = 2 ^ k * 2 ^ (k * g) := Nat.mul_comm _ _
      rw [h3, Nat.add_mod, Nat.mul_mod_mul_left]
      have h4 : n % 2 ^ k % (2 ^ k * 2 ^ (k * g)) = n % 2 ^ k :=
        Nat.mod_eq_of_lt (by
          have := Nat.mod_lt n hk2
          calc n % 2 ^ k < 2 ^ k := Nat.mod_lt n hk2
            _ ≤ 2 ^ k * 2 ^ (k * g) := Nat.le_mul_of_pos_right _ hM)
      rw [h4]
      refine Nat.mod_eq_of_lt ?_
      have h5 : n / 2 ^ k % 2 ^ (k * g) < 2 ^ (k * g) := Nat.mod_lt _ hM
      calc 2 ^ k * (n / 2 ^ k % 2 ^ (k * g)) + n % 2 ^ k
          < 2 ^ k * (n / 2 ^ k % 2 ^ (k * g)) + 2 ^ k := by
            have := Nat.mod_lt n hk2
            omega
        _ = 2 ^ k * (n / 2 ^ k % 2 ^ (k * g) + 1) := by ring
        _ ≤ 2 ^ k * 2 ^ (k * g) := Nat.mul_le_mul_left _ (by omega)
    rw [h2]
    ring

theorem digitsOf_getD (k : Nat) : ∀ len n j, j < len →
    (digitsOf k len n).getD j 0 = (n >>> (k * j)) &&& (2 ^ k - 1) := by
  intro len
  induction len with
  | zero => intro n j hj; omega
  | succ g ih =>
    intro n j hj
    cases j with
    | zero =>
      show n &&& (2 ^ k - 1) = (n >>> (k * 0)) &&& (2 ^ k - 1)
      rw [Nat.mul_zero]
      rfl
    | succ i =>
      show (digitsOf k g (n >>> k)).getD i 0 = _
      rw [ih (n >>> k) i (by omega)]
      have h1 : (n >>> k) >>> (k * i) = n >>> (k * (i + 1)) := by
        rw [← Nat.shiftRight_add]
        have : k + k * i = k * (i + 1) := by ring
        rw [this]
      rw [h1]

/-- Merge adjacent digit pairs into double-width digits. -/
def pairUp (k : Nat) : List Nat → List Nat
  | [] => []
  | [d] => [d]
  | d0 :: d1 :: rest => (d0 + d1 <<< k) :: pairUp k rest

theorem pairUp_val (k : Nat) : ∀ n ds, ds.length ≤ n →
    digitsVal (k + k) (pairUp k ds) = digitsVal k ds := by
  intro n
  induction n with
  | zero =>
    intro ds hds
    have : ds = [] := List.length_eq_zero.mp (by omega)
    subst this
    rfl
  | succ m ih =>
    intro ds hds
    match ds with
    | [] => rfl
    | [d] =>
      show d + (0 : Nat) <<< (k + k) = d + (0 : Nat) <<< k
      simp [Nat.zero_shiftLeft]
    | d0 :: d1 :: rest =>
      show (d0 + d1 <<< k) + (digitsVal (k + k) (pairUp k rest)) <<< (k + k) =
        d0 + (d1 + (digitsVal k rest) <<< k) <<< k
      rw [ih rest (by
        have := hds
        simp only [List.length_cons] at this ⊢
        omega)]
      simp only [Nat.shiftLeft_eq, Nat.pow_add]
      ring

theorem pairUp_getD (k : Nat) : ∀ n ds j, ds.length ≤ n →
    (pairUp k ds).getD j 0 = ds.getD (2 * j) 0 + (ds.getD (2 * j + 1) 0) <<< k := by
  intro n
  induction n with
  | zero =>
    intro ds j hds
    have : ds = [] := List.length_eq_zero.mp (by omega)
    subst this
    show (0 : Nat) = 0 + (0 : Nat) <<< k
    rw [Nat.zero_shiftLeft]
  | succ m ih =>
    intro ds j hds
    match ds with
    | [] =>
      show (0 : Nat) = 0 + (0 : Nat) <<< k
      rw [Nat.zero_shiftLeft]
    | [d] =>
      cases j with
      | zero =>
        show d = d + (0 : Nat) <<< k
        simp [Nat.zero_shiftLeft]
      | succ i =>
        show (0 : Nat) = ([d] : List Nat).getD (2 * (i + 1)) 0 +
          (([d] : List Nat).getD (2 * (i + 1) + 1) 0) <<< k
        have h1 : ([d] : List Nat).getD (2 * (i + 1)) 0 = 0 := by
          rw [List.getD_eq_getElem?_getD, List.getElem?_eq_none
            (by simp only [List.length_cons, List.length_nil]; omega)]
          rfl
        have h2 : ([d] : List Nat).getD (2 * (i + 1) + 1) 0 = 0 := by
          rw [List.getD_eq_getElem?_getD, List.getElem?_eq_none
            (by simp only [List.length_cons, List.length_nil]; omega)]
          rfl
        rw [h1, h2]
        simp [Nat.zero_shiftLeft]
    | d0 :: d1 :: rest =>
      cases j with
      | zero =>
        show d0 + d1 <<< k = d0 + d1 <<< k
        rfl
      | succ i =>
        show (pairUp k rest).getD i 0 = _
        rw [ih rest i (by
          simp only [List.length_cons] at hds
          omega)]
        have h1 : (d0 :: d1 :: rest).getD (2 * (i + 1)) 0 = rest.getD (2 * i) 0 := by
          have : 2 * (i + 1) = 2 * i + 1 + 1 := by ring
          rw [this]
          rfl
        have h2 : (d0 :: d1 :: rest).getD (2 * (i + 1) + 1) 0 =
            rest.getD (2 * i + 1) 0 := by
          have : 2 * (i + 1) + 1 = 2 * i + 1 + 1 + 1 := by ring
          rw [this]
          rfl
        rw [h1, h2]

theorem digitsVal_and_rep (k m : Nat) (hm : m < 2 ^ k) :
    ∀ ds, (∀ d ∈ ds, d < 2 ^ k) →
    (digitsVal k ds) &&& (digitsVal k (List.replicate ds.length m)) =
      digitsVal k (ds.map (· &&& m)) := by
  intro ds
  induction ds with
  | nil => intro _; simp [digitsVal]
  | cons d rest ih =>
    intro hb
    show (d + (digitsVal k rest) <<< k) &&&
      (m + (digitsVal k (List.replicate rest.length m)) <<< k) =
      (d &&& m) + (digitsVal k (rest.map (· &&& m))) <<< k
    rw [land_split _ _ _ _ _ (hb d (by simp)) hm,
      ih (fun x hx => hb x (by simp [hx]))]

theorem digitsVal_zipAdd (k : Nat) :
    ∀ ds es, ds.length = es.length →
    (∀ j, j < ds.length → ds.getD j 0 + es.getD j 0 < 2 ^ k) →
    digitsVal k ds + digitsVal k es = digitsVal k (List.zipWith (· + ·) ds es) := by
  intro ds
  induction ds with
  | nil =>
    intro es hlen _
    have : es = [] := List.length_eq_zero.mp (by simpa using hlen.symm)
    subst this
    rfl
  | cons d rest ih =>
    intro es hlen hb
    match es with
    | [] => exact absurd hlen (by simp)
    | e :: erest =>
      show (d + (digitsVal k rest) <<< k) + (e + (digitsVal k erest) <<< k) =
        (d + e) + (digitsVal k (List.zipWith (· + ·) rest erest)) <<< k
      rw [← ih erest (by simpa using hlen) (fun j hj => by
        have := hb (j + 1) (by simp only [List.length_cons]; omega)
        simpa using this)]
      simp only [Nat.shiftLeft_eq, Nat.add_mul]
      ring

theorem digitsVal_mono (k : Nat) : ∀ ds es, ds.length = es.length →
    (∀ j, j < ds.length → es.getD j 0 ≤ ds.getD j 0) →
    digitsVal k es ≤ digitsVal k ds := by
  intro ds
  induction ds with
  | nil =>
    intro es hlen _
    have : es = [] := List.length_eq_zero.mp (by simpa using hlen.symm)
    subst this
    exact Nat.le_refl _
  | cons d rest ih =>
    intro es hlen hle
    match es with
    | [] => exact Nat.zero_le _
    | e :: erest =>
      show e + (digitsVal k erest) <<< k ≤ d + (digitsVal k rest) <<< k
      have hde : e ≤ d := by
        have := hle 0 (by simp only [List.length_cons]; omega)
        simpa using this
      have hrec := ih erest (by simpa using hlen) (fun j hj => by
        have := hle (j + 1) (by simp only [List.length_cons]; omega)
        simpa using this)
      have hm : (digitsVal k erest) <<< k ≤ (digitsVal k rest) <<< k := by
        simp only [Nat.shiftLeft_eq]
        exact Nat.mul_le_mul_right _ hrec
      omega

/-- Digit-wise decomposition of a digit value into a pointwise-smaller value
plus the pointwise difference. -/
theorem digitsVal_zipSub (k : Nat) :
    ∀ ds es, ds.length = es.length → (∀ d ∈ ds, d < 2 ^ k) →
    (∀ j, j < ds.length → es.getD j 0 ≤ ds.getD j 0) →
    digitsVal k ds - digitsVal k es =
      digitsVal k (List.zipWith (· - ·) ds es) := by
  intro ds
  induction ds with
  | nil =>
    intro es hlen _ _
    have : es = [] := List.length_eq_zero.mp (by simpa using hlen.symm)
    subst this
    rfl
  | cons d rest ih =>
    intro es hlen hb hle
    match es with
    | [] => exact absurd hlen (by simp)
    | e :: erest =>
      show (d + (digitsVal k rest) <<< k) - (e + (digitsVal k erest) <<< k) =
        (d - e) + (digitsVal k (List.zipWith (· - ·) rest erest)) <<< k
      have hde : e ≤ d := by
        have := hle 0 (by simp only [List.length_cons]; omega)
        simpa using this
      have hrle : digitsVal k erest ≤ digitsVal k rest :=
        digitsVal_mono k rest erest (by simpa using hlen)
          (fun j hj => by
            have := hle (j + 1) (by simp only [List.length_cons]; omega)
            simpa using this)
      rw [← ih erest (by simpa using hlen) (fun x hx => hb x (by simp [hx]))
        (fun j hj => by
          have := hle (j + 1) (by simp only [List.length_cons]; omega)
          simpa using this)]
      simp only [Nat.shiftLeft_eq, Nat.sub_mul]
      have hmul : digitsVal k erest * 2 ^ k ≤ digitsVal k rest * 2 ^ k :=
        Nat.mul_le_mul_right _ hrle
      omega

theorem getD_map_and (m : Nat) (l : List Nat) (j : Nat) (hj : j < l.length) :
    (l.map (· &&& m)).getD j 0 = l.getD j 0 &&& m := by
  rw [List.getD_eq_getElem?_getD, List.getElem?_eq_getElem (by simpa using hj),
    List.getElem_map, List.getD_eq_getElem?_getD, List.getElem?_eq_getElem hj]
  rfl

theorem getD_zipWith_add (ds es : List Nat) (j : Nat) (hj : j < ds.length)
    (hj2 : j < es.length) :
    (List.zipWith (· + ·) ds es).getD j 0 = ds.getD j 0 + es.getD j 0 := by
  rw [List.getD_eq_getElem?_getD,
    List.getElem?_eq_getElem (by rw [List.length_zipWith]; omega),
    List.getElem_zipWith, List.getD_eq_getElem?_getD, List.getElem?_eq_getElem hj,
    List.getD_eq_getElem?_getD, List.getElem?_eq_getElem hj2]
  rfl

theorem getD_zipWith_sub (ds es : List Nat) (j : Nat) (hj : j < ds.length)
    (hj2 : j < es.length) :
    (List.zipWith (· - ·) ds es).getD j 0 = ds.getD j 0 - es.getD j 0 := by
  rw [List.getD_eq_getElem?_getD,
    List.getElem?_eq_getElem (by rw [List.length_zipWith]; omega),
    List.getElem_zipWith, List.getD_eq_getElem?_getD, List.getElem?_eq_getElem hj,
    List.getD_eq_getElem?_getD, List.getElem?_eq_getElem hj2]
  rfl

theorem getD_drop_add (l : List Nat) (i j : Nat) :
    (l.drop i).getD j 0 = l.getD (i + j) 0 := by
  rw [List.getD_eq_getElem?_getD, List.getD_eq_getElem?_getD, List.getElem?_drop]

theorem list_eq_of_getD (a b : List Nat) (h : a.length = b.length)
    (hD : ∀ j, j < a.length → a.getD j 0 = b.getD j 0) : a = b := by
  apply List.ext_getElem h
  intro n h1 h2
  have hn := hD n h1
  rw [List.getD_eq_getElem?_getD, List.getD_eq_getElem?_getD,
    List.getElem?_eq_getElem h1, List.getElem?_eq_getElem h2] at hn
  simpa using hn

/-- The per-block popcount digit lists of the broadword levels. -/
def pcDigits (width count : Nat) (w : Nat) : List Nat :=
  (List.range count).map (fun j => popc width (w >>> (width * j)))

theorem pcDigits_length (width count w : Nat) :
    (pcDigits width count w).length = count := by
  rw [pcDigits, List.length_map, List.length_range]

theorem pcDigits_getD (width count w j : Nat) (hj : j < count) :
    (pcDigits width count w).getD j 0 = popc width (w >>> (width * j)) := by
  rw [pcDigits, List.getD_eq_getElem?_getD,
    List.getElem?_eq_getElem (by rw [List.length_map, List.length_range]; omega),
    List.getElem_map, List.getElem_range]
  rfl

theorem pcDigits_bounded (width count w : Nat) (hw : 0 < width) :
    ∀ d ∈ pcDigits width count w, d < 2 ^ width := by
  intro d hd
  rw [pcDigits] at hd
  obtain ⟨j, hj, hdj⟩ := List.mem_map.mp hd
  subst hdj
  exact Nat.lt_of_le_of_lt (popc_le _ _) (Nat.lt_two_pow _)

theorem pairUp_length (k : Nat) : ∀ n ds, ds.length ≤ n →
    (pairUp k ds).length = (ds.length + 1) / 2 := by
  intro n
  induction n with
  | zero =>
    intro ds hds
    have : ds = [] := List.length_eq_zero.mp (by omega)
    subst this
    rfl
  | succ m ih =>
    intro ds hds
    match ds with
    | [] => rfl
    | [d] => simp [pairUp]
    | d0 :: d1 :: rest =>
      show (pairUp k rest).length + 1 = _
      rw [ih rest (by simp only [List.length_cons] at hds ⊢; omega)]
      simp only [List.length_cons]
      omega

theorem zipWith_sub_bounded (B : Nat) : ∀ ds es : List Nat, (∀ d ∈ ds, d < B) →
    ∀ x ∈ List.zipWith (· - ·) ds es, x < B := by
  intro ds
  induction ds with
  | nil => intro es _ x hx; exact absurd hx (by simp)
  | cons d rest ih =>
    intro es hb x hx
    match es with
    | [] => exact absurd hx (by simp)
    | e :: erest =>
      rcases List.mem_cons.mp hx with h | h
      · subst h
        have hdB : d < B := hb d (by simp)
        show d - e < B
        omega
      · exact ih erest (fun y hy => hb y (by simp [hy])) x h

theorem twoBitLe (x : Nat) : (x >>> 1) &&& 1 ≤ x &&& 3 := by
  have h1 : x &&& 3 = x % 4 := by
    have : (3 : Nat) = 2 ^ 2 - 1 := by norm_num
    rw [this, Nat.and_pow_two_sub_one_eq_mod]
  have h2 : (x >>> 1) &&& 1 = x / 2 % 2 := by
    have : (1 : Nat) = 2 ^ 1 - 1 := by norm_num
    rw [this, Nat.and_pow_two_sub_one_eq_mod, Nat.shiftRight_eq_div_pow,
      Nat.pow_one]
  rw [h1, h2]
  omega

theorem twoBitSub (x : Nat) : (x &&& 3) - ((x >>> 1) &&& 1) = popc 2 x := by
  have h1 : x &&& 3 = x % 4 := by
    have : (3 : Nat) = 2 ^ 2 - 1 := by norm_num
    rw [this, Nat.and_pow_two_sub_one_eq_mod]
  have h2 : (x >>> 1) &&& 1 = x / 2 % 2 := by
    have : (1 : Nat) = 2 ^ 1 - 1 := by norm_num
    rw [this, Nat.and_pow_two_sub_one_eq_mod, Nat.shiftRight_eq_div_pow,
      Nat.pow_one]
  have h3 : popc 2 x = popc 2 (x % 4) := by
    have := popc_mod_pow 2 x
    simpa using this.symm
  have h4 : x / 2 % 2 = x % 4 / 2 := by omega
  rw [h1, h2, h3, h4]
  have h5 : ∀ y, y < 4 → y - y / 2 = popc 2 y := by decide
  exact h5 (x % 4) (by omega)

theorem sub64_of_le (x y : Nat) (hx : x < 2 ^ 64) (hy : y ≤ x) :
    sub64 x y = x - y := by
  rw [sub64]
  have h1 : y % 2 ^ 64 = y := Nat.mod_eq_of_lt (by omega)
  rw [h1]
  omega

/-- Level `a` packs the 2-bit block popcounts. -/
theorem bwA_val (w : Nat) (hw : w < 2 ^ 64) :
    bwA w = digitsVal 2 (pcDigits 2 32 w) := by
  have hWval : digitsVal 2 (digitsOf 2 32 w) = w := by
    rw [digitsOf_val]
    exact Nat.mod_eq_of_lt hw
  have hsh : w >>> 1 < 2 ^ 64 := by
    have h : w >>> 1 ≤ w := by
      rw [Nat.shiftRight_eq_div_pow]
      exact Nat.div_le_self _ _
    omega
  have hVval : digitsVal 2 (digitsOf 2 32 (w >>> 1)) = w >>> 1 := by
    rw [digitsOf_val]
    exact Nat.mod_eq_of_lt hsh
  have hmask : (0x5555555555555555 : Nat) = digitsVal 2 (List.replicate 32 1) := by
    decide
  have hlenV : (digitsOf 2 32 (w >>> 1)).length = 32 := digitsOf_length _ _ _
  have hmasked : (w >>> 1) &&& 0x5555555555555555 =
      digitsVal 2 ((digitsOf 2 32 (w >>> 1)).map (· &&& 1)) := by
    have h := digitsVal_and_rep 2 1 (by norm_num) (digitsOf 2 32 (w >>> 1))
      (digitsOf_bounded 2 (by norm_num) _ _)
    rw [hlenV, hVval, ← hmask] at h
    exact h
  have hle : (w >>> 1) &&& 0x5555555555555555 ≤ w := by
    have h1 : (w >>> 1) &&& 0x5555555555555555 ≤ w >>> 1 := Nat.and_le_left
    have h2 : w >>> 1 ≤ w := by
      rw [Nat.shiftRight_eq_div_pow]
      exact Nat.div_le_self _ _
    omega
  have harr : ∀ j : Nat, ((w >>> 1) >>> (2 * j)) &&& (2 ^ 2 - 1) &&& 1 =
      ((w >>> (2 * j)) >>> 1) &&& 1 := by
    intro j
    rw [Nat.and_assoc]
    have h31 : (2 ^ 2 - 1 : Nat) &&& 1 = 1 := by decide
    rw [h31, ← Nat.shiftRight_add, ← Nat.shiftRight_add, Nat.add_comm]
  have h32 : (2 ^ 2 - 1 : Nat) = 3 := by norm_num
  have hptle : ∀ j, j < (digitsOf 2 32 w).length →
      ((digitsOf 2 32 (w >>> 1)).map (· &&& 1)).getD j 0 ≤
        (digitsOf 2 32 w).getD j 0 := by
    intro j hj
    rw [digitsOf_length] at hj
    rw [digitsOf_getD 2 32 w j hj,
      getD_map_and _ _ _ (by rw [digitsOf_length]; omega),
      digitsOf_getD 2 32 (w >>> 1) j hj, harr j, h32]
    exact twoBitLe _
  have hz := digitsVal_zipSub 2 (digitsOf 2 32 w)
    ((digitsOf 2 32 (w >>> 1)).map (· &&& 1))
    (by rw [digitsOf_length, List.length_map, digitsOf_length])
    (digitsOf_bounded 2 (by norm_num) _ _) hptle
  rw [hWval] at hz
  rw [bwA, sub64_of_le _ _ hw hle, hmasked, hz]
  apply congrArg
  refine list_eq_of_getD _ _ (by
    rw [List.length_zipWith, digitsOf_length, List.length_map, digitsOf_length,
      pcDigits_length]
    omega) ?_
  intro j hjl
  have hj : j < 32 := by
    rw [List.length_zipWith, digitsOf_length, List.length_map, digitsOf_length] at hjl
    omega
  rw [getD_zipWith_sub _ _ _ (by rw [digitsOf_length]; omega)
    (by rw [List.length_map, digitsOf_length]; omega),
    digitsOf_getD 2 32 w j hj,
    getD_map_and _ _ _ (by rw [digitsOf_length]; omega),
    digitsOf_getD 2 32 (w >>> 1) j hj,
    pcDigits_getD _ _ _ _ hj, harr j, h32]
  exact twoBitSub _

/-- Pairwise sums of adjacent digits. -/
def pairSums : List Nat → List Nat
  | [] => []
  | [d] => [d]
  | d0 :: d1 :: rest => (d0 + d1) :: pairSums rest

theorem pairSums_length : ∀ (n : Nat) (ds : List Nat), ds.length ≤ n →
    (pairSums ds).length = (ds.length + 1) / 2 := by
  intro n
  induction n with
  | zero =>
    intro ds hds
    have : ds = [] := List.length_eq_zero.mp (by omega)
    subst this
    rfl
  | succ m ih =>
    intro ds hds
    match ds with
    | [] => rfl
    | [d] => simp [pairSums]
    | d0 :: d1 :: rest =>
      show (pairSums rest).length + 1 = _
      rw [ih rest (by simp only [List.length_cons] at hds ⊢; omega)]
      simp only [List.length_cons]
      omega

theorem pairSums_getD : ∀ (n : Nat) (ds : List Nat) (j : Nat), ds.length ≤ n →
    (pairSums ds).getD j 0 = ds.getD (2 * j) 0 + ds.getD (2 * j + 1) 0 := by
  intro n
  induction n with
  | zero =>
    intro ds j hds
    have : ds = [] := List.length_eq_zero.mp (by omega)
    subst this
    rfl
  | succ m ih =>
    intro ds j hds
    match ds with
    | [] => rfl
    | [d] =>
      cases j with
      | zero => show d = d + ([d] : List Nat).getD 1 0; rfl
      | succ i =>
        show (0 : Nat) = ([d] : List Nat).getD (2 * (i + 1)) 0 +
          ([d] : List Nat).getD (2 * (i + 1) + 1) 0
        have h1 : ([d] : List Nat).getD (2 * (i + 1)) 0 = 0 := by
          rw [List.getD_eq_getElem?_getD, List.getElem?_eq_none
            (by simp only [List.length_cons, List.length_nil]; omega)]
          rfl
        have h2 : ([d] : List Nat).getD (2 * (i + 1) + 1) 0 = 0 := by
          rw [List.getD_eq_getElem?_getD, List.getElem?_eq_none
            (by simp only [List.length_cons, List.length_nil]; omega)]
          rfl
        rw [h1, h2]
    | d0 :: d1 :: rest =>
      cases j with
      | zero => rfl
      | succ i =>
        show (pairSums rest).getD i 0 = _
        rw [ih rest i (by simp only [List.length_cons] at hds; omega)]
        have h1 : (d0 :: d1 :: rest).getD (2 * (i + 1)) 0 = rest.getD (2 * i) 0 := by
          have : 2 * (i + 1) = 2 * i + 1 + 1 := by ring
          rw [this]
          rfl
        have h2 : (d0 :: d1 :: rest).getD (2 * (i + 1) + 1) 0 =
            rest.getD (2 * i + 1) 0 := by
          have : 2 * (i + 1) + 1 = 2 * i + 1 + 1 + 1 := by ring
          rw [this]
          rfl
        rw [h1, h2]

theorem pairUp_bounded (k : Nat) : ∀ (n : Nat) (ds : List Nat), ds.length ≤ n →
    (∀ d ∈ ds, d < 2 ^ k) → ∀ x ∈ pairUp k ds, x < 2 ^ (k + k) := by
  intro n
  induction n with
  | zero =>
    intro ds hds _ x hx
    have : ds = [] := List.length_eq_zero.mp (by omega)
    subst this
    exact absurd hx (by simp [pairUp])
  | succ m ih =>
    intro ds hds hb x hx
    match ds with
    | [] => exact absurd hx (by simp [pairUp])
    | [d] =>
      have : x = d := by
        have : x ∈ ([d] : List Nat) := hx
        simpa using this
      subst this
      have h1 : x < 2 ^ k := hb x (by simp)
      have h2 : 2 ^ k ≤ 2 ^ (k + k) := Nat.pow_le_pow_right (by norm_num) (by omega)
      omega
    | d0 :: d1 :: rest =>
      rcases List.mem_cons.mp hx with h | h
      · subst h
        exact addShift_lt _ _ _ _ (hb d0 (by simp)) (hb d1 (by simp))
      · exact ih rest (by simp only [List.length_cons] at hds; omega)
          (fun y hy => hb y (by simp [hy])) x h

theorem getD_lt_of_bounded (l : List Nat) (B : Nat) (hB : 0 < B)
    (hb : ∀ d ∈ l, d < B) (j : Nat) : l.getD j 0 < B := by
  by_cases hj : j < l.length
  · have hmem : l.getD j 0 ∈ l := by
      rw [List.getD_eq_getElem?_getD, List.getElem?_eq_getElem hj]
      exact List.getElem_mem _
    exact hb _ hmem
  · rw [List.getD_eq_getElem?_getD, List.getElem?_eq_none (by omega)]
    exact hB

theorem mem_lt_of_getD (l : List Nat) (B : Nat)
    (h : ∀ j, j < l.length → l.getD j 0 < B) : ∀ d ∈ l, d < B := by
  intro d hd
  obtain ⟨n, hn, rfl⟩ := List.mem_iff_getElem.mp hd
  have := h n hn
  rw [List.getD_eq_getElem?_getD, List.getElem?_eq_getElem hn] at this
  exact this

/-- The mask-then-add merge step (level `b`): masking even and odd digits
of a width-`k` digit value and adding them yields the pairwise sums as
width-`2k` digits. -/
theorem merge_mask_add (k : Nat) (hk : 0 < k) (ds : List Nat) (cnt : Nat)
    (hlen : ds.length = 2 * cnt) (hbd : ∀ d ∈ ds, d < 2 ^ k) :
    ((digitsVal k ds) &&& digitsVal (k + k) (List.replicate cnt (2 ^ k - 1))) +
      (((digitsVal k ds) >>> k) &&&
        digitsVal (k + k) (List.replicate cnt (2 ^ k - 1))) =
      digitsVal (k + k) (pairSums ds) := by
  have hkk : 0 < 2 ^ k := Nat.pos_pow_of_pos _ (by norm_num)
  have hmlt : 2 ^ k - 1 < 2 ^ (k + k) := by
    have : 2 ^ k ≤ 2 ^ (k + k) := Nat.pow_le_pow_right (by norm_num) (by omega)
    omega
  have hPval : digitsVal (k + k) (pairUp k ds) = digitsVal k ds :=
    pairUp_val k ds.length ds (Nat.le_refl _)
  have hPlen : (pairUp k ds).length = cnt := by
    rw [pairUp_length k ds.length ds (Nat.le_refl _), hlen]
    omega
  have hPbd := pairUp_bounded k ds.length ds (Nat.le_refl _) hbd
  have hEv := digitsVal_and_rep (k + k) (2 ^ k - 1) hmlt (pairUp k ds) hPbd
  rw [hPlen, hPval] at hEv
  have hsh : (digitsVal k ds) >>> k = digitsVal k (ds.drop 1) := by
    have h := digitsVal_shiftRight k hk ds hbd 1
    rw [Nat.mul_one] at h
    exact h
  have hP'val : digitsVal (k + k) (pairUp k (ds.drop 1)) =
      digitsVal k (ds.drop 1) :=
    pairUp_val k ds.length _ (by rw [List.length_drop]; omega)
  have hP'len : (pairUp k (ds.drop 1)).length = cnt := by
    rw [pairUp_length k ds.length _ (by rw [List.length_drop]; omega),
      List.length_drop, hlen]
    omega
  have hP'bd := pairUp_bounded k ds.length (ds.drop 1)
    (by rw [List.length_drop]; omega)
    (fun d hd => hbd d (List.mem_of_mem_drop hd))
  have hOd := digitsVal_and_rep (k + k) (2 ^ k - 1) hmlt (pairUp k (ds.drop 1)) hP'bd
  rw [hP'len, hP'val, ← hsh] at hOd
  rw [hEv, hOd]
  have hEvLen : ((pairUp k ds).map (· &&& (2 ^ k - 1))).length = cnt := by
    rw [List.length_map, hPlen]
  have hOdLen : ((pairUp k (ds.drop 1)).map (· &&& (2 ^ k - 1))).length = cnt := by
    rw [List.length_map, hP'len]
  have hgetEv : ∀ j, j < cnt →
      ((pairUp k ds).map (· &&& (2 ^ k - 1))).getD j 0 = ds.getD (2 * j) 0 := by
    intro j hj
    rw [getD_map_and _ _ _ (by omega),
      pairUp_getD k ds.length ds j (Nat.le_refl _),
      addShift_and_low _ _ _ (getD_lt_of_bounded ds _ hkk hbd _)]
  have hgetOd : ∀ j, j < cnt →
      ((pairUp k (ds.drop 1)).map (· &&& (2 ^ k - 1))).getD j 0 =
        ds.getD (2 * j + 1) 0 := by
    intro j hj
    rw [getD_map_and _ _ _ (by omega),
      pairUp_getD k ds.length (ds.drop 1) j (by rw [List.length_drop]; omega),
      addShift_and_low _ _ _ (by
        rw [getD_drop_add]
        exact getD_lt_of_bounded ds _ hkk hbd _),
      getD_drop_add]
    have e1 : 1 + 2 * j = 2 * j + 1 := by omega
    rw [e1]
  rw [digitsVal_zipAdd (k + k) _ _ (by rw [hEvLen, hOdLen]) (by
    intro j hj
    rw [hEvLen] at hj
    rw [hgetEv j hj, hgetOd j hj]
    have h1 := getD_lt_of_bounded ds _ hkk hbd (2 * j)
    have h2 := getD_lt_of_bounded ds _ hkk hbd (2 * j + 1)
    have h3 : 2 ^ k + 2 ^ k ≤ 2 ^ (k + k) := by
      have h4 : 2 ^ (k + 1) ≤ 2 ^ (k + k) := Nat.pow_le_pow_right (by norm_num) (by omega)
      rw [Nat.pow_succ] at h4
      omega
    omega)]
  apply congrArg
  refine list_eq_of_getD _ _ (by
    rw [List.length_zipWith, hEvLen, hOdLen,
      pairSums_length ds.length ds (Nat.le_refl _), hlen]
    omega) ?_
  intro j hjl
  have hj : j < cnt := by
    rw [List.length_zipWith, hEvLen, hOdLen] at hjl
    omega
  rw [getD_zipWith_add _ _ _ (by omega) (by omega), hgetEv j hj, hgetOd j hj,
    pairSums_getD ds.length ds j (Nat.le_refl _)]

/-- The add-then-mask merge step (levels `c` and `d`): adding a width-`k`
digit value to its `k`-shift and masking the low halves of the width-`2k`
fields yields the pairwise sums. -/
theorem merge_add_mask (k : Nat) (hk : 0 < k) (ds : List Nat) (cnt : Nat)
    (hlen : ds.length = 2 * cnt) (hbd : ∀ d ∈ ds, d < 2 ^ (k - 1)) :
    ((digitsVal k ds) + ((digitsVal k ds) >>> k)) &&&
      digitsVal (k + k) (List.replicate cnt (2 ^ k - 1)) =
      digitsVal (k + k) (pairSums ds) := by
  have hkk : 0 < 2 ^ k := Nat.pos_pow_of_pos _ (by norm_num)
  have hk1 : 0 < 2 ^ (k - 1) := Nat.pos_pow_of_pos _ (by norm_num)
  have hhalf : 2 ^ (k - 1) + 2 ^ (k - 1) ≤ 2 ^ k := by
    have h : 2 ^ (k - 1) * 2 = 2 ^ (k - 1 + 1) := by
      rw [Nat.pow_succ]
    have h2 : k - 1 + 1 = k := by omega
    rw [h2] at h
    omega
  have hbd' : ∀ d ∈ ds, d < 2 ^ k := by
    intro d hd
    have h1 := hbd d hd
    have h2 : 2 ^ (k - 1) ≤ 2 ^ k := Nat.pow_le_pow_right (by norm_num) (by omega)
    omega
  have hmlt : 2 ^ k - 1 < 2 ^ (k + k) := by
    have : 2 ^ k ≤ 2 ^ (k + k) := Nat.pow_le_pow_right (by norm_num) (by omega)
    omega
  have hPval : digitsVal (k + k) (pairUp k ds) = digitsVal k ds :=
    pairUp_val k ds.length ds (Nat.le_refl _)
  have hPlen : (pairUp k ds).length = cnt := by
    rw [pairUp_length k ds.length ds (Nat.le_refl _), hlen]
    omega
  have hsh : (digitsVal k ds) >>> k = digitsVal k (ds.drop 1) := by
    have h := digitsVal_shiftRight k hk ds hbd' 1
    rw [Nat.mul_one] at h
    exact h
  have hP'val : digitsVal (k + k) (pairUp k (ds.drop 1)) =
      digitsVal k (ds.drop 1) :=
    pairUp_val k ds.length _ (by rw [List.length_drop]; omega)
  have hP'len : (pairUp k (ds.drop 1)).length = cnt := by
    rw [pairUp_length k ds.length _ (by rw [List.length_drop]; omega),
      List.length_drop, hlen]
    omega
  have hgetP : ∀ j, (pairUp k ds).getD j 0 =
      ds.getD (2 * j) 0 + (ds.getD (2 * j + 1) 0) <<< k :=
    fun j => pairUp_getD k ds.length ds j (Nat.le_refl _)
  have hgetP' : ∀ j, (pairUp k (ds.drop 1)).getD j 0 =
      ds.getD (2 * j + 1) 0 + (ds.getD (2 * j + 2) 0) <<< k := by
    intro j
    rw [pairUp_getD k ds.length (ds.drop 1) j (by rw [List.length_drop]; omega),
      getD_drop_add, getD_drop_add]
    have e1 : 1 + 2 * j = 2 * j + 1 := by omega
    have e2 : 1 + (2 * j + 1) = 2 * j + 2 := by omega
    rw [e1, e2]
  have hsums : ∀ j, (List.zipWith (· + ·) (pairUp k ds) (pairUp k (ds.drop 1))).getD j 0 =
      (ds.getD (2 * j) 0 + ds.getD (2 * j + 1) 0) +
        ((ds.getD (2 * j + 1) 0 + ds.getD (2 * j + 2) 0)) <<< k := by
    intro j
    by_cases hj : j < cnt
    · rw [getD_zipWith_add _ _ _ (by omega) (by omega), hgetP j, hgetP' j]
      simp only [Nat.shiftLeft_eq, Nat.add_mul]
      ring
    · have hz1 : (List.zipWith (· + ·) (pairUp k ds) (pairUp k (ds.drop 1))).getD j 0 = 0 := by
        rw [List.getD_eq_getElem?_getD, List.getElem?_eq_none
          (by rw [List.length_zipWith, hPlen, hP'len]; omega)]
        rfl
      have hz2 : ds.getD (2 * j) 0 = 0 := by
        rw [List.getD_eq_getElem?_getD, List.getElem?_eq_none (by omega)]
        rfl
      have hz3 : ds.getD (2 * j + 1) 0 = 0 := by
        rw [List.getD_eq_getElem?_getD, List.getElem?_eq_none (by omega)]
        rfl
      have hz4 : ds.getD (2 * j + 2) 0 = 0 := by
        rw [List.getD_eq_getElem?_getD, List.getElem?_eq_none (by omega)]
        rfl
      rw [hz1, hz2, hz3, hz4]
      simp [Nat.zero_shiftLeft]
  have hzipAdd := digitsVal_zipAdd (k + k) (pairUp k ds) (pairUp k (ds.drop 1))
    (by rw [hPlen, hP'len]) (by
      intro j hj
      rw [hPlen] at hj
      rw [hgetP j, hgetP' j]
      have b0 := getD_lt_of_bounded ds _ hk1 hbd (2 * j)
      have b1 := getD_lt_of_bounded ds _ hk1 hbd (2 * j + 1)
      have b2 := getD_lt_of_bounded ds _ hk1 hbd (2 * j + 2)
      have hform : (ds.getD (2 * j) 0 + (ds.getD (2 * j + 1) 0) <<< k) +
          (ds.getD (2 * j + 1) 0 + (ds.getD (2 * j + 2) 0) <<< k) =
          (ds.getD (2 * j) 0 + ds.getD (2 * j + 1) 0) +
            ((ds.getD (2 * j + 1) 0 + ds.getD (2 * j + 2) 0)) <<< k := by
        simp only [Nat.shiftLeft_eq, Nat.add_mul]
        ring
      rw [hform]
      exact addShift_lt _ _ _ _ (by omega) (by omega))
  rw [hPval, hP'val, ← hsh] at hzipAdd
  rw [hzipAdd]
  have hzbd : ∀ x ∈ List.zipWith (· + ·) (pairUp k ds) (pairUp k (ds.drop 1)),
      x < 2 ^ (k + k) := by
    refine mem_lt_of_getD _ _ ?_
    intro j hjl
    rw [hsums j]
    have b0 := getD_lt_of_bounded ds _ hk1 hbd (2 * j)
    have b1 := getD_lt_of_bounded ds _ hk1 hbd (2 * j + 1)
    have b2 := getD_lt_of_bounded ds _ hk1 hbd (2 * j + 2)
    exact addShift_lt _ _ _ _ (by omega) (by omega)
  have hrep := digitsVal_and_rep (k + k) (2 ^ k - 1) hmlt _ hzbd
  rw [show (List.zipWith (· + ·) (pairUp k ds) (pairUp k (ds.drop 1))).length = cnt by
    rw [List.length_zipWith, hPlen, hP'len]; omega] at hrep
  rw [hrep]
  apply congrArg
  refine list_eq_of_getD _ _ (by
    rw [List.length_map, List.length_zipWith, hPlen, hP'len,
      pairSums_length ds.length ds (Nat.le_refl _), hlen]
    omega) ?_
  intro j hjl
  have hj : j < cnt := by
    rw [List.length_map, List.length_zipWith, hPlen, hP'len] at hjl
    omega
  rw [getD_map_and _ _ _ (by rw [List.length_zipWith, hPlen, hP'len]; omega),
    hsums j, addShift_and_low _ _ _ (by
      have b0 := getD_lt_of_bounded ds _ hk1 hbd (2 * j)
      have b1 := getD_lt_of_bounded ds _ hk1 hbd (2 * j + 1)
      omega),
    pairSums_getD ds.length ds j (Nat.le_refl _)]

theorem pairSums_pcDigits (width cnt total w : Nat) (htot : total = 2 * cnt) :
    pairSums (pcDigits width total w) = pcDigits (width + width) cnt w := by
  refine list_eq_of_getD _ _ (by
    rw [pairSums_length (pcDigits width total w).length _ (Nat.le_refl _),
      pcDigits_length, pcDigits_length]
    omega) ?_
  intro j hjl
  have hj : j < cnt := by
    rw [pairSums_length (pcDigits width total w).length _ (Nat.le_refl _),
      pcDigits_length] at hjl
    omega
  rw [pairSums_getD (pcDigits width total w).length _ j (Nat.le_refl _),
    pcDigits_getD _ _ _ _ (by omega), pcDigits_getD _ _ _ _ (by omega),
    pcDigits_getD _ _ _ _ hj]
  have hsp := popc_add_split width width (w >>> ((width + width) * j))
  have e1 : (width + width) * j = width * (2 * j) := by ring
  have e2 : (w >>> (width * (2 * j))) >>> width = w >>> (width * (2 * j + 1)) := by
    rw [← Nat.shiftRight_add]
    have : width * (2 * j) + width = width * (2 * j + 1) := by ring
    rw [this]
  rw [e1, e2] at hsp
  rw [e1]
  omega

theorem pcDigits_le (width cnt w : Nat) : ∀ d ∈ pcDigits width cnt w, d ≤ width := by
  intro d hd
  rw [pcDigits] at hd
  obtain ⟨j, hj, hdj⟩ := List.mem_map.mp hd
  subst hdj
  exact popc_le _ _

/-- Level `b` packs the 4-bit block popcounts. -/
theorem bwB_val (w : Nat) (hw : w < 2 ^ 64) :
    bwB w = digitsVal 4 (pcDigits 4 16 w) := by
  have hA := bwA_val w hw
  have hmask : (0x3333333333333333 : Nat) =
      digitsVal (2 + 2) (List.replicate 16 (2 ^ 2 - 1)) := by decide
  have hm := merge_mask_add 2 (by norm_num) (pcDigits 2 32 w) 16
    (by rw [pcDigits_length]) (pcDigits_bounded _ _ _ (by norm_num))
  rw [pairSums_pcDigits 2 16 32 w (by norm_num)] at hm
  rw [← hmask, ← hA] at hm
  rw [bwB]
  exact hm

/-- Level `c` packs the 8-bit block popcounts. -/
theorem bwC_val (w : Nat) (hw : w < 2 ^ 64) :
    bwC w = digitsVal 8 (pcDigits 8 8 w) := by
  have hB := bwB_val w hw
  have hmask : (0x0F0F0F0F0F0F0F0F : Nat) =
      digitsVal (4 + 4) (List.replicate 8 (2 ^ 4 - 1)) := by decide
  have hm := merge_add_mask 4 (by norm_num) (pcDigits 4 16 w) 8
    (by rw [pcDigits_length]) (by
      intro d hd
      have := pcDigits_le 4 16 w d hd
      omega)
  rw [pairSums_pcDigits 4 8 16 w (by norm_num)] at hm
  rw [← hmask, ← hB] at hm
  rw [bwC]
  exact hm

/-- Level `d` packs the 16-bit block popcounts. -/
theorem bwD_val (w : Nat) (hw : w < 2 ^ 64) :
    bwD w = digitsVal 16 (pcDigits 16 4 w) := by
  have hC := bwC_val w hw
  have hmask : (0x00FF00FF00FF00FF : Nat) =
      digitsVal (8 + 8) (List.replicate 4 (2 ^ 8 - 1)) := by decide
  have hm := merge_add_mask 8 (by norm_num) (pcDigits 8 8 w) 4
    (by rw [pcDigits_length]) (by
      intro d hd
      have := pcDigits_le 8 8 w d hd
      omega)
  rw [pairSums_pcDigits 8 4 8 w (by norm_num)] at hm
  rw [← hmask, ← hC] at hm
  rw [bwD]
  exact hm

/-- Extracting an aligned field of a packed popcount level through a
narrower all-ones mask. -/
theorem level_extract (k cnt w j t : Nat) (hk : 0 < k) (ht : t ≤ k)
    (hval : popc k (w >>> (k * j)) < 2 ^ t) (hj : j < cnt) :
    (digitsVal k (pcDigits k cnt w) >>> (k * j)) &&& (2 ^ t - 1) =
      popc k (w >>> (k * j)) := by
  have hex := digitsVal_extract k hk (pcDigits k cnt w)
    (pcDigits_bounded _ _ _ hk) j
  rw [pcDigits_getD _ _ _ _ hj] at hex
  rw [Nat.and_pow_two_sub_one_eq_mod] at hex ⊢
  have hdv : (digitsVal k (pcDigits k cnt w) >>> (k * j)) % 2 ^ t =
      (digitsVal k (pcDigits k cnt w) >>> (k * j)) % 2 ^ k % 2 ^ t :=
    (Nat.mod_mod_of_dvd _ (pow_dvd_pow 2 ht)).symm
  rw [hdv, hex, Nat.mod_eq_of_lt hval]

theorem digitsVal_cons_getD (k : Nat) (l : List Nat) :
    digitsVal k l = l.getD 0 0 + (digitsVal k (l.drop 1)) <<< k := by
  cases l with
  | nil => simp [digitsVal, Nat.zero_shiftLeft]
  | cons d rest => rfl

/-- The initial `t = (d >> 32) + (d >> 48)` of the descent: the true
popcount of the upper half, polluted by the top 16-bit field shifted up. -/
theorem bwT1_val (w : Nat) (hw : w < 2 ^ 64) :
    bwT1 w = popc 32 (w >>> 32) + (popc 16 (w >>> 48)) <<< 16 := by
  have hD := bwD_val w hw
  have hlen : (pcDigits 16 4 w).length = 4 := pcDigits_length _ _ _
  have hdrop3 : digitsVal 16 ((pcDigits 16 4 w).drop 3) = popc 16 (w >>> 48) := by
    rw [digitsVal_cons_getD, getD_drop_add]
    have h4 : ((pcDigits 16 4 w).drop 3).drop 1 = (pcDigits 16 4 w).drop 4 := by
      rw [List.drop_drop]
    rw [h4]
    have h5 : (pcDigits 16 4 w).drop 4 = [] := by
      refine List.drop_eq_nil_of_le ?_
      rw [hlen]
    rw [h5]
    show (pcDigits 16 4 w).getD 3 0 + (0 : Nat) <<< 16 = popc 16 (w >>> 48)
    rw [pcDigits_getD _ _ _ _ (by omega), Nat.zero_shiftLeft, Nat.add_zero]
  have hd48 : bwD w >>> 48 = popc 16 (w >>> 48) := by
    rw [hD]
    have h := digitsVal_shiftRight 16 (by norm_num) (pcDigits 16 4 w)
      (pcDigits_bounded _ _ _ (by norm_num)) 3
    have e3 : (16 : Nat) * 3 = 48 := by norm_num
    rw [e3] at h
    rw [h, hdrop3]
  have hd32 : bwD w >>> 32 = popc 16 (w >>> 32) + (popc 16 (w >>> 48)) <<< 16 := by
    rw [hD]
    have h := digitsVal_shiftRight 16 (by norm_num) (pcDigits 16 4 w)
      (pcDigits_bounded _ _ _ (by norm_num)) 2
    have e2 : (16 : Nat) * 2 = 32 := by norm_num
    rw [e2] at h
    rw [h, digitsVal_cons_getD, getD_drop_add]
    have h4 : ((pcDigits 16 4 w).drop 2).drop 1 = (pcDigits 16 4 w).drop 3 := by
      rw [List.drop_drop]
    rw [h4, hdrop3, pcDigits_getD _ _ _ _ (by omega)]
  rw [bwT1, hd32, hd48]
  have hsp := popc_add_split 16 16 (w >>> 32)
  have e4 : (w >>> 32) >>> 16 = w >>> 48 := by
    rw [← Nat.shiftRight_add]
  rw [e4] at hsp
  have e5 : (16 : Nat) + 16 = 32 := by norm_num
  rw [e5] at hsp
  omega

theorem and256_split (x y : Nat) (hx : x < 2 ^ 8) :
    (x + y <<< 8) &&& 256 = (y &&& 1) <<< 8 := by
  have h256 : (256 : Nat) = 0 + 1 <<< 8 := by decide
  conv_lhs => rw [h256]
  rw [land_split _ _ _ _ 8 hx (by norm_num), Nat.and_zero, Nat.zero_add]

/-- The `& 256` branch test of the descent, for a small `t`. -/
theorem stage_and256 (t r : Nat) (ht : t ≤ 64) (hr1 : 1 ≤ r) (hr : r ≤ 64) :
    sub32 t r &&& 256 = if t < r then 256 else 0 := by
  rw [sub32]
  have hrm : r % 2 ^ 32 = r := Nat.mod_eq_of_lt (by omega)
  rw [hrm]
  by_cases hlt : t < r
  · rw [if_pos hlt]
    have hv : (t + (2 ^ 32 - r)) % 2 ^ 32 = (256 - (r - t)) + (2 ^ 24 - 1) <<< 8 := by
      have h1 : (256 - (r - t)) + (2 ^ 24 - 1) <<< 8 = 2 ^ 32 - (r - t) := by
        rw [Nat.shiftLeft_eq]
        omega
      rw [h1]
      have h2 : t + (2 ^ 32 - r) = 2 ^ 32 - (r - t) := by omega
      rw [h2]
      exact Nat.mod_eq_of_lt (by omega)
    rw [hv, and256_split _ _ (by omega)]
    have h4 : (2 ^ 24 - 1) &&& 1 = 1 := by decide
    rw [h4]
    rfl
  · rw [if_neg hlt]
    have hv : (t + (2 ^ 32 - r)) % 2 ^ 32 = t - r := by
      have h2 : t + (2 ^ 32 - r) = (t - r) + 2 ^ 32 := by omega
      rw [h2, Nat.add_mod_right]
      exact Nat.mod_eq_of_lt (by omega)
    rw [hv]
    have hform : t - r = (t - r) + (0 : Nat) <<< 8 := by
      rw [Nat.zero_shiftLeft, Nat.add_zero]
    rw [hform, and256_split _ _ (by omega)]
    rfl

/-- The rank adjustment `t & ((t - rank) >> 8)` of the descent, for a small
`t`. -/
theorem stage_mask (t r : Nat) (ht : t ≤ 64) (hr1 : 1 ≤ r) (hr : r ≤ 64) :
    t &&& (sub32 t r >>> 8) = if t < r then t else 0 := by
  rw [sub32]
  have hrm : r % 2 ^ 32 = r := Nat.mod_eq_of_lt (by omega)
  rw [hrm]
  by_cases hlt : t < r
  · rw [if_pos hlt]
    have hv : (t + (2 ^ 32 - r)) % 2 ^ 32 = (256 - (r - t)) + (2 ^ 24 - 1) <<< 8 := by
      have h1 : (256 - (r - t)) + (2 ^ 24 - 1) <<< 8 = 2 ^ 32 - (r - t) := by
        rw [Nat.shiftLeft_eq]
        omega
      rw [h1]
      have h2 : t + (2 ^ 32 - r) = 2 ^ 32 - (r - t) := by omega
      rw [h2]
      exact Nat.mod_eq_of_lt (by omega)
    rw [hv, addShift_shiftRight _ _ _ (by omega), Nat.and_pow_two_sub_one_eq_mod]
    exact Nat.mod_eq_of_lt (by omega)
  · rw [if_neg hlt]
    have hv : (t + (2 ^ 32 - r)) % 2 ^ 32 = t - r := by
      have h2 : t + (2 ^ 32 - r) = (t - r) + 2 ^ 32 := by omega
      rw [h2, Nat.add_mod_right]
      exact Nat.mod_eq_of_lt (by omega)
    rw [hv]
    have h5 : (t - r) >>> 8 = 0 := by
      rw [Nat.shiftRight_eq_div_pow]
      omega
    rw [h5, Nat.and_zero]

/-- The `& 256` branch test of the first descent step, where `t` carries
the top 16-bit field `K` shifted up: the verdict only depends on the low
part. -/
theorem stage1_and256 (t K r : Nat) (ht : t ≤ 64) (hK : K ≤ 16) (hr1 : 1 ≤ r)
    (hr : r ≤ 64) :
    sub32 (t + K <<< 16) r &&& 256 = if t < r then 256 else 0 := by
  by_cases hK0 : K = 0
  · subst hK0
    simp only [Nat.zero_shiftLeft, Nat.add_zero]
    exact stage_and256 t r ht hr1 hr
  · have hK1 : 1 ≤ K := by omega
    rw [sub32]
    have hrm : r % 2 ^ 32 = r := Nat.mod_eq_of_lt (by omega)
    rw [hrm]
    have hKv : K <<< 16 = K * 65536 := by
      rw [Nat.shiftLeft_eq]
    by_cases hlt : t < r
    · rw [if_pos hlt]
      have hv : (t + K <<< 16 + (2 ^ 32 - r)) % 2 ^ 32 =
          (256 - (r - t)) + (K * 256 - 1) <<< 8 := by
        have h1 : (256 - (r - t)) + (K * 256 - 1) <<< 8 = K * 65536 - (r - t) := by
          rw [Nat.shiftLeft_eq]
          omega
        rw [h1]
        have h2 : t + K <<< 16 + (2 ^ 32 - r) = (K * 65536 - (r - t)) + 2 ^ 32 := by
          rw [hKv]
          omega
        rw [h2, Nat.add_mod_right]
        exact Nat.mod_eq_of_lt (by omega)
      rw [hv, and256_split _ _ (by omega)]
      have h4 : (K * 256 - 1) &&& 1 = 1 := by
        rw [Nat.and_one_is_mod]
        omega
      rw [h4]
      rfl
    · rw [if_neg hlt]
      have hv : (t + K <<< 16 + (2 ^ 32 - r)) % 2 ^ 32 =
          (t - r) + (K * 256) <<< 8 := by
        have h1 : (t - r) + (K * 256) <<< 8 = (t - r) + K * 65536 := by
          rw [Nat.shiftLeft_eq]
          omega
        rw [h1]
        have h2 : t + K <<< 16 + (2 ^ 32 - r) = ((t - r) + K * 65536) + 2 ^ 32 := by
          rw [hKv]
          omega
        rw [h2, Nat.add_mod_right]
        exact Nat.mod_eq_of_lt (by omega)
      rw [hv, and256_split _ _ (by omega)]
      have h4 : (K * 256) &&& 1 = 0 := by
        rw [Nat.and_one_is_mod]
        omega
      rw [h4]
      rfl

/-- The low-8-bit/high-bits disjointness used by the first rank
adjustment. -/
theorem and_low_high (u v : Nat) (hu : u < 2 ^ 8) :
    (v <<< 8) &&& u = 0 := by
  have hv : v <<< 8 = 0 + v <<< 8 := by rw [Nat.zero_add]
  have hu2 : u = u + (0 : Nat) <<< 8 := by rw [Nat.zero_shiftLeft, Nat.add_zero]
  conv_lhs => rw [hv, hu2]
  rw [land_split _ _ _ _ 8 (by norm_num) hu, Nat.zero_and, Nat.and_zero,
    Nat.zero_shiftLeft]

/-- The rank adjustment of the first descent step: the polluted high part
of `t` is masked away. -/
theorem stage1_mask (t K r : Nat) (ht : t ≤ 64) (hK : K ≤ 16) (hr1 : 1 ≤ r)
    (hr : r ≤ 64) :
    (t + K <<< 16) &&& (sub32 (t + K <<< 16) r >>> 8) = if t < r then t else 0 := by
  by_cases hK0 : K = 0
  · subst hK0
    simp only [Nat.zero_shiftLeft, Nat.add_zero]
    exact stage_mask t r ht hr1 hr
  · have hK1 : 1 ≤ K := by omega
    rw [sub32]
    have hrm : r % 2 ^ 32 = r := Nat.mod_eq_of_lt (by omega)
    rw [hrm]
    have hKv : K <<< 16 = K * 65536 := by
      rw [Nat.shiftLeft_eq]
    have hsplit16 : t + K <<< 16 = t + (K * 256) <<< 8 := by
      rw [hKv, Nat.shiftLeft_eq]
      omega
    by_cases hlt : t < r
    · rw [if_pos hlt]
      have hv : (t + K <<< 16 + (2 ^ 32 - r)) % 2 ^ 32 =
          (256 - (r - t)) + (K * 256 - 1) <<< 8 := by
        have h1 : (256 - (r - t)) + (K * 256 - 1) <<< 8 = K * 65536 - (r - t) := by
          rw [Nat.shiftLeft_eq]
          omega
        rw [h1]
        have h2 : t + K <<< 16 + (2 ^ 32 - r) = (K * 65536 - (r - t)) + 2 ^ 32 := by
          rw [hKv]
          omega
        rw [h2, Nat.add_mod_right]
        exact Nat.mod_eq_of_lt (by omega)
      rw [hv, addShift_shiftRight _ _ _ (by omega)]
      have hmask : K * 256 - 1 = 255 + (K - 1) <<< 8 := by
        rw [Nat.shiftLeft_eq]
        omega
      rw [hsplit16, hmask, land_split _ _ _ _ 8 (by omega) (by norm_num)]
      have h5 : t &&& 255 = t := by
        have h255 : (255 : Nat) = 2 ^ 8 - 1 := by norm_num
        rw [h255, Nat.and_pow_two_sub_one_eq_mod]
        exact Nat.mod_eq_of_lt (by omega)
      have h6 : (K * 256) &&& (K - 1) = 0 := by
        have hKs : (K * 256 : Nat) = K <<< 8 := by
          rw [Nat.shiftLeft_eq]
        rw [hKs]
        exact and_low_high _ _ (by omega)
      rw [h5, h6, Nat.zero_shiftLeft, Nat.add_zero]
    · rw [if_neg hlt]
      have hv : (t + K <<< 16 + (2 ^ 32 - r)) % 2 ^ 32 =
          (t - r) + (K * 256) <<< 8 := by
        have h1 : (t - r) + (K * 256) <<< 8 = (t - r) + K * 65536 := by
          rw [Nat.shiftLeft_eq]
          omega
        rw [h1]
        have h2 : t + K <<< 16 + (2 ^ 32 - r) = ((t - r) + K * 65536) + 2 ^ 32 := by
          rw [hKv]
          omega
        rw [h2, Nat.add_mod_right]
        exact Nat.mod_eq_of_lt (by omega)
      rw [hv, addShift_shiftRight _ _ _ (by omega)]
      rw [hsplit16]
      have hKzero : (K * 256 : Nat) = 0 + K <<< 8 := by
        rw [Nat.shiftLeft_eq]
        omega
      nth_rewrite 2 [hKzero]
      rw [land_split _ _ _ _ 8 (by omega) (by omega)]
      have hb : (K * 256) &&& K = 0 := by
        have hKs : (K * 256 : Nat) = K <<< 8 := by
          rw [Nat.shiftLeft_eq]
        rw [hKs]
        exact and_low_high _ _ (by omega)
      rw [Nat.and_zero, hb, Nat.zero_shiftLeft, Nat.add_zero]

/-- Invariant of the branchless descent of `select1_reverse` before a stage
with test-half `h`: the candidate window is `[s - 2h, s)`. -/
structure DescInv (w rank h s r : Nat) : Prop where
  hdvd : 2 * h ∣ s
  hs2h : 2 * h ≤ s
  hs64 : s ≤ 64
  hr1 : 1 ≤ r
  hr64 : r ≤ 64
  hsum : r + popc 64 (w >>> s) = rank
  hwin : r ≤ popc (2 * h) (w >>> (s - 2 * h))

theorem shiftRight_shiftRight_add (w a b : Nat) : (w >>> a) >>> b = w >>> (a + b) := by
  rw [← Nat.shiftRight_add]

theorem popc_ext_64 (w s f : Nat) (hw : w < 2 ^ 64) (hf : 64 - s ≤ f) (hf64 : f ≤ 64) :
    popc f (w >>> s) = popc 64 (w >>> s) := by
  have hb : w >>> s < 2 ^ (64 - s) := by
    rw [Nat.shiftRight_eq_div_pow]
    rw [Nat.div_lt_iff_lt_mul (Nat.pos_pow_of_pos _ (by norm_num))]
    calc w < 2 ^ 64 := hw
      _ ≤ 2 ^ (64 - s + s) := Nat.pow_le_pow_right (by norm_num) (by omega)
      _ = 2 ^ (64 - s) * 2 ^ s := Nat.pow_add 2 _ _
  have hbf : w >>> s < 2 ^ f := lt_of_lt_of_le hb
    (Nat.pow_le_pow_right (by norm_num) hf)
  have h := popc_of_lt_pow f (64 - f) (w >>> s) hbf
  have harg : f + (64 - f) = 64 := by omega
  rw [harg] at h
  exact h.symm

/-- One step of the descent, from test-half `2g` to test-half `g`. -/
theorem desc_step (w rank g s r : Nat) (hg : 0 < g) (hw : w < 2 ^ 64)
    (inv : DescInv w rank (2 * g) s r) :
    DescInv w rank g
      (if popc (2 * g) (w >>> (s - 2 * g)) < r then s - 2 * g else s)
      (if popc (2 * g) (w >>> (s - 2 * g)) < r then
        r - popc (2 * g) (w >>> (s - 2 * g)) else r) := by
  obtain ⟨hdvd, hs2h, hs64, hr1, hr64, hsum, hwin⟩ := inv
  set t := popc (2 * g) (w >>> (s - 2 * g)) with ht
  have hs4g : 2 * (2 * g) ≤ s := hs2h
  have hdvd4 : 2 * (2 * g) ∣ s := hdvd
  have hdvd2 : 2 * g ∣ s := dvd_trans ⟨2, by ring⟩ hdvd4
  have hsplitAbove : popc 64 (w >>> (s - 2 * g)) = t + popc 64 (w >>> s) := by
    have hx : (w >>> (s - 2 * g)) >>> (2 * g) = w >>> s := by
      rw [shiftRight_shiftRight_add]
      have harg : s - 2 * g + 2 * g = s := by omega
      rw [harg]
    have hsp := popc_add_split (2 * g) (64 - 2 * g) (w >>> (s - 2 * g))
    have harg : 2 * g + (64 - 2 * g) = 64 := by omega
    rw [harg, hx] at hsp
    have hext := popc_ext_64 w s (64 - 2 * g) hw (by omega) (by omega)
    omega
  have hfullsplit : popc (2 * (2 * g)) (w >>> (s - 2 * (2 * g))) =
      popc (2 * g) (w >>> (s - 2 * (2 * g))) + t := by
    have hsp := popc_add_split (2 * g) (2 * g) (w >>> (s - 2 * (2 * g)))
    have harg : 2 * g + 2 * g = 2 * (2 * g) := by ring
    have hx : (w >>> (s - 2 * (2 * g))) >>> (2 * g) = w >>> (s - 2 * g) := by
      rw [shiftRight_shiftRight_add]
      have harg2 : s - 2 * (2 * g) + 2 * g = s - 2 * g := by omega
      rw [harg2]
    rw [harg, hx] at hsp
    rw [← ht] at hsp
    exact hsp
  have htle : t ≤ 2 * g := by
    rw [ht]
    exact popc_le _ _
  by_cases hc : t < r
  · rw [if_pos hc, if_pos hc]
    refine ⟨Nat.dvd_sub' hdvd2 (Nat.dvd_refl _), by omega, by omega, by omega,
      by omega, ?_, ?_⟩
    · omega
    · have harg : s - 2 * g - 2 * g = s - 2 * (2 * g) := by omega
      rw [harg]
      omega
  · rw [if_neg hc, if_neg hc]
    refine ⟨hdvd2, by omega, by omega, by omega, by omega, hsum, ?_⟩
    omega

theorem popc_one_and (x : Nat) : popc 1 x = x &&& 1 := by
  simp [popc]

theorem testBit_of_bitOf (w p : Nat) (h : bitOf w p = 1) : w.testBit p = true := by
  rw [Nat.testBit_to_div_mod]
  rw [bitOf, Nat.and_one_is_mod, Nat.shiftRight_eq_div_pow] at h
  simpa using h

/-- The final stage of the descent: the surviving position is the
`rank`-th set bit from the MSB. -/
theorem desc_final (w rank s r : Nat) (hw : w < 2 ^ 64)
    (inv : DescInv w rank 1 s r) :
    w.testBit ((if popc 1 (w >>> (s - 1)) < r then s - 1 else s) - 1) = true ∧
    popc ((if popc 1 (w >>> (s - 1)) < r then s - 1 else s) - 1) w =
      popc 64 w - rank ∧
    (if popc 1 (w >>> (s - 1)) < r then s - 1 else s) - 1 ≤ 63 := by
  obtain ⟨hdvd, hs2h, hs64, hr1, hr64, hsum, hwin⟩ := inv
  set t := popc 1 (w >>> (s - 1)) with htdef
  have htle : t ≤ 1 := by
    rw [htdef]
    exact popc_le _ _
  have hwin2 : popc 2 (w >>> (s - 2)) = popc 1 (w >>> (s - 2)) + t := by
    have hsp := popc_add_split 1 1 (w >>> (s - 2))
    have hx : (w >>> (s - 2)) >>> 1 = w >>> (s - 1) := by
      rw [shiftRight_shiftRight_add]
      have harg : s - 2 + 1 = s - 1 := by omega
      rw [harg]
    have harg : (1 : Nat) + 1 = 2 := rfl
    rw [harg, hx] at hsp
    rw [htdef]
    exact hsp
  have hb1le : popc 1 (w >>> (s - 2)) ≤ 1 := popc_le _ _
  have hsplit2 : popc 64 w = popc (s - 2) w + popc 2 (w >>> (s - 2)) +
      popc 64 (w >>> s) := by
    have hsp := popc_add_split (s - 2) (64 - (s - 2)) w
    have harg : s - 2 + (64 - (s - 2)) = 64 := by omega
    rw [harg] at hsp
    have hext := popc_ext_64 w (s - 2) (64 - (s - 2)) hw (by omega) (by omega)
    have hsp2 := popc_add_split 2 62 (w >>> (s - 2))
    have harg2 : (2 : Nat) + 62 = 64 := rfl
    have hx : (w >>> (s - 2)) >>> 2 = w >>> s := by
      rw [shiftRight_shiftRight_add]
      have harg3 : s - 2 + 2 = s := by omega
      rw [harg3]
    rw [harg2, hx] at hsp2
    have hext2 : popc 62 (w >>> s) = popc 64 (w >>> s) :=
      popc_ext_64 w s 62 hw (by omega) (by omega)
    omega
  have hsplit1 : popc (s - 1) w = popc (s - 2) w + popc 1 (w >>> (s - 2)) := by
    have hsp := popc_add_split (s - 2) 1 w
    have harg : s - 2 + 1 = s - 1 := by omega
    rw [harg] at hsp
    exact hsp
  by_cases hc : t < r
  · rw [if_pos hc]
    have ht0 : t = 0 ∨ t = 1 := by omega
    have hr2 : r ≤ popc 1 (w >>> (s - 2)) + t := by
      have := hwin
      rw [hwin2] at this
      omega
    have hb1 : popc 1 (w >>> (s - 2)) = 1 := by omega
    have hreq : r = t + 1 := by omega
    have hp : s - 1 - 1 = s - 2 := by omega
    rw [hp]
    refine ⟨?_, ?_, by omega⟩
    · refine testBit_of_bitOf w (s - 2) ?_
      rw [popc_one_and] at hb1
      rw [bitOf]
      exact hb1
    · omega
  · rw [if_neg hc]
    have ht1 : t = 1 := by omega
    have hreq : r = 1 := by omega
    refine ⟨?_, ?_, by omega⟩
    · refine testBit_of_bitOf w (s - 1) ?_
      rw [htdef, popc_one_and] at ht1
      rw [bitOf]
      exact ht1
    · have hsplit1' : popc 64 w = popc (s - 1) w + t + popc 64 (w >>> s) := by
        rw [hsplit1]
        rw [hwin2] at hsplit2
        omega
      omega

theorem stepS_gen (s u v sh : Nat) (c : Prop) [Decidable c]
    (h256 : u = if c then 256 else 0) (hv : s - 256 >>> sh = v) :
    s - (u >>> sh) = if c then v else s := by
  rw [h256]
  by_cases hc : c
  · rw [if_pos hc, hv, if_pos hc]
  · rw [if_neg hc, if_neg hc, Nat.zero_shiftRight, Nat.sub_zero]

theorem stepR_gen (t r u : Nat) (c : Prop) [Decidable c]
    (hmask : u = if c then t else 0) :
    r - u = if c then r - t else r := by
  rw [hmask]
  by_cases hc : c
  · rw [if_pos hc, if_pos hc]
  · rw [if_neg hc, if_neg hc, Nat.sub_zero]

/-- Full correctness of the broadword `select1_reverse`: for
`1 ≤ r ≤ popcount w` it returns a position `p ≤ 63` holding a set bit
with exactly `r - 1` set bits above it (the `r`-th set bit from the
MSB). -/
theorem select1_rev_main (w r : Nat) (hw : w < 2 ^ 64) (hr1 : 1 ≤ r)
    (hr : r ≤ popc 64 w) :
    w.testBit (select1_reverse w r) = true ∧
    popc (select1_reverse w r) w = popc 64 w - r ∧
    select1_reverse w r ≤ 63 := by
  have hr64 : r ≤ 64 := le_trans hr (popc_le 64 w)
  have hsh64 : w >>> 64 = 0 := by
    rw [Nat.shiftRight_eq_div_pow]
    exact Nat.div_eq_of_lt hw
  have inv0 : DescInv w r 32 64 r := by
    refine ⟨⟨1, by norm_num⟩, by norm_num, by norm_num, hr1, hr64, ?_, ?_⟩
    · rw [hsh64, popc_zero_right]
      exact Nat.add_zero r
    · have h0 : (64 : Nat) - 2 * 32 = 0 := by norm_num
      rw [h0, Nat.shiftRight_zero]
      exact hr
  -- stage 1
  have ht1le : popc 32 (w >>> 32) ≤ 64 := le_trans (popc_le _ _) (by norm_num)
  have hK1le : popc 16 (w >>> 48) ≤ 16 := popc_le _ _
  have hS1 : bwS1 w r = if popc 32 (w >>> 32) < r then 32 else 64 := by
    rw [bwS1, bwStepS, bwT1_val w hw]
    exact stepS_gen 64 _ 32 3 _
      (stage1_and256 (popc 32 (w >>> 32)) (popc 16 (w >>> 48)) r ht1le hK1le
        hr1 hr64)
      (by norm_num [Nat.shiftRight_eq_div_pow])
  have hR1 : bwR1 w r =
      if popc 32 (w >>> 32) < r then r - popc 32 (w >>> 32) else r := by
    rw [bwR1, bwStepR, bwT1_val w hw]
    exact stepR_gen (popc 32 (w >>> 32)) r _ _
      (stage1_mask (popc 32 (w >>> 32)) (popc 16 (w >>> 48)) r ht1le hK1le
        hr1 hr64)
  have inv1 : DescInv w r 16 (bwS1 w r) (bwR1 w r) := by
    have h := desc_step w r 16 64 r (by norm_num) hw inv0
    norm_num at h
    rw [hS1, hR1]
    exact h
  -- stage 2
  have hT2 : bwT2 w r = popc 16 (w >>> (bwS1 w r - 16)) := by
    obtain ⟨m, hm⟩ := inv1.hdvd
    have hs2h := inv1.hs2h
    have hs64 := inv1.hs64
    have hj : bwS1 w r - 16 = 16 * (2 * m - 1) := by omega
    have hjlt : 2 * m - 1 < 4 := by omega
    rw [bwT2, bwD_val w hw]
    have hmask : (0xff : Nat) = 2 ^ 8 - 1 := by norm_num
    rw [hmask, hj]
    exact level_extract 16 4 w (2 * m - 1) 8 (by norm_num) (by norm_num)
      (lt_of_le_of_lt (popc_le _ _) (by norm_num)) hjlt
  have ht2le : popc 16 (w >>> (bwS1 w r - 16)) ≤ 64 :=
    le_trans (popc_le _ _) (by norm_num)
  have hS2 : bwS2 w r =
      if popc 16 (w >>> (bwS1 w r - 16)) < bwR1 w r then bwS1 w r - 16
      else bwS1 w r := by
    rw [bwS2, bwStepS, hT2]
    exact stepS_gen (bwS1 w r) _ (bwS1 w r - 16) 4 _
      (stage_and256 _ _ ht2le inv1.hr1 inv1.hr64)
      (by norm_num [Nat.shiftRight_eq_div_pow])
  have hR2 : bwR2 w r =
      if popc 16 (w >>> (bwS1 w r - 16)) < bwR1 w r then
        bwR1 w r - popc 16 (w >>> (bwS1 w r - 16))
      else bwR1 w r := by
    rw [bwR2, bwStepR, hT2]
    exact stepR_gen _ _ _ _ (stage_mask _ _ ht2le inv1.hr1 inv1.hr64)
  have inv2 : DescInv w r 8 (bwS2 w r) (bwR2 w r) := by
    have h := desc_step w r 8 (bwS1 w r) (bwR1 w r) (by norm_num) hw inv1
    norm_num at h
    rw [hS2, hR2]
    exact h
  -- stage 3
  have hT3 : bwT3 w r = popc 8 (w >>> (bwS2 w r - 8)) := by
    obtain ⟨m, hm⟩ := inv2.hdvd
    have hs2h := inv2.hs2h
    have hs64 := inv2.hs64
    have hj : bwS2 w r - 8 = 8 * (2 * m - 1) := by omega
    have hjlt : 2 * m - 1 < 8 := by omega
    rw [bwT3, bwC_val w hw]
    have hmask : (0xf : Nat) = 2 ^ 4 - 1 := by norm_num
    rw [hmask, hj]
    exact level_extract 8 8 w (2 * m - 1) 4 (by norm_num) (by norm_num)
      (lt_of_le_of_lt (popc_le _ _) (by norm_num)) hjlt
  have ht3le : popc 8 (w >>> (bwS2 w r - 8)) ≤ 64 :=
    le_trans (popc_le _ _) (by norm_num)
  have hS3 : bwS3 w r =
      if popc 8 (w >>> (bwS2 w r - 8)) < bwR2 w r then bwS2 w r - 8
      else bwS2 w r := by
    rw [bwS3, bwStepS, hT3]
    exact stepS_gen (bwS2 w r) _ (bwS2 w r - 8) 5 _
      (stage_and256 _ _ ht3le inv2.hr1 inv2.hr64)
      (by norm_num [Nat.shiftRight_eq_div_pow])
  have hR3 : bwR3 w r =
      if popc 8 (w >>> (bwS2 w r - 8)) < bwR2 w r then
        bwR2 w r - popc 8 (w >>> (bwS2 w r - 8))
      else bwR2 w r := by
    rw [bwR3, bwStepR, hT3]
    exact stepR_gen _ _ _ _ (stage_mask _ _ ht3le inv2.hr1 inv2.hr64)
  have inv3 : DescInv w r 4 (bwS3 w r) (bwR3 w r) := by
    have h := desc_step w r 4 (bwS2 w r) (bwR2 w r) (by norm_num) hw inv2
    norm_num at h
    rw [hS3, hR3]
    exact h
  -- stage 4
  have hT4 : bwT4 w r = popc 4 (w >>> (bwS3 w r - 4)) := by
    obtain ⟨m, hm⟩ := inv3.hdvd
    have hs2h := inv3.hs2h
    have hs64 := inv3.hs64
    have hj : bwS3 w r - 4 = 4 * (2 * m - 1) := by omega
    have hjlt : 2 * m - 1 < 16 := by omega
    rw [bwT4, bwB_val w hw]
    have hmask : (0x7 : Nat) = 2 ^ 3 - 1 := by norm_num
    rw [hmask, hj]
    exact level_extract 4 16 w (2 * m - 1) 3 (by norm_num) (by norm_num)
      (lt_of_le_of_lt (popc_le _ _) (by norm_num)) hjlt
  have ht4le : popc 4 (w >>> (bwS3 w r - 4)) ≤ 64 :=
    le_trans (popc_le _ _) (by norm_num)
  have hS4 : bwS4 w r =
      if popc 4 (w >>> (bwS3 w r - 4)) < bwR3 w r then bwS3 w r - 4
      else bwS3 w r := by
    rw [bwS4, bwStepS, hT4]
    exact stepS_gen (bwS3 w r) _ (bwS3 w r - 4) 6 _
      (stage_and256 _ _ ht4le inv3.hr1 inv3.hr64)
      (by norm_num [Nat.shiftRight_eq_div_pow])
  have hR4 : bwR4 w r =
      if popc 4 (w >>> (bwS3 w r - 4)) < bwR3 w r then
        bwR3 w r - popc 4 (w >>> (bwS3 w r - 4))
      else bwR3 w r := by
    rw [bwR4, bwStepR, hT4]
    exact stepR_gen _ _ _ _ (stage_mask _ _ ht4le inv3.hr1 inv3.hr64)
  have inv4 : DescInv w r 2 (bwS4 w r) (bwR4 w r) := by
    have h := desc_step w r 2 (bwS3 w r) (bwR3 w r) (by norm_num) hw inv3
    norm_num at h
    rw [hS4, hR4]
    exact h
  -- stage 5
  have hT5 : bwT5 w r = popc 2 (w >>> (bwS4 w r - 2)) := by
    obtain ⟨m, hm⟩ := inv4.hdvd
    have hs2h := inv4.hs2h
    have hs64 := inv4.hs64
    have hj : bwS4 w r - 2 = 2 * (2 * m - 1) := by omega
    have hjlt : 2 * m - 1 < 32 := by omega
    rw [bwT5, bwA_val w hw]
    have hmask : (0x3 : Nat) = 2 ^ 2 - 1 := by norm_num
    rw [hmask, hj]
    exact level_extract 2 32 w (2 * m - 1) 2 (by norm_num) (by norm_num)
      (lt_of_le_of_lt (popc_le _ _) (by norm_num)) hjlt
  have ht5le : popc 2 (w >>> (bwS4 w r - 2)) ≤ 64 :=
    le_trans (popc_le _ _) (by norm_num)
  have hS5 : bwS5 w r =
      if popc 2 (w >>> (bwS4 w r - 2)) < bwR4 w r then bwS4 w r - 2
      else bwS4 w r := by
    rw [bwS5, bwStepS, hT5]
    exact stepS_gen (bwS4 w r) _ (bwS4 w r - 2) 7 _
      (stage_and256 _ _ ht5le inv4.hr1 inv4.hr64)
      (by norm_num [Nat.shiftRight_eq_div_pow])
  have hR5 : bwR5 w r =
      if popc 2 (w >>> (bwS4 w r - 2)) < bwR4 w r then
        bwR4 w r - popc 2 (w >>> (bwS4 w r - 2))
      else bwR4 w r := by
    rw [bwR5, bwStepR, hT5]
    exact stepR_gen _ _ _ _ (stage_mask _ _ ht5le inv4.hr1 inv4.hr64)
  have inv5 : DescInv w r 1 (bwS5 w r) (bwR5 w r) := by
    have h := desc_step w r 1 (bwS4 w r) (bwR4 w r) (by norm_num) hw inv4
    norm_num at h
    rw [hS5, hR5]
    exact h
  -- stage 6 and conclusion
  have hT6 : bwT6 w r = popc 1 (w >>> (bwS5 w r - 1)) := by
    rw [bwT6, popc_one_and]
  have ht6le : popc 1 (w >>> (bwS5 w r - 1)) ≤ 64 :=
    le_trans (popc_le _ _) (by norm_num)
  have hS6 : bwS6 w r =
      if popc 1 (w >>> (bwS5 w r - 1)) < bwR5 w r then bwS5 w r - 1
      else bwS5 w r := by
    rw [bwS6, bwStepS, hT6]
    exact stepS_gen (bwS5 w r) _ (bwS5 w r - 1) 8 _
      (stage_and256 _ _ ht6le inv5.hr1 inv5.hr64)
      (by norm_num [Nat.shiftRight_eq_div_pow])
  have hfin := desc_final w r (bwS5 w r) (bwR5 w r) hw inv5
  rw [select1_reverse, hS6]
  exact hfin

/-- The low-bit popcount equals the length of the filtered position
list used by the word-level select model. -/
theorem popc_eq_countFilter (w p : Nat) :
    popc p w = ((List.range p).filter (fun b => w.testBit b)).length := by
  induction p with
  | zero => rfl
  | succ g ih =>
    rw [popc_succ_high, List.range_succ, List.filter_append,
      List.length_append, ih, bitOf_eq_testBit]
    cases h : w.testBit g
    · simp [h]
    · simp [h]

/-- `selectInWord` is the inverse of bit-counting: a set bit at `p < 64`
is recovered from the number of set bits below it. -/
theorem selectInWord_spec (w p : Nat) (hp : p < 64) (hbit : w.testBit p = true) :
    selectInWord w (popc p w) = p := by
  rw [selectInWord, popc_eq_countFilter]
  have hsplit : List.range 64 = List.range p ++ (List.range (64 - p)).map (p + ·) := by
    conv_lhs => rw [show (64 : Nat) = p + (64 - p) from by omega, List.range_add]
  rw [hsplit, List.filter_append, List.getD_eq_getElem?_getD,
    List.getElem?_append_right (Nat.le_refl _), Nat.sub_self]
  obtain ⟨m, hm⟩ : ∃ m, 64 - p = m + 1 := ⟨64 - p - 1, by omega⟩
  rw [hm, List.range_succ_eq_map, List.map_cons]
  have hfp : (fun b => w.testBit b) (p + 0) = true := by simpa using hbit
  rw [List.filter_cons_of_pos hfp]
  simp

/-- Buffers agreeing on all bits below `n` have the same bit counts up
to `n`. -/
theorem bitsCount_congr (ws ws' : List Nat) (n : Nat)
    (h : ∀ j, j < n → bitGet ws j = bitGet ws' j) :
    ∀ i, i ≤ n → bitsCount ws i = bitsCount ws' i := by
  intro i
  induction i with
  | zero => intro _; rfl
  | succ g ih =>
    intro hi
    rw [bitsCount_succ, bitsCount_succ, ih (by omega), h g (by omega)]

/-- Out-of-range reads of the two-zero-word buffer. -/
theorem getD_two_zeros (p : Nat) : ([0, 0] : List Nat).getD p 0 = 0 := by
  rcases p with _ | _ | q
  · rfl
  · rfl
  · simp [List.getD_eq_getElem?_getD]

/-- On an all-zero buffer the final word scan of the classic select never
reaches rank 1: every word (in range or past the end) contributes zero. -/
theorem cWordScan_zeros : ∀ fuel p, cWordScan true [0, 0] fuel p 1 = none := by
  intro fuel
  induction fuel with
  | zero => intro p; rfl
  | succ f ih =>
    intro p
    show (if popc 64 (([0, 0] : List Nat).getD p 0) < 1 then
        cWordScan true [0, 0] f (p + 1) (1 - popc 64 (([0, 0] : List Nat).getD p 0))
      else some (p, 1)) = none
    rw [getD_two_zeros p, popc_zero_right]
    show cWordScan true [0, 0] f (p + 1) (1 - 0) = none
    exact ih (p + 1)

/-! ### Claim theorems -/

set_option maxRecDepth 40000 in
/-- Claim C1: REFUTED (code bug). On the two-word bit vector with set
bits 5 and 9 (words [544, 0], so rank and select are queried within the
domain n = 127, |P| = 2) and with the uninitialized L0 cell reading back
1, the classic select1(2) answers 5 although rank1(5) = 0, so
rank1(select1(2)) = 0 differs from 2 - 1; likewise bit 9 is set with
rank1(9) = 1 but select1(rank1(9) + 1) = 5 instead of 9.  With junk 0
the same query answers 9: Rank::init adds the running L1 entry into the
uninitialized cell l0_[1], and the L0 scan of RankSelect::select1 reads
that cell. -/
theorem claim_C1 :
    cSelect1 true (cSelInit true [544, 0] 1) 2 10 = some 5 ∧
    cRank1 true (cRankInit true [544, 0] 1) 5 = 0 ∧
    cRank1 true (cRankInit true [544, 0] 1) 9 = 1 ∧
    bitGet [544, 0] 9 = 1 ∧ bitsCount [544, 0] 127 = 2 ∧
    cSelect1 true (cSelInit true [544, 0] 0) 2 10 = some 9 := by decide

/-- Claim C2: CONFIRMED. For every polarity specialization and every
word buffer covering n bits (with the flat variant's 44-bit L1 counter
in range), all three rank structures satisfy rank1(0) = 0,
rank1(n) = |P|, rank0(i) + rank1(i) = i on [0, n], and rank1 grows by 0
or 1 at each step. -/
theorem claim_C2 (pol : Bool) (ws : List Nat) (junk : Nat)
    (hb : ∀ w ∈ ws, w < 2 ^ 64) (n : Nat) (hn : ws.length = n / 64 + 1)
    (hsz : ws.length < 2 ^ 38) :
    (cRank1 pol (cRankInit pol ws junk) 0 = 0 ∧
      fRank1 pol (fRankInit pol ws junk) 0 = 0 ∧
      wRank1 pol (wRankInit pol ws junk) 0 = 0) ∧
    (cRank1 pol (cRankInit pol ws junk) n = bitsCount ws n ∧
      fRank1 pol (fRankInit pol ws junk) n = bitsCount ws n ∧
      wRank1 pol (wRankInit pol ws junk) n = bitsCount ws n) ∧
    (∀ i, i ≤ n →
      cRank0 pol (cRankInit pol ws junk) i +
        cRank1 pol (cRankInit pol ws junk) i = i ∧
      fRank0 pol (fRankInit pol ws junk) i +
        fRank1 pol (fRankInit pol ws junk) i = i ∧
      wRank0 pol (wRankInit pol ws junk) i +
        wRank1 pol (wRankInit pol ws junk) i = i) ∧
    (∀ i, i + 1 ≤ n →
      (cRank1 pol (cRankInit pol ws junk) (i + 1) =
          cRank1 pol (cRankInit pol ws junk) i ∨
        cRank1 pol (cRankInit pol ws junk) (i + 1) =
          cRank1 pol (cRankInit pol ws junk) i + 1) ∧
      (fRank1 pol (fRankInit pol ws junk) (i + 1) =
          fRank1 pol (fRankInit pol ws junk) i ∨
        fRank1 pol (fRankInit pol ws junk) (i + 1) =
          fRank1 pol (fRankInit pol ws junk) i + 1) ∧
      (wRank1 pol (wRankInit pol ws junk) (i + 1) =
          wRank1 pol (wRankInit pol ws junk) i ∨
        wRank1 pol (wRankInit pol ws junk) (i + 1) =
          wRank1 pol (wRankInit pol ws junk) i + 1)) := by
  have hc := fun i (hi : i ≤ n) => cRank1_correct pol ws junk hb n i hn hi
  have hf := fun i (hi : i ≤ n) => fRank1_correct pol ws junk hb n i hn hi hsz
  have hw := fun i (hi : i ≤ n) => wRank1_correct pol ws junk hb n i hn hi
  refine ⟨⟨hc 0 (Nat.zero_le n), hf 0 (Nat.zero_le n), hw 0 (Nat.zero_le n)⟩,
    ⟨hc n (Nat.le_refl n), hf n (Nat.le_refl n), hw n (Nat.le_refl n)⟩,
    ?_, ?_⟩
  · intro i hi
    have h1 := hc i hi
    have h2 := hf i hi
    have h3 := hw i hi
    have hle := bitsCount_le ws i
    refine ⟨?_, ?_, ?_⟩
    · rw [cRank0, h1]
      omega
    · rw [fRank0, h2]
      omega
    · rw [wRank0, h3]
      omega
  · intro i hi
    have h1 := hc i (by omega)
    have h1s := hc (i + 1) hi
    have h2 := hf i (by omega)
    have h2s := hf (i + 1) hi
    have h3 := hw i (by omega)
    have h3s := hw (i + 1) hi
    have hg : bitGet ws i ≤ 1 := by
      rw [bitGet]
      exact bitOf_le_one _ _
    refine ⟨?_, ?_, ?_⟩
    · rw [h1s, h1, bitsCount_succ]
      omega
    · rw [h2s, h2, bitsCount_succ]
      omega
    · rw [h3s, h3, bitsCount_succ]
      omega

/-- Witness for C2 on the concrete buffer [5, 0] with n = 64. -/
theorem claim_C2_witness :
    ((∀ w ∈ ([5, 0] : List Nat), w < 2 ^ 64) ∧
      ([5, 0] : List Nat).length = 64 / 64 + 1 ∧
      ([5, 0] : List Nat).length < 2 ^ 38) ∧
    ((cRank1 true (cRankInit true [5, 0] 7) 0 = 0 ∧
      fRank1 true (fRankInit true [5, 0] 7) 0 = 0 ∧
      wRank1 true (wRankInit true [5, 0] 7) 0 = 0) ∧
    (cRank1 true (cRankInit true [5, 0] 7) 64 = bitsCount [5, 0] 64 ∧
      fRank1 true (fRankInit true [5, 0] 7) 64 = bitsCount [5, 0] 64 ∧
      wRank1 true (wRankInit true [5, 0] 7) 64 = bitsCount [5, 0] 64) ∧
    (∀ i, i ≤ 64 →
      cRank0 true (cRankInit true [5, 0] 7) i +
        cRank1 true (cRankInit true [5, 0] 7) i = i ∧
      fRank0 true (fRankInit true [5, 0] 7) i +
        fRank1 true (fRankInit true [5, 0] 7) i = i ∧
      wRank0 true (wRankInit true [5, 0] 7) i +
        wRank1 true (wRankInit true [5, 0] 7) i = i) ∧
    (∀ i, i + 1 ≤ 64 →
      (cRank1 true (cRankInit true [5, 0] 7) (i + 1) =
          cRank1 true (cRankInit true [5, 0] 7) i ∨
        cRank1 true (cRankInit true [5, 0] 7) (i + 1) =
          cRank1 true (cRankInit true [5, 0] 7) i + 1) ∧
      (fRank1 true (fRankInit true [5, 0] 7) (i + 1) =
          fRank1 true (fRankInit true [5, 0] 7) i ∨
        fRank1 true (fRankInit true [5, 0] 7) (i + 1) =
          fRank1 true (fRankInit true [5, 0] 7) i + 1) ∧
      (wRank1 true (wRankInit true [5, 0] 7) (i + 1) =
          wRank1 true (wRankInit true [5, 0] 7) i ∨
        wRank1 true (wRankInit true [5, 0] 7) (i + 1) =
          wRank1 true (wRankInit true [5, 0] 7) i + 1))) :=
  ⟨⟨by decide, by decide, by decide⟩,
    claim_C2 true [5, 0] 7 (by decide) 64 (by decide) (by decide)⟩

/-- Claim C3: REFUTED (code bug). On the same input words [544, 0] (and
with the uninitialized memory of both structures reading back 1), the
classic and flat implementations disagree on select1(2): the classic
variant answers 5 (through the junk-polluted L0 cell) while the flat
variant answers 9 (the correct position). -/
theorem claim_C3 :
    cSelect1 true (cSelInit true [544, 0] 1) 2 10 = some 5 ∧
    fSelect1 true (fSelInit true [544, 0] 1) 2 10 = some 9 := by decide

/-- Claim C4: REFUTED (code bug). For the all-zero two-word bit vector,
select1(1) queries one past the number of ones, but the classic
implementation does not return its sentinel: the guard of the L0 scan
stops one position short of l0_end, so the early return is unreachable,
and the final word scan walks past the end of the buffer without ever
accumulating rank 1 (modelled by returning none for every fuel bound);
moreover the would-be sentinel data_size_ is the word count, not the
word count times 64. -/
theorem claim_C4 : ∀ fuel, cSelect1 true (cSelInit true [0, 0] 0) 1 fuel = none := by
  intro fuel
  have hred : cSelect1 true (cSelInit true [0, 0] 0) 1 fuel =
      (match cWordScan true [0, 0] fuel 24 1 with
        | none => none
        | some (lp, r) =>
          some (lp * 64 + selectInWord (([0, 0] : List Nat).getD lp 0) (r - 1))) := rfl
  rw [hred, cWordScan_zeros fuel 24]

set_option maxRecDepth 40000 in
/-- Claim C5: REFUTED (code bug). For the ONE-optimized WideRankSelect
over 33 all-zero words (2112 bits, 5 L2-blocks, zero ones and 2112
zeros), the constructed zero-polarity sample array is [0, 1, 2, 3]: the
init loop writes a sample at every L2-block from index 1 on, because it
subtracts the boolean comparison result from l2_pos * 512 and uses the
difference as the sampling condition.  Under the claimed invariant the
array would have at most one meaningful entry (the running zero count
2112 never reaches 1 + 8192), so entry k = 1 is not the largest block
index whose running count is at most 1 + 8192. -/
theorem claim_C5 :
    (wSelInit true (List.replicate 33 0) 0).samples0 = [0, 1, 2, 3] ∧
    (wSelInit true (List.replicate 33 0) 0).samples1 = [] ∧
    (wSelInit true (List.replicate 33 0) 0).rk.l2.length = 5 ∧
    pcWords true (List.replicate 33 0) 0 33 = 0 := by decide

/-- Counterexample to the literal C6: for w = 7 and k = 1 (zero-indexed,
1 < popcount 7 = 3) the set bit of rank 1 from the LSB is at offset 1,
but select1_reverse returns 2: it interprets the rank as 1-indexed from
the MSB. -/
theorem claim_C6_cex :
    select1_reverse 7 1 = 2 ∧ selectInWord 7 1 = 1 ∧ 1 < popc 64 7 := by decide

/-- Claim C6: CORRECTED. select1_reverse interprets its rank argument as
1-indexed from the most significant bit: for 1 <= r <= popcount(w) it
returns the offset p <= 63 of a set bit of w with exactly popcount(w) - r
set bits below it, i.e. the (popcount(w) - r)-th set bit counting
zero-indexed from the LSB. -/
theorem claim_C6 (w r : Nat) (hw : w < 2 ^ 64) (hr1 : 1 ≤ r)
    (hr : r ≤ popc 64 w) :
    select1_reverse w r ≤ 63 ∧
    w.testBit (select1_reverse w r) = true ∧
    popc (select1_reverse w r) w = popc 64 w - r ∧
    select1_reverse w r = selectInWord w (popc 64 w - r) := by
  obtain ⟨hbit, hcnt, hle⟩ := select1_rev_main w r hw hr1 hr
  refine ⟨hle, hbit, hcnt, ?_⟩
  have h := selectInWord_spec w (select1_reverse w r) (by omega) hbit
  rw [hcnt] at h
  exact h.symm

/-- Witness for C6 at w = 7, r = 2. -/
theorem claim_C6_witness :
    ((7 : Nat) < 2 ^ 64 ∧ 1 ≤ 2 ∧ 2 ≤ popc 64 7) ∧
    (select1_reverse 7 2 ≤ 63 ∧
      Nat.testBit 7 (select1_reverse 7 2) = true ∧
      popc (select1_reverse 7 2) 7 = popc 64 7 - 2 ∧
      select1_reverse 7 2 = selectInWord 7 (popc 64 7 - 2)) :=
  ⟨⟨by decide, by decide, by decide⟩,
    claim_C6 7 2 (by decide) (by decide) (by decide)⟩

/-- Claim C7: CONFIRMED. Writing bit i of a well-formed bit vector makes
a subsequent read of i return the written value and leaves every other
position unchanged. -/
theorem claim_C7 (bv : BitVector)
    (hlen : bv.data.length = (bv.bit_size >>> 6) + 1) (i : Nat)
    (hi : i < bv.bit_size) (v : Bool) (j : Nat) :
    bvGet (bvSet bv i v) i = (if v then 1 else 0) ∧
      (j ≠ i → bvGet (bvSet bv i v) j = bvGet bv j) :=
  bvSet_get bv hlen i hi v j

/-- Witness for C7 on a ten-bit vector, writing bit 3 and reading bit 5. -/
theorem claim_C7_witness :
    ((⟨10, [0]⟩ : BitVector).data.length =
        ((⟨10, [0]⟩ : BitVector).bit_size >>> 6) + 1 ∧
      3 < (⟨10, [0]⟩ : BitVector).bit_size) ∧
    (bvGet (bvSet ⟨10, [0]⟩ 3 true) 3 = (if true then 1 else 0) ∧
      (5 ≠ 3 → bvGet (bvSet ⟨10, [0]⟩ 3 true) 5 = bvGet ⟨10, [0]⟩ 5)) :=
  ⟨⟨by decide, by decide⟩, claim_C7 ⟨10, [0]⟩ (by decide) 3 (by decide) true 5⟩

/-- Claim C8: CONFIRMED. Growing resize(size, fill) preserves the old
bits and sets every new bit to the fill value; shrinking resize (either
overload) preserves the surviving bits. -/
theorem claim_C8 (bv : BitVector)
    (hlen : bv.data.length = (bv.bit_size >>> 6) + 1) (size : Nat) (v : Bool)
    (junk : Nat) (j : Nat) :
    (bv.bit_size < size →
      (j < bv.bit_size → bvGet (bvResizeFill bv size v junk) j = bvGet bv j) ∧
      (bv.bit_size ≤ j → j < size →
        bvGet (bvResizeFill bv size v junk) j = (if v then 1 else 0))) ∧
    (size < bv.bit_size → j < size →
      bvGet (bvResizeFill bv size v junk) j = bvGet bv j ∧
      bvGet (bvResize bv size junk) j = bvGet bv j) := by
  constructor
  · intro hgrow
    exact bvResizeFill_spec bv hlen size hgrow v junk j
  · intro hshrink hj
    exact ⟨bvResizeFill_shrink bv hlen size v junk hshrink j hj,
      bvResize_shrink bv hlen size junk hshrink j hj⟩

/-- Witness for C8 growing a three-bit vector to seventy bits. -/
theorem claim_C8_witness :
    ((⟨3, [5]⟩ : BitVector).data.length =
        ((⟨3, [5]⟩ : BitVector).bit_size >>> 6) + 1) ∧
    (((⟨3, [5]⟩ : BitVector).bit_size < 70 →
      (1 < (⟨3, [5]⟩ : BitVector).bit_size →
        bvGet (bvResizeFill ⟨3, [5]⟩ 70 true 9) 1 = bvGet ⟨3, [5]⟩ 1) ∧
      ((⟨3, [5]⟩ : BitVector).bit_size ≤ 1 → 1 < 70 →
        bvGet (bvResizeFill ⟨3, [5]⟩ 70 true 9) 1 = (if true then 1 else 0))) ∧
    (70 < (⟨3, [5]⟩ : BitVector).bit_size → 1 < 70 →
      bvGet (bvResizeFill ⟨3, [5]⟩ 70 true 9) 1 = bvGet ⟨3, [5]⟩ 1 ∧
      bvGet (bvResize ⟨3, [5]⟩ 70 9) 1 = bvGet ⟨3, [5]⟩ 1)) :=
  ⟨by decide, claim_C8 ⟨3, [5]⟩ (by decide) 70 true 9 1⟩

/-- Claim C9: CONFIRMED. Rank queries do not observe the padding bits:
two equal-length buffers agreeing on all bit positions below n (but
possibly differing at and beyond n, in particular in the tail of the
last word) give identical rank0 and rank1 answers on [0, n] for all
three rank variants, for every polarity and for arbitrary uninitialized
memory contents. -/
theorem claim_C9 (pol : Bool) (ws ws' : List Nat) (junk junk' : Nat)
    (hb : ∀ w ∈ ws, w < 2 ^ 64) (hb' : ∀ w ∈ ws', w < 2 ^ 64)
    (hlen : ws.length = ws'.length) (n : Nat) (hn : ws.length = n / 64 + 1)
    (hsz : ws.length < 2 ^ 38)
    (hagree : ∀ j, j < n → bitGet ws j = bitGet ws' j) :
    ∀ i, i ≤ n →
      cRank1 pol (cRankInit pol ws junk) i =
        cRank1 pol (cRankInit pol ws' junk') i ∧
      cRank0 pol (cRankInit pol ws junk) i =
        cRank0 pol (cRankInit pol ws' junk') i ∧
      fRank1 pol (fRankInit pol ws junk) i =
        fRank1 pol (fRankInit pol ws' junk') i ∧
      fRank0 pol (fRankInit pol ws junk) i =
        fRank0 pol (fRankInit pol ws' junk') i ∧
      wRank1 pol (wRankInit pol ws junk) i =
        wRank1 pol (wRankInit pol ws' junk') i ∧
      wRank0 pol (wRankInit pol ws junk) i =
        wRank0 pol (wRankInit pol ws' junk') i := by
  intro i hi
  have hn' : ws'.length = n / 64 + 1 := by omega
  have hsz' : ws'.length < 2 ^ 38 := by omega
  have hbc := bitsCount_congr ws ws' n hagree i hi
  have h1 := cRank1_correct pol ws junk hb n i hn hi
  have h1' := cRank1_correct pol ws' junk' hb' n i hn' hi
  have h2 := fRank1_correct pol ws junk hb n i hn hi hsz
  have h2' := fRank1_correct pol ws' junk' hb' n i hn' hi hsz'
  have h3 := wRank1_correct pol ws junk hb n i hn hi
  have h3' := wRank1_correct pol ws' junk' hb' n i hn' hi
  refine ⟨?_, ?_, ?_, ?_, ?_, ?_⟩
  · rw [h1, h1', hbc]
  · rw [cRank0, cRank0, h1, h1', hbc]
  · rw [h2, h2', hbc]
  · rw [fRank0, fRank0, h2, h2', hbc]
  · rw [h3, h3', hbc]
  · rw [wRank0, wRank0, h3, h3', hbc]

/-- Witness for C9: the buffers [0] and [2 to the 63] agree below n = 63
and differ at padding bit 63. -/
theorem claim_C9_witness :
    ((∀ w ∈ ([0] : List Nat), w < 2 ^ 64) ∧
      (∀ w ∈ ([2 ^ 63] : List Nat), w < 2 ^ 64) ∧
      ([0] : List Nat).length = ([2 ^ 63] : List Nat).length ∧
      ([0] : List Nat).length = 63 / 64 + 1 ∧
      ([0] : List Nat).length < 2 ^ 38 ∧
      (∀ j, j < 63 → bitGet [0] j = bitGet [2 ^ 63] j)) ∧
    (∀ i, i ≤ 63 →
      cRank1 true (cRankInit true [0] 1) i =
        cRank1 true (cRankInit true [2 ^ 63] 2) i ∧
      cRank0 true (cRankInit true [0] 1) i =
        cRank0 true (cRankInit true [2 ^ 63] 2) i ∧
      fRank1 true (fRankInit true [0] 1) i =
        fRank1 true (fRankInit true [2 ^ 63] 2) i ∧
      fRank0 true (fRankInit true [0] 1) i =
        fRank0 true (fRankInit true [2 ^ 63] 2) i ∧
      wRank1 true (wRankInit true [0] 1) i =
        wRank1 true (wRankInit true [2 ^ 63] 2) i ∧
      wRank0 true (wRankInit true [0] 1) i =
        wRank0 true (wRankInit true [2 ^ 63] 2) i) :=
  ⟨⟨by decide, by decide, by decide, by decide, by decide, by decide⟩,
    claim_C9 true [0] [2 ^ 63] 1 2 (by decide) (by decide) (by decide) 63
      (by decide) (by decide) (by decide)⟩

/-- Claim C10: CONFIRMED. Building any of the six rank and select
structures leaves the underlying word buffer unchanged (the structures
only read the data and write their own arrays; the bit length is copied,
never written). -/
theorem claim_C10 (pol : Bool) (ws : List Nat) (junk : Nat) :
    (cRankInit pol ws junk).ws = ws ∧ (cSelInit pol ws junk).rk.ws = ws ∧
    (fRankInit pol ws junk).ws = ws ∧ (fSelInit pol ws junk).rk.ws = ws ∧
    (wRankInit pol ws junk).ws = ws ∧ (wSelInit pol ws junk).rk.ws = ws := by
  have hc := (cRankInit_done pol ws junk).hws
  have hf := (fRankInit_done pol ws junk).hws
  have hw := (wRankInit_done pol ws junk).hws
  refine ⟨hc, ?_, hf, ?_, hw, ?_⟩
  · show (cRankInit pol ws junk).ws = ws
    exact hc
  · show (fRankInit pol ws junk).ws = ws
    exact hf
  · show (wRankInit pol ws junk).ws = ws
    exact hw

end PastaBV
